import Mathlib

/-!
LzjTinySTL red-black tree (`MyTinySTL/rb_tree.h`).

A shallow embedding of the pointer algorithms of `rb_tree.h`.

* A node pointer (`NodePtr`) is an `Option Nat`: `none` is `nullptr`, `some a` is the node stored
  at address `a`.
* The heap is a total map from addresses to node records.
* Every function that dereferences a pointer returns an `Option`: `none` means that no result is
  produced (a null pointer was dereferenced, or the fuel of a loop ran out).
* The reference parameters `root`, `leftmost`, `rightmost` are the fields `parent`, `left`,
  `right` of the header node, as in `RbTree::root()`, `RbTree::leftmost()`,
  `RbTree::rightmost()`; the header address is the parameter `hd`.
-/

namespace LzjTinySTL

/-- Node pointer: `none` is `nullptr`. -/
abbrev Ptr := Option Nat

/-- Colour constant `kRbTreeRed = false`. -/
abbrev kRbTreeRed : Bool := false

/-- Colour constant `kRbTreeBlack = true`. -/
abbrev kRbTreeBlack : Bool := true

/-- Node record: `RbTreeNodeBase` (`parent`, `left`, `right`, `color`) together with the `value`
of `RbTreeNode`. -/
structure Node where
  parent : Ptr
  left : Ptr
  right : Ptr
  color : Bool
  value : Nat
deriving DecidableEq

/-- Heap: the node stored at each address. -/
abbrev Heap := Nat → Node

/-- Store the record `n` at address `a`. -/
def Heap.set (h : Heap) (a : Nat) (n : Node) : Heap :=
  fun b => if b = a then n else h b

/-- Read `p->parent`. -/
def getParent (h : Heap) : Ptr → Option Ptr
  | none => none
  | some a => some (h a).parent

/-- Read `p->left`. -/
def getLeft (h : Heap) : Ptr → Option Ptr
  | none => none
  | some a => some (h a).left

/-- Read `p->right`. -/
def getRight (h : Heap) : Ptr → Option Ptr
  | none => none
  | some a => some (h a).right

/-- Read `p->color`. -/
def getColor (h : Heap) : Ptr → Option Bool
  | none => none
  | some a => some (h a).color

/-- Assignment `p->parent = v`. -/
def setParent (h : Heap) : Ptr → Ptr → Option Heap
  | none, _ => none
  | some a, v => some (h.set a { h a with parent := v })

/-- Assignment `p->left = v`. -/
def setLeft (h : Heap) : Ptr → Ptr → Option Heap
  | none, _ => none
  | some a, v => some (h.set a { h a with left := v })

/-- Assignment `p->right = v`. -/
def setRight (h : Heap) : Ptr → Ptr → Option Heap
  | none, _ => none
  | some a, v => some (h.set a { h a with right := v })

/-- Assignment `p->color = c`. -/
def setColor (h : Heap) : Ptr → Bool → Option Heap
  | none, _ => none
  | some a, c => some (h.set a { h a with color := c })

/-- The reference `root()`, that is `header_->parent`. -/
def root (hd : Nat) (h : Heap) : Ptr := (h hd).parent

/-- The reference `leftmost()`, that is `header_->left`. -/
def leftmost (hd : Nat) (h : Heap) : Ptr := (h hd).left

/-- The reference `rightmost()`, that is `header_->right`. -/
def rightmost (hd : Nat) (h : Heap) : Ptr := (h hd).right

/-- Assignment through the reference `root`. -/
def setRoot (hd : Nat) (h : Heap) (v : Ptr) : Heap := h.set hd { h hd with parent := v }

/-- Assignment through the reference `leftmost`. -/
def setLeftmost (hd : Nat) (h : Heap) (v : Ptr) : Heap := h.set hd { h hd with left := v }

/-- Assignment through the reference `rightmost`. -/
def setRightmost (hd : Nat) (h : Heap) (v : Ptr) : Heap := h.set hd { h hd with right := v }

/-- `rb_tree_min`: follow `left` links while they are not null. -/
def rb_tree_min (h : Heap) : Nat → Ptr → Option Ptr
  | 0, _ => none
  | fuel + 1, x => do
    let l ← getLeft h x
    if l ≠ none then rb_tree_min h fuel l else pure x

/-- `rb_tree_max`: follow `right` links while they are not null. -/
def rb_tree_max (h : Heap) : Nat → Ptr → Option Ptr
  | 0, _ => none
  | fuel + 1, x => do
    let r ← getRight h x
    if r ≠ none then rb_tree_max h fuel r else pure x

/-- `rb_tree_is_lchild`: `node == node->parent->left`. -/
def rb_tree_is_lchild (h : Heap) (node : Ptr) : Option Bool := do
  let p ← getParent h node
  let l ← getLeft h p
  pure (decide (node = l))

/-- `rb_tree_is_red`: `node->color == kRbTreeRed`. -/
def rb_tree_is_red (h : Heap) (node : Ptr) : Option Bool := do
  let c ← getColor h node
  pure (c == kRbTreeRed)

/-- `rb_tree_set_black`. -/
def rb_tree_set_black (h : Heap) (node : Ptr) : Option Heap := setColor h node kRbTreeBlack

/-- `rb_tree_set_red`. -/
def rb_tree_set_red (h : Heap) (node : Ptr) : Option Heap := setColor h node kRbTreeRed

/-- The loop `while (!rb_tree_is_lchild(node)) node = node->parent;` of `rb_tree_next`, followed
by `return node->parent`. -/
def rb_tree_next_up (h : Heap) : Nat → Ptr → Option Ptr
  | 0, _ => none
  | fuel + 1, node => do
    let isl ← rb_tree_is_lchild h node
    if !isl then
      let p ← getParent h node
      rb_tree_next_up h fuel p
    else getParent h node

/-- `rb_tree_next`. -/
def rb_tree_next (h : Heap) (fuel : Nat) (node : Ptr) : Option Ptr := do
  let r ← getRight h node
  if r ≠ none then rb_tree_min h fuel r else rb_tree_next_up h fuel node

/-- `rb_tree_rotate_left(x, root)`, statement by statement; the last but one statement of the
source is `y->left = y`. -/
def rb_tree_rotate_left (hd : Nat) (x : Ptr) (h : Heap) : Option Heap := do
  -- auto y = x->right;
  let y ← getRight h x
  -- x->right = y->left;
  let yl ← getLeft h y
  let h ← setRight h x yl
  -- if (y->left != nullptr) y->left->parent = x;
  let yl ← getLeft h y
  let h ← if yl ≠ none then setParent h yl x else pure h
  -- y->parent = x->parent;
  let xp ← getParent h x
  let h ← setParent h y xp
  -- if (x == root) root = y; else if (is_lchild(x)) x->parent->left = y; else x->parent->right = y;
  let h ←
    if x = root hd h then pure (setRoot hd h y)
    else do
      let isl ← rb_tree_is_lchild h x
      let xp ← getParent h x
      if isl then setLeft h xp y else setRight h xp y
  -- y->left = y;
  let h ← setLeft h y y
  -- x->parent = y;
  setParent h x y

/-- `rb_tree_rotate_right(x, root)`, statement by statement. -/
def rb_tree_rotate_right (hd : Nat) (x : Ptr) (h : Heap) : Option Heap := do
  -- auto y = x->left;
  let y ← getLeft h x
  -- x->left = y->right;
  let yr ← getRight h y
  let h ← setLeft h x yr
  -- if (y->right) y->right->parent = x;
  let yr ← getRight h y
  let h ← if yr ≠ none then setParent h yr x else pure h
  -- y->parent = x->parent;
  let xp ← getParent h x
  let h ← setParent h y xp
  -- if (x == root) root = y; else if (is_lchild(x)) x->parent->left = y; else x->parent->right = y;
  let h ←
    if x = root hd h then pure (setRoot hd h y)
    else do
      let isl ← rb_tree_is_lchild h x
      let xp ← getParent h x
      if isl then setLeft h xp y else setRight h xp y
  -- y->right = x;
  let h ← setRight h y x
  -- x->parent = y;
  setParent h x y

/-- The tail shared by the two "uncle black or absent" branches of `rb_tree_insert_rebalance`
when the parent is a left child: `set_black(x->parent); set_red(x->parent->parent);
rotate_right(x->parent->parent, root)`. The source writes the second argument of this call as
`&root`; it is read as the reference `root`. -/
def insert_case5_left (hd : Nat) (x : Ptr) (h : Heap) : Option Heap := do
  let p ← getParent h x
  let h ← rb_tree_set_black h p
  let p ← getParent h x
  let g ← getParent h p
  let h ← rb_tree_set_red h g
  let p ← getParent h x
  let g ← getParent h p
  rb_tree_rotate_right hd g h

/-- The tail of the branch of `rb_tree_insert_rebalance` taken when the parent is a right child:
`set_black(x->parent); set_red(x->parent->parent); rotate_left(x->parent->parent, root)` (again
with `&root` read as `root`). -/
def insert_case5_right (hd : Nat) (x : Ptr) (h : Heap) : Option Heap := do
  let p ← getParent h x
  let h ← rb_tree_set_black h p
  let p ← getParent h x
  let g ← getParent h p
  let h ← rb_tree_set_red h g
  let p ← getParent h x
  let g ← getParent h p
  rb_tree_rotate_left hd g h

/-- Case 3 of `rb_tree_insert_rebalance`: `set_black(x->parent); set_black(uncle);
x = x->parent->parent; set_red(x)`. Returns the new `x` and the heap. -/
def insert_case3 (x uncle : Ptr) (h : Heap) : Option (Ptr × Heap) := do
  let p ← getParent h x
  let h ← rb_tree_set_black h p
  let h ← rb_tree_set_black h uncle
  let p ← getParent h x
  let g ← getParent h p
  let h ← rb_tree_set_red h g
  pure (g, h)

/-- Outcome of one iteration of the loop of `rb_tree_insert_rebalance`: either the loop goes on
with a new `x`, or it was left by `break`. -/
inductive InsertStep where
  | next (x : Ptr) (h : Heap)
  | stop (h : Heap)

/-- Body of the loop of `rb_tree_insert_rebalance` when `x->parent` is a left child. -/
def insert_body_left (hd : Nat) (x : Ptr) (h : Heap) : Option InsertStep := do
  -- auto uncle = x->parent->parent->right;
  let p ← getParent h x
  let g ← getParent h p
  let uncle ← getRight h g
  let ured ← if uncle ≠ none then rb_tree_is_red h uncle else pure false
  if ured then do
    -- case 3
    let (x, h) ← insert_case3 x uncle h
    pure (InsertStep.next x h)
  else do
    let xl ← rb_tree_is_lchild h x
    if !xl then do
      -- case 4: x = x->parent; rb_tree_rotate_left(x, root);
      let x ← getParent h x
      let h ← rb_tree_rotate_left hd x h
      let h ← insert_case5_left hd x h
      pure (InsertStep.stop h)
    else do
      let h ← insert_case5_left hd x h
      pure (InsertStep.stop h)

/-- Body of the loop of `rb_tree_insert_rebalance` when `x->parent` is not a left child. The
source tests `!rb_tree_is_lchild(x)` on this side as well. -/
def insert_body_right (hd : Nat) (x : Ptr) (h : Heap) : Option InsertStep := do
  -- auto uncle = x->parent->parent->left;
  let p ← getParent h x
  let g ← getParent h p
  let uncle ← getLeft h g
  let ured ← if uncle ≠ none then rb_tree_is_red h uncle else pure false
  if ured then do
    -- case 3
    let (x, h) ← insert_case3 x uncle h
    pure (InsertStep.next x h)
  else do
    let xl ← rb_tree_is_lchild h x
    if !xl then do
      -- case 4: x = x->parent; rb_tree_rotate_right(x, root);
      let x ← getParent h x
      let h ← rb_tree_rotate_right hd x h
      let h ← insert_case5_right hd x h
      pure (InsertStep.stop h)
    else do
      let h ← insert_case5_right hd x h
      pure (InsertStep.stop h)

/-- The loop test `x != root && rb_tree_is_red(x->parent)` of `rb_tree_insert_rebalance`. -/
def insert_loop_test (hd : Nat) (x : Ptr) (h : Heap) : Option Bool :=
  if x = root hd h then pure false
  else do
    let p ← getParent h x
    rb_tree_is_red h p

/-- One iteration of the loop body of `rb_tree_insert_rebalance`: the choice of the side. -/
def insert_body (hd : Nat) (x : Ptr) (h : Heap) : Option InsertStep := do
  let p ← getParent h x
  let pl ← rb_tree_is_lchild h p
  if pl then insert_body_left hd x h else insert_body_right hd x h

/-- The `while` loop of `rb_tree_insert_rebalance`; `fuel` bounds the number of iterations. -/
def insert_rebalance_loop (hd : Nat) : Nat → Ptr → Heap → Option Heap
  | 0, _, _ => none
  | fuel + 1, x, h =>
    match insert_loop_test hd x h with
    | none => none
    | some false => pure h
    | some true =>
      match insert_body hd x h with
      | none => none
      | some (InsertStep.next x2 h2) => insert_rebalance_loop hd fuel x2 h2
      | some (InsertStep.stop h2) => pure h2

/-- `rb_tree_insert_rebalance(x, root)`. -/
def rb_tree_insert_rebalance (hd : Nat) (fuel : Nat) (x : Ptr) (h : Heap) : Option Heap := do
  let h ← rb_tree_set_red h x
  let h ← insert_rebalance_loop hd fuel x h
  rb_tree_set_black h (root hd h)

/-- The assignment `z->parent->rigth = x` of the source. `RbTreeNodeBase` declares the members
`parent`, `left`, `right` and `color` and no member `rigth`: the statement dereferences its
target and writes none of the declared links. -/
def setRigth (h : Heap) : Ptr → Ptr → Option Heap
  | none, _ => none
  | some _, _ => some h

/-- The test `p == nullptr || !rb_tree_is_red(p)` used on the children of `brother`. -/
def nullOrBlack (h : Heap) (p : Ptr) : Option Bool :=
  if p = none then pure true
  else do
    let r ← rb_tree_is_red h p
    pure (!r)

/-- Outcome of one iteration of the loop of `rb_tree_erase_rebalance`: either the loop goes on
with new values of `x` and `xp`, or it was left by `break`. -/
inductive EraseStep where
  | next (x xp : Ptr) (h : Heap)
  | stop (x : Ptr) (h : Heap)

/-- The test `(brother->left == nullptr || !rb_tree_is_red(brother->left)) &&
(brother->right == nullptr || !rb_tree_is_red(brother->right))`. -/
def brotherChildrenBlack (h : Heap) (brother : Ptr) : Option Bool := do
  let bl ← getLeft h brother
  let lblack ← nullOrBlack h bl
  if lblack then do
    let br ← getRight h brother
    nullOrBlack h br
  else pure false

/-- Case 1 on the left side: `if (rb_tree_is_red(brother)) { set_black(brother); set_red(xp);
rotate_left(xp, root); brother = xp->right; }`. Returns `brother` and the heap. -/
def erase_case1_left (hd : Nat) (xp brother : Ptr) (h : Heap) : Option (Ptr × Heap) := do
  let bred ← rb_tree_is_red h brother
  if bred then do
    let h ← rb_tree_set_black h brother
    let h ← rb_tree_set_red h xp
    let h ← rb_tree_rotate_left hd xp h
    let b ← getRight h xp
    pure (b, h)
  else pure (brother, h)

/-- Case 3 on the left side: `if (brother->right == nullptr || !rb_tree_is_red(brother->right))
{ if (brother->left != nullptr) set_black(brother->left); set_red(brother);
rotate_right(brother, root); brother = xp->right; }`. -/
def erase_case3_left (hd : Nat) (xp brother : Ptr) (h : Heap) : Option (Ptr × Heap) := do
  let br ← getRight h brother
  let rblack ← nullOrBlack h br
  if rblack then do
    let bl ← getLeft h brother
    let h ← if bl ≠ none then rb_tree_set_black h bl else pure h
    let h ← rb_tree_set_red h brother
    let h ← rb_tree_rotate_right hd brother h
    let b ← getRight h xp
    pure (b, h)
  else pure (brother, h)

/-- Case 4 on the left side: `brother->color = xp->color; set_black(xp);
if (brother->right != nullptr) set_black(brother->right); rotate_left(xp, root)`. -/
def erase_case4_left (hd : Nat) (xp brother : Ptr) (h : Heap) : Option Heap := do
  let c ← getColor h xp
  let h ← setColor h brother c
  let h ← rb_tree_set_black h xp
  let br ← getRight h brother
  let h ← if br ≠ none then rb_tree_set_black h br else pure h
  rb_tree_rotate_left hd xp h

/-- Body of the loop of `rb_tree_erase_rebalance` when `x == xp->left`. -/
def erase_body_left (hd : Nat) (x xp : Ptr) (h : Heap) : Option EraseStep := do
  -- auto brother = xp->right;
  let brother ← getRight h xp
  let (brother, h) ← erase_case1_left hd xp brother h
  let both ← brotherChildrenBlack h brother
  if both then do
    -- case 2
    let h ← rb_tree_set_red h brother
    let xp2 ← getParent h xp
    pure (EraseStep.next xp xp2 h)
  else do
    let (brother, h) ← erase_case3_left hd xp brother h
    let h ← erase_case4_left hd xp brother h
    pure (EraseStep.stop x h)

/-- Case 1 on the right side: `if (rb_tree_is_red(brother)) { set_black(brother); set_red(xp);
rotate_right(xp, root); brother = xp->left; }`. -/
def erase_case1_right (hd : Nat) (xp brother : Ptr) (h : Heap) : Option (Ptr × Heap) := do
  let bred ← rb_tree_is_red h brother
  if bred then do
    let h ← rb_tree_set_black h brother
    let h ← rb_tree_set_red h xp
    let h ← rb_tree_rotate_right hd xp h
    let b ← getLeft h xp
    pure (b, h)
  else pure (brother, h)

/-- Case 3 on the right side: `if (brother->left == nullptr || !rb_tree_is_red(brother->left))
{ if (brother->right != nullptr) set_black(brother->right); set_red(brother);
rotate_left(brother, root); brother = xp->left; }`. -/
def erase_case3_right (hd : Nat) (xp brother : Ptr) (h : Heap) : Option (Ptr × Heap) := do
  let bl ← getLeft h brother
  let lblack ← nullOrBlack h bl
  if lblack then do
    let br ← getRight h brother
    let h ← if br ≠ none then rb_tree_set_black h br else pure h
    let h ← rb_tree_set_red h brother
    let h ← rb_tree_rotate_left hd brother h
    let b ← getLeft h xp
    pure (b, h)
  else pure (brother, h)

/-- Case 4 on the right side: `brother->color = xp->color; set_black(xp);
if (brother->left != nullptr) set_black(brother->left); rotate_right(xp, root)`. -/
def erase_case4_right (hd : Nat) (xp brother : Ptr) (h : Heap) : Option Heap := do
  let c ← getColor h xp
  let h ← setColor h brother c
  let h ← rb_tree_set_black h xp
  let bl ← getLeft h brother
  let h ← if bl ≠ none then rb_tree_set_black h bl else pure h
  rb_tree_rotate_right hd xp h

/-- Body of the loop of `rb_tree_erase_rebalance` when `x != xp->left`. -/
def erase_body_right (hd : Nat) (x xp : Ptr) (h : Heap) : Option EraseStep := do
  -- auto brother = xp->left;
  let brother ← getLeft h xp
  let (brother, h) ← erase_case1_right hd xp brother h
  let both ← brotherChildrenBlack h brother
  if both then do
    -- case 2
    let h ← rb_tree_set_red h brother
    let xp2 ← getParent h xp
    pure (EraseStep.next xp xp2 h)
  else do
    let (brother, h) ← erase_case3_right hd xp brother h
    let h ← erase_case4_right hd xp brother h
    pure (EraseStep.stop x h)

/-- The loop test `x != root && (x == nullptr || !rb_tree_is_red(x))` of
`rb_tree_erase_rebalance`. -/
def erase_loop_test (hd : Nat) (x : Ptr) (h : Heap) : Option Bool :=
  if x = root hd h then pure false else nullOrBlack h x

/-- One iteration of the loop body of `rb_tree_erase_rebalance`: the choice of the side by
`x == xp->left`. -/
def erase_body (hd : Nat) (x xp : Ptr) (h : Heap) : Option EraseStep := do
  let xpl ← getLeft h xp
  if x = xpl then erase_body_left hd x xp h else erase_body_right hd x xp h

/-- The `while` loop of `rb_tree_erase_rebalance` over `x` and `xp`; it returns the final `x`
and the heap. -/
def erase_rebalance_loop (hd : Nat) : Nat → Ptr → Ptr → Heap → Option (Ptr × Heap)
  | 0, _, _, _ => none
  | fuel + 1, x, xp, h =>
    match erase_loop_test hd x h with
    | none => none
    | some false => pure (x, h)
    | some true =>
      match erase_body hd x xp h with
      | none => none
      | some (EraseStep.next x2 xp2 h2) => erase_rebalance_loop hd fuel x2 xp2 h2
      | some (EraseStep.stop x2 h2) => pure (x2, h2)

/-- Inside the branch `y != z`, the part `if (y != z->right) { xp = y->parent;
if (x != nullptr) x->parent = y->parent; y->parent->left = x; y->right = z->right;
z->right->parent = y; } else { xp = y; }`. Returns `xp` and the heap. -/
def erase_detach_successor (z y x : Ptr) (h : Heap) : Option (Ptr × Heap) := do
  let zr ← getRight h z
  if y ≠ zr then do
    let xp ← getParent h y
    let h ← if x ≠ none then setParent h x xp else pure h
    let yp ← getParent h y
    let h ← setLeft h yp x
    let zr ← getRight h z
    let h ← setRight h y zr
    let zr ← getRight h z
    let h ← setParent h zr y
    pure (xp, h)
  else pure (y, h)

/-- The statement `if (root == z) root = v; else if (rb_tree_is_lchild(z)) z->parent->left = v;
else z->parent->right = v;` of the branch `y != z`. -/
def erase_relink_parent (hd : Nat) (z v : Ptr) (h : Heap) : Option Heap :=
  if root hd h = z then pure (setRoot hd h v)
  else do
    let isl ← rb_tree_is_lchild h z
    let zp ← getParent h z
    if isl then setLeft h zp v else setRight h zp v

/-- The statement `mystl::swap(y->color, z->color)`. -/
def swapColor (h : Heap) (y z : Ptr) : Option Heap := do
  let cy ← getColor h y
  let cz ← getColor h z
  let h ← setColor h y cz
  setColor h z cy

/-- The branch `y != z` of `rb_tree_erase_rebalance` (`z` has two children, `y` is its
successor): `y` takes the place of `z`, `x` the place of `y`. Returns `xp` and the heap. -/
def erase_splice_two (hd : Nat) (z y x : Ptr) (h : Heap) : Option (Ptr × Heap) := do
  -- z->left->parent = y;
  let zl ← getLeft h z
  let h ← setParent h zl y
  -- y->left = z->left;
  let zl ← getLeft h z
  let h ← setLeft h y zl
  let (xp, h) ← erase_detach_successor z y x h
  let h ← erase_relink_parent hd z y h
  -- y->parent = z->parent;
  let zp ← getParent h z
  let h ← setParent h y zp
  let h ← swapColor h y z
  pure (xp, h)

/-- The branch `y == z` of `rb_tree_erase_rebalance` (`z` has at most one child `x`), with the
update of `leftmost` and `rightmost`. Returns `xp` and the heap. -/
def erase_splice_one (hd : Nat) (fuel : Nat) (z y x : Ptr) (h : Heap) : Option (Ptr × Heap) := do
  -- xp = y->parent;
  let xp ← getParent h y
  -- if (x) x->parent = y->parent;
  let h ← if x ≠ none then setParent h x xp else pure h
  -- if (root == z) root = x; else if (is_lchild(z)) z->parent->left = x; else z->parent->rigth = x;
  let h ←
    if root hd h = z then pure (setRoot hd h x)
    else do
      let isl ← rb_tree_is_lchild h z
      let zp ← getParent h z
      if isl then setLeft h zp x else setRigth h zp x
  -- if (leftmost == z) leftmost = x == nullptr ? xp : rb_tree_min(x);
  let h ←
    if leftmost hd h = z then do
      let m ← if x = none then pure xp else rb_tree_min h fuel x
      pure (setLeftmost hd h m)
    else pure h
  -- if (rightmost == z) rightmost = x == nullptr ? xp : rb_tree_max(x);
  let h ←
    if rightmost hd h = z then do
      let m ← if x = none then pure xp else rb_tree_max h fuel x
      pure (setRightmost hd h m)
    else pure h
  pure (xp, h)

/-- `rb_tree_erase_rebalance(z, root, leftmost, rightmost)`; returns the heap and the returned
pointer `y`. -/
def rb_tree_erase_rebalance (hd : Nat) (fuel : Nat) (z : Ptr) (h : Heap) :
    Option (Heap × Ptr) := do
  -- auto y = (z->left == nullptr || z->right == nullptr) ? z : rb_tree_next(z);
  let zl ← getLeft h z
  let y ←
    if zl = none then pure z
    else do
      let zr ← getRight h z
      if zr = none then pure z else rb_tree_next h fuel z
  -- auto x = y->left != nullptr ? y->left : y->right;
  let yl ← getLeft h y
  let x ← if yl ≠ none then pure yl else getRight h y
  let (xp, h) ← if y ≠ z then erase_splice_two hd z y x h else erase_splice_one hd fuel z y x h
  -- y = z (in the first branch; in the second y == z already)
  let y := z
  -- if (!rb_tree_is_red(y)) { loop; if (x != nullptr) set_black(x); }
  let yred ← rb_tree_is_red h y
  if !yred then do
    let (x, h) ← erase_rebalance_loop hd fuel x xp h
    let h ← if x ≠ none then rb_tree_set_black h x else pure h
    pure (h, y)
  else pure (h, y)

/-- The loop `while (y->right == node) { node = y; y = y->parent; }` of `inc`; returns the final
`node` and `y`. -/
def inc_up (h : Heap) : Nat → Ptr → Ptr → Option (Ptr × Ptr)
  | 0, _, _ => none
  | fuel + 1, node, y => do
    let yr ← getRight h y
    if yr = node then do
      let yp ← getParent h y
      inc_up h fuel y yp
    else pure (node, y)

/-- `RbTreeIteratorBase::inc`, as a function from the iterator's `node` to its new value. -/
def inc (h : Heap) (fuel : Nat) (node : Ptr) : Option Ptr := do
  let r ← getRight h node
  if r ≠ none then rb_tree_min h fuel r
  else do
    let y ← getParent h node
    let (node, y) ← inc_up h fuel node y
    let r ← getRight h node
    if r ≠ y then pure y else pure node

/-- The loop `while (node == y->left) { node = y; y = y->parent; }` of `dec`; returns the final
`y`. -/
def dec_up (h : Heap) : Nat → Ptr → Ptr → Option Ptr
  | 0, _, _ => none
  | fuel + 1, node, y => do
    let yl ← getLeft h y
    if node = yl then do
      let yp ← getParent h y
      dec_up h fuel y yp
    else pure y

/-- `RbTreeIteratorBase::dec`, as a function from the iterator's `node` to its new value. -/
def dec (h : Heap) (fuel : Nat) (node : Ptr) : Option Ptr := do
  let p ← getParent h node
  let pp ← getParent h p
  let isHeader ← if pp = node then rb_tree_is_red h node else pure false
  if isHeader then getRight h node
  else do
    let l ← getLeft h node
    if l ≠ none then rb_tree_max h fuel l
    else do
      let y ← getParent h node
      dec_up h fuel node y

/-- Modelled from the spec: the empty tree set up by `rb_tree_init`, which the constructor calls
and `rb_tree.h` does not define. "The header's own color is fixed to Red"; the root
(`header.parent`) is null and the cached min/max "point to itself (empty state)". -/
def emptyTree (hd : Nat) : Heap :=
  fun _ => { parent := none, left := some hd, right := some hd, color := kRbTreeRed, value := 0 }

/-- Modelled from the spec: the descent of `insert_unique`, whose definition is not part of
`rb_tree.h` (the class only declares it). "Descend from root comparing keys, insert as a new leaf
at the first null slot reached"; the unique variant gives up when it meets an equal key. Returns
the parent of the null slot and whether the slot is its left link. -/
def find_slot (h : Heap) (key : Nat) : Nat → Nat → Bool → Ptr → Option (Option (Nat × Bool))
  | 0, _, _, _ => none
  | _ + 1, par, isLeft, none => some (some (par, isLeft))
  | fuel + 1, _, _, some c =>
    if key < (h c).value then find_slot h key fuel c true (h c).left
    else if (h c).value < key then find_slot h key fuel c false (h c).right
    else some none

/-- Modelled from the spec: the link of a fresh leaf `a` holding `key` at the null slot found by
the descent (the missing part of `insert_unique`). The container "maintains the header's cached
leftmost/rightmost pointers": the first node becomes root, leftmost and rightmost; a node linked
to the left of leftmost becomes leftmost, one linked to the right of rightmost becomes
rightmost. -/
def link_leaf (hd : Nat) (a : Nat) (key : Nat) (par : Nat) (isLeft : Bool) (h : Heap) : Heap :=
  let h := h.set a
    { parent := some par, left := none, right := none, color := kRbTreeRed, value := key }
  if par = hd then
    setRightmost hd (setLeftmost hd (setRoot hd h (some a)) (some a)) (some a)
  else if isLeft then
    let h := h.set par { h par with left := some a }
    if leftmost hd h = some par then setLeftmost hd h (some a) else h
  else
    let h := h.set par { h par with right := some a }
    if rightmost hd h = some par then setRightmost hd h (some a) else h

/-- Modelled from the spec: `insert_unique(value)` for a node allocated at address `a`: descent,
link of the leaf, then `rb_tree_insert_rebalance(node, root())` ("successful insertion always
calls insertRebalance"). -/
def insert_unique (hd : Nat) (fuel : Nat) (a : Nat) (key : Nat) (h : Heap) : Option Heap := do
  let slot ← find_slot h key fuel hd true (root hd h)
  match slot with
  | none => pure h
  | some (par, isLeft) =>
    rb_tree_insert_rebalance hd fuel (some a) (link_leaf hd a key par isLeft h)

/-- Insert the keys of a list one after the other, the first at address `a`, the next at
`a + 1`, and so on. -/
def insert_all (hd : Nat) (fuel : Nat) : Nat → List Nat → Heap → Option Heap
  | _, [], h => some h
  | a, k :: ks, h => do
    let h ← insert_unique hd fuel a k h
    insert_all hd fuel (a + 1) ks h

/-- Iterate from the position `p` to `end()` (the header) with `inc`, collecting the addresses
visited. -/
def iterate (hd : Nat) (h : Heap) : Nat → Ptr → Option (List Nat)
  | 0, _ => none
  | fuel + 1, p =>
    if p = some hd then some []
    else do
      let a ← p
      let q ← inc h fuel p
      let rest ← iterate hd h fuel q
      pure (a :: rest)

/-- The values stored at a list of addresses. -/
def valuesAt (h : Heap) (l : List Nat) : List Nat := l.map fun a => (h a).value

/-- Shape of a binary tree of addresses: the abstract value of a linked structure. -/
inductive Tree where
  | nil
  | node (l : Tree) (a : Nat) (r : Tree)
deriving DecidableEq

/-- In-order sequence of the addresses of a tree. -/
def Tree.inorder : Tree → List Nat
  | .nil => []
  | .node l a r => l.inorder ++ a :: r.inorder

/-- The pointer to the root of a tree shape. -/
def Tree.ptr : Tree → Ptr
  | .nil => none
  | .node _ a _ => some a

/-- `Rep h par p t`: in the heap `h` the pointer `p` is the root of a linked structure of shape
`t` whose root has parent link `par`: child links follow the shape and the parent link of every
node points back to the node holding it. -/
def Rep (h : Heap) : Ptr → Ptr → Tree → Prop
  | _, p, .nil => p = none
  | par, p, .node l a r =>
    p = some a ∧ (h a).parent = par ∧ Rep h (some a) (h a).left l ∧ Rep h (some a) (h a).right r

instance Rep.decide (h : Heap) : (par p : Ptr) → (t : Tree) → Decidable (Rep h par p t)
  | _, p, .nil => inferInstanceAs (Decidable (p = none))
  | par, p, .node l a r =>
    have := Rep.decide h (some a) (h a).left l
    have := Rep.decide h (some a) (h a).right r
    inferInstanceAs (Decidable (p = some a ∧ (h a).parent = par ∧
      Rep h (some a) (h a).left l ∧ Rep h (some a) (h a).right r))

/-- Well-formed tree with header `hd` and shape `t`: `header.parent` is the root of the
linked structure `t`, the parent link of the root is the header, parent links are consistent
with child links, and the header and the nodes of `t` are pairwise distinct. -/
def WellFormed (hd : Nat) (h : Heap) (t : Tree) : Prop :=
  Rep h (some hd) (root hd h) t ∧ (hd :: t.inorder).Nodup

instance (hd : Nat) (h : Heap) (t : Tree) : Decidable (WellFormed hd h t) :=
  inferInstanceAs (Decidable (_ ∧ _))

/-- No Red node of the shape has a Red child. -/
def noRedRed (h : Heap) : Tree → Bool
  | .nil => true
  | .node l a r =>
    ((h a).color == kRbTreeBlack ||
      ((match l with | .nil => true | .node _ b _ => (h b).color == kRbTreeBlack) &&
       (match r with | .nil => true | .node _ b _ => (h b).color == kRbTreeBlack))) &&
    noRedRed h l && noRedRed h r

/-- Black height: `some n` when every path from the root of the shape to a null link holds
exactly `n` Black nodes, `none` when two paths differ. -/
def blackHeight (h : Heap) : Tree → Option Nat
  | .nil => some 0
  | .node l a r =>
    match blackHeight h l, blackHeight h r with
    | some n, some m =>
      if n = m then some (if (h a).color = kRbTreeBlack then n + 1 else n) else none
    | _, _ => none

/-- The root is Black (or the tree is empty). -/
def rootBlack (h : Heap) : Tree → Bool
  | .nil => true
  | .node _ a _ => (h a).color == kRbTreeBlack

/-- The three red-black invariants on the shape `t`: Black root, no Red node with a Red child,
equal black height on every path. -/
def RedBlack (h : Heap) (t : Tree) : Prop :=
  rootBlack h t = true ∧ noRedRed h t = true ∧ (blackHeight h t).isSome = true

instance (h : Heap) (t : Tree) : Decidable (RedBlack h t) :=
  inferInstanceAs (Decidable (_ ∧ _ ∧ _))

/-- Shape-level right rotation at the node `x`: the node `x` with left child `y` becomes the
right child of `y`, and the former right subtree of `y` becomes the left subtree of `x`. -/
def Tree.rotateRight (x : Nat) : Tree → Tree
  | .nil => .nil
  | .node l a r =>
    if a = x then
      match l with
      | .node ll y lr => .node ll y (.node lr x r)
      | .nil => .node l a r
    else .node (l.rotateRight x) a (r.rotateRight x)

/-- A shape with a single node. -/
def Tree.leaf (a : Nat) : Tree := .node .nil a .nil

/-- The heap whose first addresses hold the listed records (address = position in the list). -/
def heapOf (l : List Node) : Heap := fun a => l.getD a ⟨none, none, none, kRbTreeRed, 0⟩

/-- Erase the nodes of a list one after the other with `rb_tree_erase_rebalance`. -/
def erase_all (hd : Nat) (fuel : Nat) : List Nat → Heap → Option Heap
  | [], h => some h
  | z :: zs, h => do
    let r ← rb_tree_erase_rebalance hd fuel (some z) h
    erase_all hd fuel zs r.1

/-- Header at 0, root 3 (Black) with Red left child 1; the fresh leaf 2 is linked as the right
child of 1 (keys equal addresses). -/
def zigzagLeft : Heap := heapOf [
  ⟨some 3, some 1, some 3, kRbTreeRed, 0⟩,
  ⟨some 3, none, some 2, kRbTreeRed, 1⟩,
  ⟨some 1, none, none, kRbTreeRed, 2⟩,
  ⟨some 0, some 1, none, kRbTreeBlack, 3⟩]

/-- Header at 0, root 1 (Black) with Red right child 2; the fresh leaf 3 is linked as the right
child of 2. -/
def ascending : Heap := heapOf [
  ⟨some 1, some 1, some 3, kRbTreeRed, 0⟩,
  ⟨some 0, none, some 2, kRbTreeBlack, 1⟩,
  ⟨some 1, none, some 3, kRbTreeRed, 2⟩,
  ⟨some 2, none, none, kRbTreeRed, 3⟩]

/-- Header at 0, root 1 (Black) with Red right child 3; the fresh leaf 2 is linked as the left
child of 3. -/
def zigzagRight : Heap := heapOf [
  ⟨some 1, some 1, some 3, kRbTreeRed, 0⟩,
  ⟨some 0, none, some 3, kRbTreeBlack, 1⟩,
  ⟨some 3, none, none, kRbTreeRed, 2⟩,
  ⟨some 1, some 2, none, kRbTreeRed, 3⟩]

/-- Header at 0; root 2 (Black) with children 1 (Black) and 4 (Black); 4 has the Red children 3
and 5. -/
def fiveNodes : Heap := heapOf [
  ⟨some 2, some 1, some 5, kRbTreeRed, 0⟩,
  ⟨some 2, none, none, kRbTreeBlack, 1⟩,
  ⟨some 0, some 1, some 4, kRbTreeBlack, 2⟩,
  ⟨some 4, none, none, kRbTreeRed, 3⟩,
  ⟨some 2, some 3, some 5, kRbTreeBlack, 4⟩,
  ⟨some 4, none, none, kRbTreeRed, 5⟩]

/-- The shape of `fiveNodes`. -/
def fiveShape : Tree := .node (.leaf 1) 2 (.node (.leaf 3) 4 (.leaf 5))

/-- Header at 0; root 2 (Black) with children 1 (Black) and 4 (Red); 4 has the Black children 3
and 5. -/
def redBrother : Heap := heapOf [
  ⟨some 2, some 1, some 5, kRbTreeRed, 0⟩,
  ⟨some 2, none, none, kRbTreeBlack, 1⟩,
  ⟨some 0, some 1, some 4, kRbTreeBlack, 2⟩,
  ⟨some 4, none, none, kRbTreeBlack, 3⟩,
  ⟨some 2, some 3, some 5, kRbTreeRed, 4⟩,
  ⟨some 4, none, none, kRbTreeBlack, 5⟩]

/-- Header at 0; root 3 (Black) with children 1 (Black) and 4 (Black); 1 has the Red right
child 2. -/
def twoChildren : Heap := heapOf [
  ⟨some 3, some 1, some 4, kRbTreeRed, 0⟩,
  ⟨some 3, none, some 2, kRbTreeBlack, 1⟩,
  ⟨some 1, none, none, kRbTreeRed, 2⟩,
  ⟨some 0, some 1, some 4, kRbTreeBlack, 3⟩,
  ⟨some 3, none, none, kRbTreeBlack, 4⟩]

/-- The shape of `twoChildren`. -/
def twoChildrenShape : Tree := .node (.node .nil 1 (.leaf 2)) 3 (.leaf 4)

/-- Header at 0; root 2 (Black) with the Red children 1 and 3. -/
def threeNodes : Heap := heapOf [
  ⟨some 2, some 1, some 3, kRbTreeRed, 0⟩,
  ⟨some 2, none, none, kRbTreeRed, 1⟩,
  ⟨some 0, some 1, some 3, kRbTreeBlack, 2⟩,
  ⟨some 2, none, none, kRbTreeRed, 3⟩]

/-- The shape of `threeNodes`. -/
def threeShape : Tree := .node (.leaf 1) 2 (.leaf 3)

/-- Header at 0; root 2 (Black) with children 1 (Black) and 3 (Black); 3 has the Red right
child 4. -/
def fourNodes : Heap := heapOf [
  ⟨some 2, some 1, some 4, kRbTreeRed, 0⟩,
  ⟨some 2, none, none, kRbTreeBlack, 1⟩,
  ⟨some 0, some 1, some 3, kRbTreeBlack, 2⟩,
  ⟨some 2, none, some 4, kRbTreeBlack, 3⟩,
  ⟨some 3, none, none, kRbTreeRed, 4⟩]

/-- The shape of `fourNodes`. -/
def fourShape : Tree := .node (.leaf 1) 2 (.node .nil 3 (.leaf 4))

/-- Header at 0; root 4 with children 2 and 5; 2 has the children 1 and 3. -/
def leftHeavy : Heap := heapOf [
  ⟨some 4, some 1, some 5, kRbTreeRed, 0⟩,
  ⟨some 2, none, none, kRbTreeBlack, 1⟩,
  ⟨some 4, some 1, some 3, kRbTreeRed, 2⟩,
  ⟨some 2, none, none, kRbTreeBlack, 3⟩,
  ⟨some 0, some 2, some 5, kRbTreeBlack, 4⟩,
  ⟨some 4, none, none, kRbTreeBlack, 5⟩]

/-- The shape of `leftHeavy`. -/
def leftHeavyShape : Tree := .node (.node (.leaf 1) 2 (.leaf 3)) 4 (.leaf 5)

/-- The shape reached in the round trip after the keys 5,3,8,1,4,7,9 were inserted at the
addresses 1..7 and the node holding 5 (address 1) was erased. -/
def roundTripShape : Tree :=
  .node (.node (.leaf 4) 2 (.leaf 5)) 6 (.node .nil 3 (.leaf 7))

/-! ## Further definitions: steps, cached extremes, order, colours, range insertion -/

/-- One step along a `left` link. -/
def leftStep (h : Heap) (a b : Nat) : Prop := (h a).left = some b

/-- One step along a `right` link. -/
def rightStep (h : Heap) (a b : Nat) : Prop := (h a).right = some b

/-- The cached extremes of the header: `leftmost` is the first and `rightmost` the last node of
the in-order sequence, and both are the header itself when the tree is empty. -/
def ExtremesCached (hd : Nat) (h : Heap) (t : Tree) : Prop :=
  leftmost hd h = some (t.inorder.head?.getD hd) ∧
  rightmost hd h = some (t.inorder.getLast?.getD hd)

instance (hd : Nat) (h : Heap) (t : Tree) : Decidable (ExtremesCached hd h t) :=
  inferInstanceAs (Decidable (_ ∧ _))

/-- Apply `inc` `k` times. -/
def inc_iter (h : Heap) (fuel : Nat) : Nat → Ptr → Option Ptr
  | 0, p => some p
  | k + 1, p => (inc_iter h fuel k p).bind (inc h fuel)

/-- Binary-search-tree order of the stored values under `<`: the values of the left subtree
compare less than the value of the node, those of the right subtree do not. -/
def BstOrdered (h : Heap) : Tree → Prop
  | .nil => True
  | .node l a r =>
    (∀ b ∈ l.inorder, (h b).value < (h a).value) ∧
    (∀ b ∈ r.inorder, ¬ (h b).value < (h a).value) ∧ BstOrdered h l ∧ BstOrdered h r

/-- Two heaps give every node the same colour. -/
def SameColor (h h' : Heap) : Prop := ∀ a, (h' a).color = (h a).color

/-- The heap after the assignment `a->color = c`. -/
def recolor (h : Heap) (a : Nat) (c : Bool) : Heap := h.set a { h a with color := c }

/-- `RbTree::max_size()`: `static_cast<size_type>(-1)`, the largest value of a `size_type` of
`w` bits. -/
def max_size (w : Nat) : Nat := 2 ^ w - 1

/-- State of an `RbTree` object: the nodes reachable from `header_`, and `node_count_`. -/
structure RbTreeState where
  heap : Heap
  node_count : Nat

/-- How a call ends: normally, or by raising a length error. -/
inductive Outcome where
  | done
  | length_error
deriving DecidableEq

/-- Modelled from the spec: the macro `THROW_LENGTH_ERROR_IF(cond, msg)` of `exceptdef.h`,
which is not part of the sources at hand. "Insertion that would exceed the allocator's
representable size fails with a length/overflow error": when `cond` holds the call ends at once
with a length error, otherwise `body` runs. -/
def THROW_LENGTH_ERROR_IF (cond : Bool) (st : RbTreeState) (body : RbTreeState → RbTreeState) :
    Outcome × RbTreeState :=
  if cond then (Outcome.length_error, st) else (Outcome.done, body st)

/-- The test `node_count_ > max_size() - n` in `size_type` arithmetic of `w` bits. -/
def size_too_big (w : Nat) (node_count n : Nat) : Bool :=
  decide (node_count > (max_size w + 2 ^ w - n % 2 ^ w) % 2 ^ w)

/-- `RbTree::insert_multi(first, last)`. The range is the list `xs`; the single insertion
`insert_multi(end(), *first)`, which `rb_tree.h` only declares, is the parameter `ins`. -/
def insert_multi_range {α : Type} (w : Nat) (ins : RbTreeState → α → RbTreeState)
    (xs : List α) (st : RbTreeState) : Outcome × RbTreeState :=
  -- size_type n = mystl::distance(first, last);
  let n := xs.length % 2 ^ w
  THROW_LENGTH_ERROR_IF (size_too_big w st.node_count n) st
    -- for (; n > 0; --n, ++first) insert_multi(end(), *first);
    (fun st => (xs.take n).foldl ins st)

/-- `RbTree::insert_unique(first, last)`, with the single insertion
`insert_unique(end(), *first)` as the parameter `ins`. -/
def insert_unique_range {α : Type} (w : Nat) (ins : RbTreeState → α → RbTreeState)
    (xs : List α) (st : RbTreeState) : Outcome × RbTreeState :=
  -- size_type n = mystl::distance(first, last);
  let n := xs.length % 2 ^ w
  THROW_LENGTH_ERROR_IF (size_too_big w st.node_count n) st
    -- for (; n > 0; --n, ++first) insert_unique(end(), *first);
    (fun st => (xs.take n).foldl ins st)

instance BstOrdered.decidable (h : Heap) : (t : Tree) → Decidable (BstOrdered h t)
  | .nil => inferInstanceAs (Decidable True)
  | .node l a r =>
    have := BstOrdered.decidable h l
    have := BstOrdered.decidable h r
    inferInstanceAs (Decidable ((∀ b ∈ l.inorder, (h b).value < (h a).value) ∧
      (∀ b ∈ r.inorder, ¬ (h b).value < (h a).value) ∧ BstOrdered h l ∧ BstOrdered h r))

/-- The mirror image of a heap: the `left` and `right` links of every node exchanged. -/
def mirror (h : Heap) : Heap := fun a => { h a with left := (h a).right, right := (h a).left }

/-- The mirror image of a shape. -/
def Tree.mirror : Tree → Tree
  | .nil => .nil
  | .node l a r => .node r.mirror a l.mirror

/-- Header at 0, root 3 (Black) with Red left child 2; the fresh leaf 1 is linked as the left
child of 2. -/
def zigzigLeft : Heap := heapOf [
  ⟨some 3, some 1, some 3, kRbTreeRed, 0⟩,
  ⟨some 2, none, none, kRbTreeRed, 1⟩,
  ⟨some 3, some 1, none, kRbTreeRed, 2⟩,
  ⟨some 0, some 2, none, kRbTreeBlack, 3⟩]

/-- Header at 0; root 2 (Black) with the Red children 1 and 3; the fresh Red leaf 4 is linked as
the right child of 3. -/
def redUncle : Heap := heapOf [
  ⟨some 2, some 1, some 4, kRbTreeRed, 0⟩,
  ⟨some 2, none, none, kRbTreeRed, 1⟩,
  ⟨some 0, some 1, some 3, kRbTreeBlack, 2⟩,
  ⟨some 2, none, some 4, kRbTreeRed, 3⟩,
  ⟨some 3, none, none, kRbTreeRed, 4⟩]

/-- The header test of `dec`: `node->parent->parent == node && rb_tree_is_red(node)`. -/
def dec_header_test (h : Heap) (node : Ptr) : Option Bool := do
  let p ← getParent h node
  let pp ← getParent h p
  if pp = node then rb_tree_is_red h node else pure false

/-- The branches of `dec` taken when the header test fails: `else if (node->left != nullptr)
node = rb_tree_max(node->left); else { climb }`. -/
def dec_rest (h : Heap) (fuel : Nat) (node : Ptr) : Option Ptr := do
  let l ← getLeft h node
  if l ≠ none then rb_tree_max h fuel l
  else do
    let y ← getParent h node
    dec_up h fuel node y

/-- Header at 0; root 2 (Black), children 1 (Black) and 3 (Black), 3 with the Red right child
4; the fresh leaf 5 is linked as the right child of 4. -/
def ascendingFive : Heap := heapOf [
  ⟨some 2, some 1, some 5, kRbTreeRed, 0⟩,
  ⟨some 2, none, none, kRbTreeBlack, 1⟩,
  ⟨some 0, some 1, some 3, kRbTreeBlack, 2⟩,
  ⟨some 2, none, some 4, kRbTreeBlack, 3⟩,
  ⟨some 3, none, some 5, kRbTreeRed, 4⟩,
  ⟨some 4, none, none, kRbTreeRed, 5⟩]

/-- Header at 0; root 3 (Black), children 2 (Black) and 4 (Black), 2 with the Red left child
1. -/
def oneChildLeft : Heap := heapOf [
  ⟨some 3, some 1, some 4, kRbTreeRed, 0⟩,
  ⟨some 2, none, none, kRbTreeRed, 1⟩,
  ⟨some 3, some 1, none, kRbTreeBlack, 2⟩,
  ⟨some 0, some 2, some 4, kRbTreeBlack, 3⟩,
  ⟨some 3, none, none, kRbTreeBlack, 4⟩]

/-- The shape with the subtree rooted at `a` replaced by `s`. -/
def Tree.replaceAt : Tree → Nat → Tree → Tree
  | .nil, _, _ => .nil
  | .node l b r, a, s => if b = a then s else .node (l.replaceAt a s) b (r.replaceAt a s)

/-- The subtree rooted at `a` (the empty shape when `a` is not a node of the shape). -/
def Tree.subtreeAt (a : Nat) : Tree → Tree
  | .nil => .nil
  | .node l b r =>
    if b = a then .node l b r else if a ∈ l.inorder then l.subtreeAt a else r.subtreeAt a

/-- The heap after the assignment `a->parent = v`. -/
def updParent (h : Heap) (a : Nat) (v : Ptr) : Heap := h.set a { h a with parent := v }

/-- The heap after the assignment `a->left = v`. -/
def updLeft (h : Heap) (a : Nat) (v : Ptr) : Heap := h.set a { h a with left := v }

/-- The heap after the assignment `a->right = v`. -/
def updRight (h : Heap) (a : Nat) (v : Ptr) : Heap := h.set a { h a with right := v }

/-- The node that `rb_tree_erase_rebalance` splices out:
`(z->left == nullptr || z->right == nullptr) ? z : rb_tree_next(z)`. -/
def erase_spliced (h : Heap) (fuel : Nat) (z : Ptr) : Option Ptr := do
  let zl ← getLeft h z
  if zl = none then pure z
  else do
    let zr ← getRight h z
    if zr = none then pure z else rb_tree_next h fuel z

/-- The statements of `rb_tree_erase_rebalance` that precede `if (!rb_tree_is_red(y))`: the
choice of `y` and `x` and the splice. Returns `x`, `xp` and the heap. -/
def erase_splice (hd : Nat) (fuel : Nat) (z : Ptr) (h : Heap) : Option (Ptr × Ptr × Heap) := do
  let y ← erase_spliced h fuel z
  let yl ← getLeft h y
  let x ← if yl ≠ none then pure yl else getRight h y
  let (xp, h) ← if y ≠ z then erase_splice_two hd z y x h else erase_splice_one hd fuel z y x h
  pure (x, xp, h)

/-- The statements of `rb_tree_erase_rebalance` from `if (!rb_tree_is_red(y))` on, where `y`
is `z`: the loop and `rb_tree_set_black(x)` when `z` is not Red, nothing otherwise. -/
def erase_fixup (hd : Nat) (fuel : Nat) (z x xp : Ptr) (h : Heap) : Option (Heap × Ptr) := do
  let yred ← rb_tree_is_red h z
  if !yred then do
    let (x, h) ← erase_rebalance_loop hd fuel x xp h
    let h ← if x ≠ none then rb_tree_set_black h x else pure h
    pure (h, z)
  else pure (h, z)

/-! ## Shapes and linked structures -/

theorem Tree.inorder_rotateRight (x : Nat) (t : Tree) :
    (t.rotateRight x).inorder = t.inorder := by
  induction t with
  | nil => rfl
  | node l a r ihl ihr =>
    unfold Tree.rotateRight
    split_ifs with hax
    · subst hax
      cases l with
      | nil => rfl
      | node ll y lr => simp [Tree.inorder]
    · simp [Tree.inorder, ihl, ihr]

theorem Tree.rotateRight_of_not_mem (x : Nat) (t : Tree) (hx : x ∉ t.inorder) :
    t.rotateRight x = t := by
  induction t with
  | nil => rfl
  | node l a r ihl ihr =>
    simp only [Tree.inorder, List.mem_append, List.mem_cons, not_or] at hx
    unfold Tree.rotateRight
    rw [if_neg (fun h => hx.2.1 h.symm), ihl hx.1, ihr hx.2.2]

theorem Rep.ptr_eq {h : Heap} {par p : Ptr} {t : Tree} (hr : Rep h par p t) : p = t.ptr := by
  cases t with
  | nil => simpa [Rep] using hr
  | node l a r => simpa [Rep, Tree.ptr] using hr.1

/-- Frame rule: a heap that agrees on the links of the nodes of `t` represents the same shape. -/
theorem Rep.frame {h h' : Heap} {t : Tree} : ∀ {par p : Ptr}, Rep h par p t →
    (∀ a ∈ t.inorder, (h' a).parent = (h a).parent ∧ (h' a).left = (h a).left ∧
      (h' a).right = (h a).right) → Rep h' par p t := by
  induction t with
  | nil => intro par p hr _; simpa [Rep] using hr
  | node l a r ihl ihr =>
    intro par p hr hag
    obtain ⟨hp, hpar, hl, hrr⟩ := hr
    obtain ⟨e1, e2, e3⟩ := hag a (by simp [Tree.inorder])
    refine ⟨hp, by rw [e1, hpar], ?_, ?_⟩
    · rw [e2]; exact ihl hl (fun b hb => hag b (by simp [Tree.inorder, hb]))
    · rw [e3]; exact ihr hrr (fun b hb => hag b (by simp [Tree.inorder, hb]))

/-- Frame rule with a new parent link for the root of the shape. -/
theorem Rep.reparent {h h' : Heap} {t : Tree} {par par' p : Ptr} (hr : Rep h par p t)
    (hroot : ∀ a, p = some a → (h' a).parent = par')
    (hag : ∀ a ∈ t.inorder, (p ≠ some a → (h' a).parent = (h a).parent) ∧
      (h' a).left = (h a).left ∧ (h' a).right = (h a).right)
    (hnd : t.inorder.Nodup) : Rep h' par' p t := by
  cases t with
  | nil => simpa [Rep] using hr
  | node l a r =>
    obtain ⟨hp, hpar, hl, hrr⟩ := hr
    simp only [Tree.inorder] at hnd
    have hnd' := List.nodup_append.1 hnd
    have hal : a ∉ l.inorder := fun hm => hnd'.2.2 hm (by simp)
    have har : a ∉ r.inorder := (List.nodup_cons.1 hnd'.2.1).1
    obtain ⟨-, e2, e3⟩ := hag a (by simp [Tree.inorder])
    refine ⟨hp, hroot a hp, ?_, ?_⟩
    · rw [e2]
      refine hl.frame (fun b hb => ?_)
      obtain ⟨f1, f2, f3⟩ := hag b (by simp [Tree.inorder, hb])
      refine ⟨f1 ?_, f2, f3⟩
      rw [hp]; intro hab; injection hab with hab; exact hal (hab ▸ hb)
    · rw [e3]
      refine hrr.frame (fun b hb => ?_)
      obtain ⟨f1, f2, f3⟩ := hag b (by simp [Tree.inorder, hb])
      refine ⟨f1 ?_, f2, f3⟩
      rw [hp]; intro hab; injection hab with hab; exact har (hab ▸ hb)

/-- The left child of a node of the shape is a node of the shape. -/
theorem Rep.left_mem {h : Heap} {t : Tree} : ∀ {par p : Ptr}, Rep h par p t →
    ∀ {a b : Nat}, a ∈ t.inorder → (h a).left = some b → b ∈ t.inorder := by
  induction t with
  | nil => intro par p _ a b ha; simp [Tree.inorder] at ha
  | node l c r ihl ihr =>
    intro par p hr a b ha hab
    obtain ⟨hp, hpar, hl, hrr⟩ := hr
    simp only [Tree.inorder, List.mem_append, List.mem_cons] at ha ⊢
    rcases ha with ha | rfl | ha
    · exact Or.inl (ihl hl ha hab)
    · rw [hab] at hl
      have := hl.ptr_eq
      cases l with
      | nil => simp [Tree.ptr] at this
      | node ll d lr =>
        simp only [Tree.ptr, Option.some.injEq] at this
        subst this
        left; simp [Tree.inorder]
    · exact Or.inr (Or.inr (ihr hrr ha hab))

/-- The right child of a node of the shape is a node of the shape. -/
theorem Rep.right_mem {h : Heap} {t : Tree} : ∀ {par p : Ptr}, Rep h par p t →
    ∀ {a b : Nat}, a ∈ t.inorder → (h a).right = some b → b ∈ t.inorder := by
  induction t with
  | nil => intro par p _ a b ha; simp [Tree.inorder] at ha
  | node l c r ihl ihr =>
    intro par p hr a b ha hab
    obtain ⟨hp, hpar, hl, hrr⟩ := hr
    simp only [Tree.inorder, List.mem_append, List.mem_cons] at ha ⊢
    rcases ha with ha | rfl | ha
    · exact Or.inl (ihl hl ha hab)
    · rw [hab] at hrr
      have := hrr.ptr_eq
      cases r with
      | nil => simp [Tree.ptr] at this
      | node rl d rr =>
        simp only [Tree.ptr, Option.some.injEq] at this
        subst this
        right; right; simp [Tree.inorder]
    · exact Or.inr (Or.inr (ihr hrr ha hab))


/-- Core of the right rotation: if `h'` carries the links that a right rotation at `x` (with
left child `y`) writes, every structure of `h` containing `x` is rotated in `h'`. -/
theorem Rep.rotate_right_shape {h h' : Heap} {x y : Nat} (hxy : (h x).left = some y)
    (hx1 : (h' x).parent = some y) (hx2 : (h' x).left = (h y).right)
    (hx3 : (h' x).right = (h x).right) (hy1 : (h' y).parent = (h x).parent)
    (hy2 : (h' y).left = (h y).left) (hy3 : (h' y).right = some x) :
    ∀ (t : Tree) {par p : Ptr}, Rep h par p t → t.inorder.Nodup → x ∈ t.inorder →
      (∀ a ∈ t.inorder, a ≠ x → a ≠ y →
        (h' a).parent = (if (h y).right = some a then some x else (h a).parent) ∧
        (h' a).left = (if (h a).left = some x then some y else (h a).left) ∧
        (h' a).right = (if (h a).right = some x then some y else (h a).right)) →
      Rep h' par (if p = some x then some y else p) (t.rotateRight x) := by
  intro t
  induction t with
  | nil => intro par p _ _ hx; simp [Tree.inorder] at hx
  | node l a r ihl ihr =>
    intro par p hr hnd hx hag
    have hr0 := hr
    obtain ⟨hp, hpar, hl, hrr⟩ := hr
    by_cases hax : a = x
    · subst hax
      rw [hxy] at hl
      cases l with
      | nil => simp [Rep] at hl
      | node ll y' lr =>
        obtain ⟨hy', hypar, hll, hlr⟩ := hl
        simp only [Option.some.injEq] at hy'
        subst hy'
        simp [Tree.inorder, List.nodup_append, List.nodup_cons] at hnd
        obtain ⟨hndll, ⟨⟨hylr, hya, hyr⟩, hndlr, ⟨har, hndr⟩, halr, hdlr⟩, hyll, hdll, hall, hdllr⟩ := hnd
        have hL : Rep h (some a) (some y) (.node ll y lr) := ⟨rfl, hypar, hll, hlr⟩
        simp only [Tree.rotateRight, if_pos, hp, if_true]
        refine ⟨rfl, by rw [hy1, hpar], ?_, ?_⟩
        rotate_left
        · rw [hy3]
          refine ⟨rfl, hx1, ?_, ?_⟩
          · -- former right subtree of y, now left subtree of x
            rw [hx2]
            refine hlr.reparent ?_ (fun c hc => ?_) hndlr
            · intro c hc
              have hcm : c ∈ lr.inorder := by
                have := hlr.ptr_eq
                rw [hc] at this
                cases lr with
                | nil => simp [Tree.ptr] at this
                | node _ d _ =>
                  simp only [Tree.ptr, Option.some.injEq] at this
                  simp [Tree.inorder, this]
              have hca : c ≠ a := fun e => halr (e ▸ hcm)
              have hcy : c ≠ y := fun e => hylr (e ▸ hcm)
              rw [(hag c (by simp [Tree.inorder, hcm]) hca hcy).1, if_pos hc]
            · have hca : c ≠ a := fun e => halr (e ▸ hc)
              have hcy : c ≠ y := fun e => hylr (e ▸ hc)
              obtain ⟨f1, f2, f3⟩ := hag c (by simp [Tree.inorder, hc]) hca hcy
              refine ⟨fun hne => by rw [f1, if_neg hne], ?_, ?_⟩
              · rw [f2, if_neg]
                intro e
                exact halr (hlr.left_mem hc e)
              · rw [f3, if_neg]
                intro e
                exact halr (hlr.right_mem hc e)
          · -- right subtree of x
            rw [hx3]
            refine hrr.frame (fun c hc => ?_)
            have hca : c ≠ a := fun e => har (e ▸ hc)
            have hcy : c ≠ y := fun e => hyr (e ▸ hc)
            obtain ⟨f1, f2, f3⟩ := hag c (by simp [Tree.inorder, hc]) hca hcy
            refine ⟨?_, ?_, ?_⟩
            · rw [f1, if_neg]
              intro e
              have : c ∈ (Tree.node ll y lr).inorder :=
                hL.right_mem (by simp [Tree.inorder]) e
              simp only [Tree.inorder, List.mem_append, List.mem_cons] at this
              rcases this with h1 | h1 | h1
              · exact hdllr h1 hc
              · exact hcy h1
              · exact hdlr h1 hc
            · rw [f2, if_neg]
              intro e
              exact har (hrr.left_mem hc e)
            · rw [f3, if_neg]
              intro e
              exact har (hrr.right_mem hc e)
        · -- left subtree of y
          rw [hy2]
          refine hll.frame (fun c hc => ?_)
          have hca : c ≠ a := fun e => hall (e ▸ hc)
          have hcy : c ≠ y := fun e => hyll (e ▸ hc)
          obtain ⟨f1, f2, f3⟩ := hag c (by simp [Tree.inorder, hc]) hca hcy
          refine ⟨?_, ?_, ?_⟩
          · rw [f1, if_neg]
            intro e
            have := hlr.ptr_eq
            rw [e] at this
            cases lr with
            | nil => simp [Tree.ptr] at this
            | node _ d _ =>
              simp only [Tree.ptr, Option.some.injEq] at this
              exact hdll hc (by simp [Tree.inorder, this])
          · rw [f2, if_neg]
            intro e
            exact hall (hll.left_mem hc e)
          · rw [f3, if_neg]
            intro e
            exact hall (hll.right_mem hc e)
    · -- the rotation happens below `a`
      simp only [Tree.inorder, List.mem_append, List.mem_cons] at hx
      simp [Tree.inorder, List.nodup_append, List.nodup_cons] at hnd
      obtain ⟨hndl, ⟨har, hndr⟩, hal, hdisj⟩ := hnd
      have hpx : p ≠ some x := by rw [hp]; intro e; injection e with e; exact hax e
      rw [if_neg hpx]
      have hlsub : ∀ c ∈ l.inorder, c ∈ (Tree.node l a r).inorder := fun c hc => by
        simp [Tree.inorder, hc]
      have hrsub : ∀ c ∈ r.inorder, c ∈ (Tree.node l a r).inorder := fun c hc => by
        simp [Tree.inorder, hc]
      have hym : y ∈ (Tree.node l a r).inorder :=
        hr0.left_mem (by simp only [Tree.inorder, List.mem_append, List.mem_cons]; tauto) hxy
      rcases hx with hxl | hxa | hxr
      · -- x in the left subtree
        have hyl : y ∈ l.inorder := hl.left_mem hxl hxy
        have hay : a ≠ y := fun e => hal (e ▸ hyl)
        obtain ⟨f1, f2, f3⟩ := hag a (by simp [Tree.inorder]) hax hay
        have hxr : x ∉ r.inorder := fun hm => hdisj hxl hm
        simp only [Tree.rotateRight, if_neg hax, Tree.rotateRight_of_not_mem x r hxr]
        refine ⟨hp, ?_, ?_, ?_⟩
        · rw [f1, if_neg, hpar]
          intro e
          exact hal (hl.right_mem hyl e)
        · rw [f2]
          exact ihl hl hndl hxl (fun c hc => hag c (hlsub c hc))
        · rw [f3, if_neg (fun e => hxr (by
            have := hrr.ptr_eq; rw [e] at this
            cases r with
            | nil => simp [Tree.ptr] at this
            | node _ d _ =>
              simp only [Tree.ptr, Option.some.injEq] at this
              simp [Tree.inorder, this]))]
          refine hrr.frame (fun c hc => ?_)
          have hcx : c ≠ x := fun e => hxr (e ▸ hc)
          have hcy : c ≠ y := fun e => hdisj hyl (e ▸ hc)
          obtain ⟨g1, g2, g3⟩ := hag c (hrsub c hc) hcx hcy
          refine ⟨?_, ?_, ?_⟩
          · rw [g1, if_neg]
            intro e
            exact hdisj (hl.right_mem hyl e) hc
          · rw [g2, if_neg]
            intro e
            exact hxr (hrr.left_mem hc e)
          · rw [g3, if_neg]
            intro e
            exact hxr (hrr.right_mem hc e)
      · exact absurd hxa.symm hax
      · -- x in the right subtree
        have hyr : y ∈ r.inorder := hrr.left_mem hxr hxy
        have hay : a ≠ y := fun e => har (e ▸ hyr)
        obtain ⟨f1, f2, f3⟩ := hag a (by simp [Tree.inorder]) hax hay
        have hxl : x ∉ l.inorder := fun hm => hdisj hm hxr
        simp only [Tree.rotateRight, if_neg hax, Tree.rotateRight_of_not_mem x l hxl]
        refine ⟨hp, ?_, ?_, ?_⟩
        · rw [f1, if_neg, hpar]
          intro e
          exact har (hrr.right_mem hyr e)
        · rw [f2, if_neg (fun e => hxl (by
            have := hl.ptr_eq; rw [e] at this
            cases l with
            | nil => simp [Tree.ptr] at this
            | node _ d _ =>
              simp only [Tree.ptr, Option.some.injEq] at this
              simp [Tree.inorder, this]))]
          refine hl.frame (fun c hc => ?_)
          have hcx : c ≠ x := fun e => hxl (e ▸ hc)
          have hcy : c ≠ y := fun e => hdisj hc (e ▸ hyr)
          obtain ⟨g1, g2, g3⟩ := hag c (hlsub c hc) hcx hcy
          refine ⟨?_, ?_, ?_⟩
          · rw [g1, if_neg]
            intro e
            exact hdisj hc (hrr.right_mem hyr e)
          · rw [g2, if_neg]
            intro e
            exact hxl (hl.left_mem hc e)
          · rw [g3, if_neg]
            intro e
            exact hxl (hl.right_mem hc e)
        · rw [f3]
          exact ihr hrr hndr hxr (fun c hc => hag c (hrsub c hc))


/-- Local structure at a node `a` of a represented shape: its two subtrees, and its parent. -/
theorem Rep.local {h : Heap} {a : Nat} {t : Tree} : ∀ {par p : Ptr}, Rep h par p t →
    t.inorder.Nodup → a ∈ t.inorder →
    ∃ l r, Rep h (some a) (h a).left l ∧ Rep h (some a) (h a).right r ∧
      (∀ b ∈ l.inorder, b ∈ t.inorder) ∧ (∀ b ∈ r.inorder, b ∈ t.inorder) ∧
      (a :: (l.inorder ++ r.inorder)).Nodup ∧
      ((p = some a ∧ (h a).parent = par) ∨
        (p ≠ some a ∧ ∃ q ∈ t.inorder, (h a).parent = some q ∧
          ((h q).left = some a ∨ (h q).right = some a) ∧
          q ∉ a :: (l.inorder ++ r.inorder))) := by
  induction t with
  | nil => intro par p _ _ ha; simp [Tree.inorder] at ha
  | node l c r ihl ihr =>
    intro par p hr hnd ha
    obtain ⟨hp, hpar, hl, hrr⟩ := hr
    simp only [Tree.inorder, List.mem_append, List.mem_cons] at ha
    simp [Tree.inorder, List.nodup_append, List.nodup_cons] at hnd
    obtain ⟨hndl, ⟨hcr, hndr⟩, hcl, hdisj⟩ := hnd
    rcases ha with hal | hac | har
    · obtain ⟨la, ra, h1, h2, h3, h4, h5, h6⟩ := ihl hl hndl hal
      refine ⟨la, ra, h1, h2, fun b hb => by simp [Tree.inorder, h3 b hb],
        fun b hb => by simp [Tree.inorder, h4 b hb], h5, Or.inr ⟨?_, ?_⟩⟩
      · rw [hp]; intro e; injection e with e; exact hcl (e ▸ hal)
      · rcases h6 with ⟨e1, e2⟩ | ⟨-, q, hq, e1, e2, e3⟩
        · refine ⟨c, by simp [Tree.inorder], e2, Or.inl e1, ?_⟩
          simp only [List.mem_cons, List.mem_append, not_or]
          exact ⟨fun e => hcl (e ▸ hal), fun hm => hcl (h3 c hm), fun hm => hcl (h4 c hm)⟩
        · exact ⟨q, by simp [Tree.inorder, hq], e1, e2, e3⟩
    · subst hac
      refine ⟨l, r, hl, hrr, fun b hb => by simp [Tree.inorder, hb],
        fun b hb => by simp [Tree.inorder, hb], ?_, Or.inl ⟨hp, hpar⟩⟩
      simp [List.nodup_append, List.nodup_cons, hndl, hndr, hcl, hcr]
      exact hdisj
    · obtain ⟨la, ra, h1, h2, h3, h4, h5, h6⟩ := ihr hrr hndr har
      refine ⟨la, ra, h1, h2, fun b hb => by simp [Tree.inorder, h3 b hb],
        fun b hb => by simp [Tree.inorder, h4 b hb], h5, Or.inr ⟨?_, ?_⟩⟩
      · rw [hp]; intro e; injection e with e; exact hcr (e ▸ har)
      · rcases h6 with ⟨e1, e2⟩ | ⟨-, q, hq, e1, e2, e3⟩
        · refine ⟨c, by simp [Tree.inorder], e2, Or.inr e1, ?_⟩
          simp only [List.mem_cons, List.mem_append, not_or]
          exact ⟨fun e => hcr (e ▸ har), fun hm => hcr (h3 c hm), fun hm => hcr (h4 c hm)⟩
        · exact ⟨q, by simp [Tree.inorder, hq], e1, e2, e3⟩

/-- The parent link of a left child points to the node holding it. -/
theorem Rep.parent_of_left {h : Heap} {t : Tree} {par p : Ptr} (hr : Rep h par p t)
    (hnd : t.inorder.Nodup) {a b : Nat} (ha : a ∈ t.inorder) (hab : (h a).left = some b) :
    (h b).parent = some a := by
  obtain ⟨l, r, h1, -, -, -, -, -⟩ := hr.local hnd ha
  rw [hab] at h1
  cases l with
  | nil => simp [Rep] at h1
  | node _ d _ =>
    obtain ⟨e, e2, -, -⟩ := h1
    injection e with e
    subst e
    exact e2

/-- The parent link of a right child points to the node holding it. -/
theorem Rep.parent_of_right {h : Heap} {t : Tree} {par p : Ptr} (hr : Rep h par p t)
    (hnd : t.inorder.Nodup) {a b : Nat} (ha : a ∈ t.inorder) (hab : (h a).right = some b) :
    (h b).parent = some a := by
  obtain ⟨l, r, -, h1, -, -, -, -⟩ := hr.local hnd ha
  rw [hab] at h1
  cases r with
  | nil => simp [Rep] at h1
  | node _ d _ =>
    obtain ⟨e, e2, -, -⟩ := h1
    injection e with e
    subst e
    exact e2

/-- A node is not both the left and the right child of a node of the shape. -/
theorem Rep.left_ne_right {h : Heap} {t : Tree} {par p : Ptr} (hr : Rep h par p t)
    (hnd : t.inorder.Nodup) {a b : Nat} (ha : a ∈ t.inorder) (hl : (h a).left = some b) :
    (h a).right ≠ some b := by
  intro hrt
  obtain ⟨l, r, h1, h2, -, -, h5, -⟩ := hr.local hnd ha
  rw [hl] at h1
  rw [hrt] at h2
  have e1 := h1.ptr_eq
  have e2 := h2.ptr_eq
  cases l with
  | nil => simp [Tree.ptr] at e1
  | node _ c _ =>
    cases r with
    | nil => simp [Tree.ptr] at e2
    | node _ d _ =>
      simp only [Tree.ptr, Option.some.injEq] at e1 e2
      subst e1 e2
      simp [Tree.inorder, List.nodup_append, List.nodup_cons] at h5

/-- Links written by a right rotation at `x` with left child `y` in a well-formed tree: any heap
`h'` that carries them is the well-formed tree of the rotated shape. -/
theorem WellFormed.rotate_right_links {hd : Nat} {h h' : Heap} {t : Tree} {x y : Nat}
    (hwf : WellFormed hd h t) (hx : x ∈ t.inorder) (hxy : (h x).left = some y)
    (A1 : h' x = { h x with parent := some y, left := (h y).right })
    (A2 : h' y = { h y with parent := (h x).parent, right := some x })
    (A3 : ∀ a, a ≠ x → a ≠ y → (h y).right = some a → h' a = { h a with parent := some x })
    (A4 : ∀ a, a ≠ x → a ≠ y → some a ≠ (h y).right → a ≠ hd → some a ≠ (h x).parent →
      h' a = h a)
    (A5 : root hd h = some x → h' hd = { h hd with parent := some y })
    (A5' : root hd h ≠ some x → h' hd = h hd)
    (A6 : ∀ q, (h x).parent = some q → q ≠ hd → (h q).left = some x →
      h' q = { h q with left := some y })
    (A7 : ∀ q, (h x).parent = some q → q ≠ hd → (h q).left ≠ some x →
      h' q = { h q with right := some y }) :
    WellFormed hd h' (t.rotateRight x) ∧
      (root hd h = some x → root hd h' = some y) ∧
      (∀ q, (h x).parent = some q → q ≠ hd →
        ((h q).left = some x → (h' q).left = some y) ∧
        ((h q).right = some x → (h' q).right = some y)) := by
  obtain ⟨hrep, hnd⟩ := hwf
  obtain ⟨hdt, hndt⟩ := List.nodup_cons.1 hnd
  obtain ⟨lx, rx, hlx, hrx, hlsub, hrsub, hndx, hparx⟩ := hrep.local hndt hx
  -- y is the root of the left subtree of x
  have hylx : y ∈ lx.inorder := by
    rw [hxy] at hlx
    have := hlx.ptr_eq
    cases lx with
    | nil => simp [Tree.ptr] at this
    | node _ d _ =>
      simp only [Tree.ptr, Option.some.injEq] at this
      simp [Tree.inorder, this]
  have hyt : y ∈ t.inorder := hlsub y hylx
  simp only [List.nodup_cons, List.mem_append, not_or, List.nodup_append] at hndx
  obtain ⟨⟨hxl, hxr⟩, hndl, hndr, hdisj⟩ := hndx
  -- the right child of y lies in the left subtree of x
  have hrl : ∀ a, (h y).right = some a → a ∈ lx.inorder := fun a e => hlx.right_mem hylx e
  -- a node of the tree holding x as a child is the parent of x
  have hpl : ∀ a ∈ t.inorder, (h a).left = some x → (h x).parent = some a :=
    fun a ha e => hrep.parent_of_left hndt ha e
  have hpr : ∀ a ∈ t.inorder, (h a).right = some x → (h x).parent = some a :=
    fun a ha e => hrep.parent_of_right hndt ha e
  -- the parent of x inside the tree is none of x, y and the right child of y
  have hq : ∀ q ∈ t.inorder, (h x).parent = some q →
      q ≠ x ∧ q ≠ y ∧ (h y).right ≠ some q ∧ q ≠ hd ∧
        ((h q).left = some x ∨ (h q).right = some x) := by
    intro q hqt hqp
    rcases hparx with ⟨e1, e2⟩ | ⟨-, q', hq't, e1, e2, e3⟩
    · rw [e2] at hqp
      injection hqp with hqp
      exact absurd hqt (hqp ▸ hdt)
    · rw [e1] at hqp
      injection hqp with hqp
      subst hqp
      simp only [List.mem_cons, List.mem_append, not_or] at e3
      exact ⟨e3.1, fun e => e3.2.1 (e ▸ hylx), fun e => e3.2.1 (hrl _ e),
        fun e => hdt (e ▸ hqt), e2⟩
  have key : Rep h' (some hd) (if root hd h = some x then some y else root hd h)
      (t.rotateRight x) := by
    refine Rep.rotate_right_shape hxy (by rw [A1]) (by rw [A1]) (by rw [A1]) (by rw [A2]) (by rw [A2])
      (by rw [A2]) t hrep hndt hx (fun a ha hax hay => ?_)
    have had : a ≠ hd := fun e => hdt (e ▸ ha)
    by_cases hya : (h y).right = some a
    · -- a is the right child of y
      have hal : a ∈ lx.inorder := hrl a hya
      have hnp : (h x).parent ≠ some a := fun e =>
        (hq a ha e).2.2.1 hya
      rw [A3 a hax hay hya]
      refine ⟨by simp [hya], ?_, ?_⟩
      · rw [if_neg (fun e => hnp (hpl a ha e))]
      · rw [if_neg (fun e => hnp (hpr a ha e))]
    · by_cases hpa : (h x).parent = some a
      · -- a is the parent of x
        obtain ⟨-, -, -, -, hch⟩ := hq a ha hpa
        by_cases hla : (h a).left = some x
        · have hra : (h a).right ≠ some x := hrep.left_ne_right hndt ha hla
          rw [A6 a hpa had hla]
          simp [hya, hla, hra]
        · have hra : (h a).right = some x := by tauto
          rw [A7 a hpa had hla]
          simp [hya, hla, hra]
      · rw [A4 a hax hay (fun e => hya e.symm) had (fun e => hpa e.symm)]
        refine ⟨by simp [hya], ?_, ?_⟩
        · rw [if_neg (fun e => hpa (hpl a ha e))]
        · rw [if_neg (fun e => hpa (hpr a ha e))]
  refine ⟨⟨?_, ?_⟩, ?_, ?_⟩
  · have : root hd h' = (if root hd h = some x then some y else root hd h) := by
      by_cases hroot : root hd h = some x
      · rw [if_pos hroot]; simp [root, A5 hroot]
      · rw [if_neg hroot]; simp [root, A5' hroot]
    rw [this]; exact key
  · rw [Tree.inorder_rotateRight]; exact hnd
  · intro hroot; simp [root, A5 hroot]
  · intro q hqp hqd
    have hqt : q ∈ t.inorder := by
      rcases hparx with ⟨e1, e2⟩ | ⟨-, q', hq't, e1, e2, e3⟩
      · rw [e2] at hqp; injection hqp with hqp; exact absurd hqp.symm hqd
      · rw [e1] at hqp; injection hqp with hqp; exact hqp ▸ hq't
    constructor
    · intro hl; rw [A6 q hqp hqd hl]
    · intro hr
      have hl : (h q).left ≠ some x := fun e => hrep.left_ne_right hndt hqt e hr
      rw [A7 q hqp hqd hl]

set_option maxHeartbeats 4000000 in
/-- Run of `rb_tree_rotate_right` at a node `x` with left child `y` of a well-formed tree: the
call returns, and the heap it returns is the well-formed tree of the rotated shape. -/
theorem rb_tree_rotate_right_wf (hd : Nat) (h : Heap) (t : Tree) (x y : Nat)
    (hwf : WellFormed hd h t) (hx : x ∈ t.inorder) (hxy : (h x).left = some y) :
    ∃ h', rb_tree_rotate_right hd (some x) h = some h' ∧
      WellFormed hd h' (t.rotateRight x) ∧ (t.rotateRight x).inorder = t.inorder ∧
      (h' x).parent = some y ∧ (h' y).right = some x ∧ (h' x).left = (h y).right ∧
      (h' y).parent = (h x).parent ∧
      (root hd h = some x → root hd h' = some y) ∧
      (∀ q, (h x).parent = some q → q ≠ hd →
        ((h q).left = some x → (h' q).left = some y) ∧
        ((h q).right = some x → (h' q).right = some y)) := by
  have hwf0 := hwf
  obtain ⟨hrep, hnd⟩ := hwf
  obtain ⟨hdt, hndt⟩ := List.nodup_cons.1 hnd
  have hyt : y ∈ t.inorder := hrep.left_mem hx hxy
  have hdx : hd ≠ x := fun e => hdt (e ▸ hx)
  have hdy : hd ≠ y := fun e => hdt (e ▸ hyt)
  obtain ⟨lx, rx, hlx, hrx, hlsub, hrsub, hndx, hparx⟩ := hrep.local hndt hx
  obtain ⟨ly, ry, hly, hry, hlysub, hrysub, hndy, -⟩ := hrep.local hndt hyt
  have hylx : y ∈ lx.inorder := by
    rw [hxy] at hlx
    have := hlx.ptr_eq
    cases lx with
    | nil => simp [Tree.ptr] at this
    | node _ d _ =>
      simp only [Tree.ptr, Option.some.injEq] at this
      simp [Tree.inorder, this]
  simp only [List.nodup_cons, List.mem_append, not_or, List.nodup_append] at hndx hndy
  have hxy' : x ≠ y := fun e => hndx.1.1 (e ▸ hylx)
  -- facts about the right child of y
  have hr : ∀ r, (h y).right = some r → r ≠ x ∧ r ≠ y ∧ r ≠ hd ∧ r ∈ lx.inorder := by
    intro r e
    have hrl : r ∈ lx.inorder := hlx.right_mem hylx e
    have hrr : r ∈ ry.inorder := by
      rw [e] at hry
      have := hry.ptr_eq
      cases ry with
      | nil => simp [Tree.ptr] at this
      | node _ d _ =>
        simp only [Tree.ptr, Option.some.injEq] at this
        simp [Tree.inorder, this]
    exact ⟨fun e' => hndx.1.1 (e' ▸ hrl), fun e' => hndy.1.2 (e' ▸ hrr),
      fun e' => hdt (e' ▸ hlsub r hrl), hrl⟩
  have finish : ∀ h', rb_tree_rotate_right hd (some x) h = some h' →
      h' x = { h x with parent := some y, left := (h y).right } →
      h' y = { h y with parent := (h x).parent, right := some x } →
      (∀ a, a ≠ x → a ≠ y → (h y).right = some a → h' a = { h a with parent := some x }) →
      (∀ a, a ≠ x → a ≠ y → some a ≠ (h y).right → a ≠ hd → some a ≠ (h x).parent →
        h' a = h a) →
      (root hd h = some x → h' hd = { h hd with parent := some y }) →
      (root hd h ≠ some x → h' hd = h hd) →
      (∀ q, (h x).parent = some q → q ≠ hd → (h q).left = some x →
        h' q = { h q with left := some y }) →
      (∀ q, (h x).parent = some q → q ≠ hd → (h q).left ≠ some x →
        h' q = { h q with right := some y }) →
      ∃ h', rb_tree_rotate_right hd (some x) h = some h' ∧
      WellFormed hd h' (t.rotateRight x) ∧ (t.rotateRight x).inorder = t.inorder ∧
      (h' x).parent = some y ∧ (h' y).right = some x ∧ (h' x).left = (h y).right ∧
      (h' y).parent = (h x).parent ∧
      (root hd h = some x → root hd h' = some y) ∧
      (∀ q, (h x).parent = some q → q ≠ hd →
        ((h q).left = some x → (h' q).left = some y) ∧
        ((h q).right = some x → (h' q).right = some y)) := by
    intro h' hrun A1 A2 A3 A4 A5 A5' A6 A7
    obtain ⟨w1, w2, w3⟩ := WellFormed.rotate_right_links hwf0 hx hxy A1 A2 A3 A4 A5 A5' A6 A7
    exact ⟨h', hrun, w1, Tree.inorder_rotateRight x t, by rw [A1], by rw [A2], by rw [A1],
      by rw [A2], w2, w3⟩
  have hyx := hxy'.symm
  have hxd := hdx.symm
  have hyd := hdy.symm
  rcases hparx with ⟨e1, e2⟩ | ⟨hnr, q, hqt, e1, e2, e3⟩
  · -- x is the root
    have hroot : (h hd).parent = some x := e1
    rcases Option.eq_none_or_eq_some (h y).right with hyr | ⟨r, hyr⟩
    · apply finish
      · simp [rb_tree_rotate_right, getLeft, getRight, getParent, setLeft, setRight, setParent,
          setRoot, root, Heap.set, hxy, hyr, hroot, e2, hxy', hyx, hdx, hdy, hxd, hyd]
        rfl
      all_goals clear finish hlx hrx hly hry hlysub hrysub hlsub hrsub hrep hwf0 hnd hndt
      all_goals clear hndx hndy hr hx hyt hylx hdt
      all_goals intros
      all_goals simp_all [Heap.set, root]
    · obtain ⟨hrx', hry', hrd, -⟩ := hr r hyr
      have hxr := hrx'.symm
      have hyr' := hry'.symm
      have hdr := hrd.symm
      apply finish
      · simp [rb_tree_rotate_right, getLeft, getRight, getParent, setLeft, setRight, setParent,
          setRoot, root, Heap.set, hxy, hyr, hroot, e2, hxy', hyx, hdx, hdy, hxd, hyd, hrx', hry',
          hrd, hxr, hyr', hdr]
        rfl
      all_goals clear finish hlx hrx hly hry hlysub hrysub hlsub hrsub hrep hwf0 hnd hndt
      all_goals clear hndx hndy hr hx hyt hylx hdt
      all_goals intros
      all_goals simp_all [Heap.set, root]
  · -- x is a child of q
    have hroot : ¬ (some x = (h hd).parent) := fun e => hnr e.symm
    simp only [List.mem_cons, List.mem_append, not_or] at e3
    have hqx : q ≠ x := e3.1
    have hqy : q ≠ y := fun e => e3.2.1 (e ▸ hylx)
    have hqd : q ≠ hd := fun e => hdt (e ▸ hqt)
    have hxq := hqx.symm
    have hyq := hqy.symm
    have hdq := hqd.symm
    have hlr : (h q).left = some x → (h q).right ≠ some x :=
      fun e => hrep.left_ne_right hndt hqt e
    rcases Option.eq_none_or_eq_some (h y).right with hyr | ⟨r, hyr⟩
    · by_cases hql : (h q).left = some x
      · have hqr := hlr hql
        apply finish
        · simp [rb_tree_rotate_right, getLeft, getRight, getParent, setLeft, setRight, setParent,
            setRoot, root, rb_tree_is_lchild, Heap.set, hxy, hyr, hroot, e1, hxy', hyx, hdx, hdy,
            hxd, hyd, hqx, hqy, hqd, hxq, hyq, hdq, hql]
          rfl
        all_goals clear finish hlx hrx hly hry hlysub hrysub hlsub hrsub hrep hwf0 hnd hndt
        all_goals clear hndx hndy hr hx hyt hylx hdt hlr e3 hqt
        all_goals intros
        all_goals simp_all [Heap.set, root]
      · have hqr : (h q).right = some x := by tauto
        have hql' : ¬ (some x = (h q).left) := fun e => hql e.symm
        apply finish
        · simp [rb_tree_rotate_right, getLeft, getRight, getParent, setLeft, setRight, setParent,
            setRoot, root, rb_tree_is_lchild, Heap.set, hxy, hyr, hroot, e1, hxy', hyx, hdx, hdy,
            hxd, hyd, hqx, hqy, hqd, hxq, hyq, hdq, hql']
          rfl
        all_goals clear finish hlx hrx hly hry hlysub hrysub hlsub hrsub hrep hwf0 hnd hndt
        all_goals clear hndx hndy hr hx hyt hylx hdt hlr e3 hqt
        all_goals intros
        all_goals simp_all [Heap.set, root]
    · obtain ⟨hrx', hry', hrd, hrl⟩ := hr r hyr
      have hxr := hrx'.symm
      have hyr' := hry'.symm
      have hdr := hrd.symm
      have hqr' : q ≠ r := fun e => e3.2.1 (e ▸ hrl)
      have hrq := hqr'.symm
      by_cases hql : (h q).left = some x
      · have hqr := hlr hql
        apply finish
        · simp [rb_tree_rotate_right, getLeft, getRight, getParent, setLeft, setRight, setParent,
            setRoot, root, rb_tree_is_lchild, Heap.set, hxy, hyr, hroot, e1, hxy', hyx, hdx, hdy,
            hxd, hyd, hqx, hqy, hqd, hxq, hyq, hdq, hql, hrx', hry', hrd, hxr, hyr', hdr, hqr',
            hrq]
          rfl
        all_goals clear finish hlx hrx hly hry hlysub hrysub hlsub hrsub hrep hwf0 hnd hndt
        all_goals clear hndx hndy hr hx hyt hylx hdt hlr e3 hqt hrl
        all_goals intros
        all_goals simp_all [Heap.set, root]
      · have hqr : (h q).right = some x := by tauto
        have hql' : ¬ (some x = (h q).left) := fun e => hql e.symm
        apply finish
        · simp [rb_tree_rotate_right, getLeft, getRight, getParent, setLeft, setRight, setParent,
            setRoot, root, rb_tree_is_lchild, Heap.set, hxy, hyr, hroot, e1, hxy', hyx, hdx, hdy,
            hxd, hyd, hqx, hqy, hqd, hxq, hyq, hdq, hql', hrx', hry', hrd, hxr, hyr', hdr, hqr',
            hrq]
          rfl
        all_goals clear finish hlx hrx hly hry hlysub hrysub hlsub hrsub hrep hwf0 hnd hndt
        all_goals clear hndx hndy hr hx hyt hylx hdt hlr e3 hqt hrl
        all_goals intros
        all_goals simp_all [Heap.set, root]

/-- A node whose left link points to itself is the root of no shape. -/
theorem Rep.not_self_left {h : Heap} {a : Nat} (hl : (h a).left = some a) :
    ∀ (t : Tree) (par : Ptr), ¬ Rep h par (some a) t := by
  intro t
  induction t with
  | nil => intro par hr; simp [Rep] at hr
  | node l b r ihl _ =>
    intro par hr
    obtain ⟨hp, -, hlr, -⟩ := hr
    injection hp with hp
    subst hp
    rw [hl] at hlr
    exact ihl _ hlr

/-! ## Properties of the specification, checked on the code -/

/-- C1: `rb_tree_insert_rebalance` does not restore the red-black invariants. On the red-black
tree 3(Black) with Red left child 1 and the fresh leaf 2 linked to the right of 1, the call
returns a heap whose root 2 is its own left child (the `y->left = y` of `rb_tree_rotate_left`),
so no well-formed red-black tree hangs from the root. On the red-black tree 1(Black) with Red
right child 2 and the fresh leaf 3 linked to the right of 2, no amount of fuel gives a result:
the branch for a right-child parent rotates right at the parent, whose left link is null. -/
theorem insert_rebalance_breaks_invariants :
    WellFormed 0 zigzagLeft (.node (.node .nil 1 (.leaf 2)) 3 .nil) ∧
    RedBlack zigzagLeft (.node (.leaf 1) 3 .nil) ∧
    (∃ h', rb_tree_insert_rebalance 0 5 (some 2) zigzagLeft = some h' ∧
      root 0 h' = some 2 ∧ (h' 2).left = some 2 ∧
      ¬ ∃ t, WellFormed 0 h' t ∧ RedBlack h' t) ∧
    WellFormed 0 ascending (.node .nil 1 (.node .nil 2 (.leaf 3))) ∧
    RedBlack ascending (.node .nil 1 (.leaf 2)) ∧
    ∀ fuel, rb_tree_insert_rebalance 0 fuel (some 3) ascending = none := by
  refine ⟨by decide, by decide, ⟨_, rfl, by decide, by decide, ?_⟩, by decide, by decide, ?_⟩
  · rintro ⟨t, ⟨ht, -⟩, -⟩
    exact Rep.not_self_left (a := 2) (by decide) t _ ht
  · intro fuel
    cases fuel with
    | zero => rfl
    | succ n => rfl

/-- C2: `rb_tree_erase_rebalance` does not restore the red-black invariants. Erasing the Black
leaf 1 of the red-black tree 2(Black) with children 1(Black) and 4(Black), 4 having the Red
children 3 and 5, runs case 4 with `rb_tree_rotate_left(xp, root)`; in the heap returned the
root 4 is its own left child, so no well-formed red-black tree hangs from the root. -/
theorem erase_rebalance_breaks_invariants :
    WellFormed 0 fiveNodes fiveShape ∧ RedBlack fiveNodes fiveShape ∧
    ∃ h', rb_tree_erase_rebalance 0 5 (some 1) fiveNodes = some (h', some 1) ∧
      root 0 h' = some 4 ∧ (h' 4).left = some 4 ∧
      ¬ ∃ t, WellFormed 0 h' t ∧ RedBlack h' t := by
  refine ⟨by decide, by decide, _, rfl, by decide, by decide, ?_⟩
  rintro ⟨t, ⟨ht, -⟩, -⟩
  exact Rep.not_self_left (a := 4) (by decide) t _ ht

/-- C3: `rb_tree_insert_rebalance` does not preserve the in-order sequence. On the red-black
tree 1(Black) with Red right child 3 and the fresh leaf 2 linked to the left of 3 (in-order
sequence 1, 2, 3) the call returns a heap whose root 3 has itself as left child and no right
child: the nodes 1 and 2 are no longer below the root and no shape with in-order sequence
1, 2, 3 hangs from the root. -/
theorem insert_rebalance_loses_inorder :
    WellFormed 0 zigzagRight (.node .nil 1 (.node (.leaf 2) 3 .nil)) ∧
    RedBlack zigzagRight (.node .nil 1 (.leaf 3)) ∧
    ∃ h', rb_tree_insert_rebalance 0 5 (some 2) zigzagRight = some h' ∧
      root 0 h' = some 3 ∧ (h' 3).left = some 3 ∧ (h' 3).right = none ∧
      ¬ ∃ t, Rep h' (some 0) (root 0 h') t ∧ t.inorder = [1, 2, 3] := by
  refine ⟨by decide, by decide, _, rfl, by decide, by decide, by decide, ?_⟩
  rintro ⟨t, ht, -⟩
  exact Rep.not_self_left (a := 3) (by decide) t _ ht

/-- C4: `rb_tree_erase_rebalance` loses nodes other than `z`. Erasing the root 3 of the
red-black tree 3(Black) with children 1(Black) and 4(Black), 1 having the Red right child 2
(in-order sequence 1, 2, 3, 4), returns a heap whose root 2 has itself as left child and the
leaf 4 as right child: node 1 is no longer below the root and no shape with in-order sequence
1, 2, 4 hangs from the root. -/
theorem erase_rebalance_loses_nodes :
    WellFormed 0 twoChildren twoChildrenShape ∧ RedBlack twoChildren twoChildrenShape ∧
    twoChildrenShape.inorder = [1, 2, 3, 4] ∧
    ∃ h', rb_tree_erase_rebalance 0 5 (some 3) twoChildren = some (h', some 3) ∧
      root 0 h' = some 2 ∧ (h' 2).left = some 2 ∧ (h' 2).right = some 4 ∧
      (h' 4).left = none ∧ (h' 4).right = none ∧
      ¬ ∃ t, Rep h' (some 0) (root 0 h') t ∧ t.inorder = [1, 2, 4] := by
  refine ⟨by decide, by decide, by decide, _, rfl, by decide, by decide, by decide, by decide,
    by decide, ?_⟩
  rintro ⟨t, ht, -⟩
  exact Rep.not_self_left (a := 2) (by decide) t _ ht

/-- C5: the round trip. From the empty tree (Red header, null root, `leftmost` and `rightmost`
the header) the keys 5,3,8,1,4,7,9 are inserted (nodes at the addresses 1..7); iterating from
`leftmost` with `inc` up to the header yields 1,3,4,5,7,8,9. Then `rb_tree_erase_rebalance` on
the node holding 5 returns that node, iterating again yields 1,3,4,7,8,9, and the tree is
well-formed with a Black root, no Red node with a Red child and equal black height. -/
theorem round_trip_insert_erase :
    (emptyTree 0 0).color = kRbTreeRed ∧ root 0 (emptyTree 0) = none ∧
    leftmost 0 (emptyTree 0) = some 0 ∧ rightmost 0 (emptyTree 0) = some 0 ∧
    ∃ h h', insert_all 0 20 1 [5, 3, 8, 1, 4, 7, 9] (emptyTree 0) = some h ∧
      (iterate 0 h 20 (leftmost 0 h)).map (valuesAt h) = some [1, 3, 4, 5, 7, 8, 9] ∧
      (h 1).value = 5 ∧
      rb_tree_erase_rebalance 0 20 (some 1) h = some (h', some 1) ∧
      (iterate 0 h' 20 (leftmost 0 h')).map (valuesAt h') = some [1, 3, 4, 7, 8, 9] ∧
      WellFormed 0 h' roundTripShape ∧ RedBlack h' roundTripShape := by
  refine ⟨rfl, rfl, rfl, rfl, _, _, rfl, ?_, ?_, rfl, ?_, ?_, ?_⟩
  · decide
  · decide
  · decide
  · decide
  · decide

/-- C6: `rb_tree_rotate_left` does not leave `x` as the left child of `y`. Rotating left at the
root 2 of the well-formed tree 2 with children 1 and 4, 4 having the children 3 and 5 (in-order
sequence 1, 2, 3, 4, 5), returns a heap in which `y = 4` is the root and is its own left child
(`y->left = y`); `x = 2` is not its left child and no shape with the former in-order sequence
hangs from the root. -/
theorem rotate_left_self_loop :
    WellFormed 0 fiveNodes fiveShape ∧ fiveShape.inorder = [1, 2, 3, 4, 5] ∧
    (fiveNodes 2).right = some 4 ∧
    ∃ h', rb_tree_rotate_left 0 (some 2) fiveNodes = some h' ∧
      root 0 h' = some 4 ∧ (h' 4).left = some 4 ∧ (h' 4).left ≠ some 2 ∧
      (h' 2).parent = some 4 ∧
      ¬ ∃ t, Rep h' (some 0) (root 0 h') t ∧ t.inorder = [1, 2, 3, 4, 5] := by
  refine ⟨by decide, by decide, by decide, _, rfl, by decide, by decide, by decide, by decide,
    ?_⟩
  rintro ⟨t, ht, -⟩
  exact Rep.not_self_left (a := 4) (by decide) t _ ht

/-- C7: for every node `x` with a non-null left child `y` in a well-formed tree of shape `t`,
`rb_tree_rotate_right(x, root)` returns; the heap it returns is the well-formed tree of the
shape `t.rotateRight x`, whose in-order sequence is that of `t`; `y` is the parent of `x` and
`x` the right child of `y`; the former right link of `y` is the left link of `x`; and `y` sits
in the former slot of `x`: it has the former parent link of `x`, it is the root if `x` was the
root, and otherwise it is the child of the former parent of `x` on the side where `x` was. -/
theorem rotate_right_preserves_inorder (hd : Nat) (h : Heap) (t : Tree) (x y : Nat)
    (hwf : WellFormed hd h t) (hx : x ∈ t.inorder) (hxy : (h x).left = some y) :
    ∃ h', rb_tree_rotate_right hd (some x) h = some h' ∧
      WellFormed hd h' (t.rotateRight x) ∧ (t.rotateRight x).inorder = t.inorder ∧
      (h' x).parent = some y ∧ (h' y).right = some x ∧ (h' x).left = (h y).right ∧
      (h' y).parent = (h x).parent ∧
      (root hd h = some x → root hd h' = some y) ∧
      (∀ q, (h x).parent = some q → q ≠ hd →
        ((h q).left = some x → (h' q).left = some y) ∧
        ((h q).right = some x → (h' q).right = some y)) :=
  rb_tree_rotate_right_wf hd h t x y hwf hx hxy

/-- Witness of C7: the right rotation at the root 4 of the tree 4 with children 2 and 5, 2 having
the children 1 and 3. -/
theorem rotate_right_preserves_inorder_witness :
    WellFormed 0 leftHeavy leftHeavyShape ∧ 4 ∈ leftHeavyShape.inorder ∧
    (leftHeavy 4).left = some 2 ∧
    ∃ h', rb_tree_rotate_right 0 (some 4) leftHeavy = some h' ∧
      WellFormed 0 h' (leftHeavyShape.rotateRight 4) ∧
      (leftHeavyShape.rotateRight 4).inorder = leftHeavyShape.inorder ∧
      (h' 4).parent = some 2 ∧ (h' 2).right = some 4 ∧ (h' 4).left = (leftHeavy 2).right ∧
      (h' 2).parent = (leftHeavy 4).parent ∧
      (root 0 leftHeavy = some 4 → root 0 h' = some 2) ∧
      (∀ q, (leftHeavy 4).parent = some q → q ≠ 0 →
        ((leftHeavy q).left = some 4 → (h' q).left = some 2) ∧
        ((leftHeavy q).right = some 4 → (h' q).right = some 2)) :=
  ⟨by decide, by decide, by decide,
    rotate_right_preserves_inorder 0 leftHeavy leftHeavyShape 4 2 (by decide) (by decide)
      (by decide)⟩

/-- C8: `rb_tree_erase_rebalance` returns `z` but does not always unlink it. Erasing the Red
right leaf 3 of the red-black tree 2(Black) with Red children 1 and 3 returns 3, yet the right
link of the root 2 still points to 3 (the branch for a right child assigns to `rigth`): the
shape hanging from the root is the former one, with `z` in it, while `rightmost` is 2. -/
theorem erase_rebalance_right_leaf_stays_linked :
    WellFormed 0 threeNodes threeShape ∧ RedBlack threeNodes threeShape ∧
    ∃ h', rb_tree_erase_rebalance 0 5 (some 3) threeNodes = some (h', some 3) ∧
      (h' 2).right = some 3 ∧ WellFormed 0 h' threeShape ∧ 3 ∈ threeShape.inorder ∧
      rightmost 0 h' = some 2 := by
  refine ⟨by decide, by decide, _, rfl, by decide, by decide, by decide, by decide⟩

/-- C9: after `rb_tree_erase_rebalance` the reference `leftmost` need not be the first node of
the in-order sequence below the root. In the red-black tree 2(Black) with children 1(Black) and
4(Red), 4 having the Black children 3 and 5, `leftmost` is 1 and `rightmost` is 5; erasing 1
sets `leftmost` to 2 and then runs case 1 with `rb_tree_rotate_left(xp, root)`: in the heap
returned the root 4 is its own left child, node 2 hangs from no child link, and no shape whose
first node is `leftmost` hangs from the root. -/
theorem erase_rebalance_leftmost_detached :
    WellFormed 0 redBrother fiveShape ∧ RedBlack redBrother fiveShape ∧
    leftmost 0 redBrother = fiveShape.inorder.head? ∧
    rightmost 0 redBrother = fiveShape.inorder.getLast? ∧
    ∃ h', rb_tree_erase_rebalance 0 5 (some 1) redBrother = some (h', some 1) ∧
      leftmost 0 h' = some 2 ∧ root 0 h' = some 4 ∧ (h' 4).left = some 4 ∧
      (h' 4).right = some 5 ∧ (h' 5).left = none ∧ (h' 5).right = none ∧
      ¬ ∃ t, Rep h' (some 0) (root 0 h') t ∧ t.inorder.head? = leftmost 0 h' := by
  refine ⟨by decide, by decide, by decide, by decide, _, rfl, by decide, by decide, by decide,
    by decide, by decide, by decide, ?_⟩
  rintro ⟨t, ht, -⟩
  exact Rep.not_self_left (a := 4) (by decide) t _ ht

/-- C10: erasing every node does not always end in the empty tree. From the red-black tree
2(Black) with children 1(Black) and 3(Black), 3 having the Red right child 4, erasing the nodes
in the order 1, 3, 4, 2 ends with root 3, `leftmost` 3 and `rightmost` 4 instead of a null root
and `leftmost = rightmost = header`: the first erasure runs `rb_tree_rotate_left`, which makes
the root 3 its own left child. -/
theorem erase_all_not_empty :
    WellFormed 0 fourNodes fourShape ∧ RedBlack fourNodes fourShape ∧
    fourShape.inorder = [1, 2, 3, 4] ∧
    ∃ h', erase_all 0 9 [1, 3, 4, 2] fourNodes = some h' ∧
      root 0 h' = some 3 ∧ leftmost 0 h' = some 3 ∧ rightmost 0 h' = some 4 := by
  refine ⟨by decide, by decide, by decide, _, rfl, by decide, by decide, by decide⟩

/-! ## Descent, successor and iteration on linked structures -/

/-- More fuel does not change a result of `rb_tree_min`. -/
theorem rb_tree_min_mono {h : Heap} : ∀ {f : Nat} {x : Ptr} {r : Ptr}, rb_tree_min h f x = some r →
    ∀ {g : Nat}, f ≤ g → rb_tree_min h g x = some r := by
  intro f
  induction f with
  | zero => intro x r hr; simp [rb_tree_min] at hr
  | succ n ih =>
    intro x r hr f' hf
    obtain ⟨m, rfl⟩ : ∃ m, f' = m + 1 := ⟨f' - 1, by omega⟩
    cases x with
    | none => simp [rb_tree_min, getLeft] at hr
    | some a =>
      simp only [rb_tree_min, getLeft, Option.some_bind, Option.bind_eq_bind] at hr ⊢
      split_ifs at hr ⊢ with hl
      · exact ih hr (by omega)
      · exact hr

/-- More fuel does not change a result of `rb_tree_max`. -/
theorem rb_tree_max_mono {h : Heap} : ∀ {f : Nat} {x : Ptr} {r : Ptr}, rb_tree_max h f x = some r →
    ∀ {g : Nat}, f ≤ g → rb_tree_max h g x = some r := by
  intro f
  induction f with
  | zero => intro x r hr; simp [rb_tree_max] at hr
  | succ n ih =>
    intro x r hr f' hf
    obtain ⟨m, rfl⟩ : ∃ m, f' = m + 1 := ⟨f' - 1, by omega⟩
    cases x with
    | none => simp [rb_tree_max, getRight] at hr
    | some a =>
      simp only [rb_tree_max, getRight, Option.some_bind, Option.bind_eq_bind] at hr ⊢
      split_ifs at hr ⊢ with hl
      · exact ih hr (by omega)
      · exact hr

/-- `rb_tree_min` on a represented shape: it follows `left` links down to the first node of the
in-order sequence, whose `left` link is null. -/
theorem Rep.min_spec {h : Heap} {t : Tree} : ∀ {par : Ptr} {x : Nat}, Rep h par (some x) t →
    ∀ fuel, t.inorder.length ≤ fuel →
    ∃ m, rb_tree_min h fuel (some x) = some (some m) ∧ t.inorder.head? = some m ∧
      (h m).left = none ∧ Relation.ReflTransGen (leftStep h) x m := by
  induction t with
  | nil => intro par x hr; simp [Rep] at hr
  | node l a r ihl _ =>
    intro par x hr fuel hf
    obtain ⟨hp, -, hl, -⟩ := hr
    injection hp with hp
    subst hp
    simp only [Tree.inorder, List.length_append, List.length_cons] at hf
    obtain ⟨f, rfl⟩ : ∃ f, fuel = f + 1 := ⟨fuel - 1, by omega⟩
    cases l with
    | nil =>
      have hnone : (h x).left = none := by simpa [Rep] using hl
      refine ⟨x, ?_, by simp [Tree.inorder], hnone, Relation.ReflTransGen.refl⟩
      simp [rb_tree_min, getLeft, hnone]
    | node ll b lr =>
      have hb : (h x).left = some b := hl.1
      rw [hb] at hl
      obtain ⟨m, h1, h2, h3, h4⟩ := ihl hl f (by omega)
      refine ⟨m, ?_, ?_, h3, Relation.ReflTransGen.head hb h4⟩
      · simp [rb_tree_min, getLeft, hb, h1]
      · simp only [Tree.inorder, List.head?_append] at h2 ⊢
        rw [h2]; rfl

/-- `rb_tree_max` on a represented shape: it follows `right` links down to the last node of the
in-order sequence, whose `right` link is null. -/
theorem Rep.max_spec {h : Heap} {t : Tree} : ∀ {par : Ptr} {x : Nat}, Rep h par (some x) t →
    ∀ fuel, t.inorder.length ≤ fuel →
    ∃ m, rb_tree_max h fuel (some x) = some (some m) ∧ t.inorder.getLast? = some m ∧
      (h m).right = none ∧ Relation.ReflTransGen (rightStep h) x m := by
  induction t with
  | nil => intro par x hr; simp [Rep] at hr
  | node l a r _ ihr =>
    intro par x hr fuel hf
    obtain ⟨hp, -, -, hrr⟩ := hr
    injection hp with hp
    subst hp
    simp only [Tree.inorder, List.length_append, List.length_cons] at hf
    obtain ⟨f, rfl⟩ : ∃ f, fuel = f + 1 := ⟨fuel - 1, by omega⟩
    cases r with
    | nil =>
      have hnone : (h x).right = none := by simpa [Rep] using hrr
      refine ⟨x, ?_, by simp [Tree.inorder], hnone, Relation.ReflTransGen.refl⟩
      simp [rb_tree_max, getRight, hnone]
    | node rl b rr =>
      have hb : (h x).right = some b := hrr.1
      rw [hb] at hrr
      obtain ⟨m, h1, h2, h3, h4⟩ := ihr hrr f (by omega)
      refine ⟨m, ?_, ?_, h3, Relation.ReflTransGen.head hb h4⟩
      · simp [rb_tree_max, getRight, hb, h1]
      · simp only [Tree.inorder] at h2 ⊢
        rw [List.getLast?_append, List.getLast?_cons, h2]; rfl

/-- Where two consecutive elements of `A ++ a :: B` lie. -/
theorem split_consecutive {A B pre post : List Nat} {a v s : Nat} :
    A ++ a :: B = pre ++ v :: s :: post →
    (∃ post', A = pre ++ v :: s :: post') ∨ (A = pre ++ [v] ∧ a = s ∧ B = post) ∨
      (pre = A ∧ a = v ∧ B = s :: post) ∨ (∃ pre', pre = A ++ a :: pre' ∧ B = pre' ++ v :: s :: post) := by
  induction A generalizing pre with
  | nil =>
    intro e
    cases pre with
    | nil =>
      simp only [List.nil_append, List.cons.injEq] at e
      exact Or.inr (Or.inr (Or.inl ⟨rfl, e.1, e.2⟩))
    | cons c pre' =>
      simp only [List.nil_append, List.cons_append, List.cons.injEq] at e
      exact Or.inr (Or.inr (Or.inr ⟨pre', by simp [e.1], e.2⟩))
  | cons x A' ih =>
    intro e
    cases pre with
    | nil =>
      simp only [List.cons_append, List.nil_append, List.cons.injEq] at e
      obtain ⟨rfl, e⟩ := e
      cases A' with
      | nil =>
        simp only [List.nil_append, List.cons.injEq] at e
        exact Or.inr (Or.inl ⟨rfl, e.1, e.2⟩)
      | cons c A'' =>
        simp only [List.cons_append, List.cons.injEq] at e
        obtain ⟨rfl, e⟩ := e
        exact Or.inl ⟨A'', rfl⟩
    | cons c pre' =>
      simp only [List.cons_append, List.cons.injEq] at e
      obtain ⟨rfl, e⟩ := e
      rcases ih e with ⟨post', h1⟩ | ⟨h1, h2, h3⟩ | ⟨h1, h2, h3⟩ | ⟨pre'', h1, h2⟩
      · exact Or.inl ⟨post', by simp [h1]⟩
      · exact Or.inr (Or.inl ⟨by simp [h1], h2, h3⟩)
      · exact Or.inr (Or.inr (Or.inl ⟨by simp [h1], h2, h3⟩))
      · exact Or.inr (Or.inr (Or.inr ⟨pre'', by simp [h1], h2⟩))

/-- The root of a represented shape is one of its nodes. -/
theorem Rep.root_mem {h : Heap} {t : Tree} {par : Ptr} {x : Nat} (hr : Rep h par (some x) t) :
    x ∈ t.inorder := by
  cases t with
  | nil => simp [Rep] at hr
  | node l a r =>
    have := hr.1
    injection this with this
    simp [Tree.inorder, this]

/-- More fuel does not change a result of the upward loop of `rb_tree_next`. -/
theorem rb_tree_next_up_mono {h : Heap} : ∀ {f : Nat} {x : Ptr} {r : Ptr},
    rb_tree_next_up h f x = some r → ∀ {g : Nat}, f ≤ g → rb_tree_next_up h g x = some r := by
  intro f
  induction f with
  | zero => intro x r hr; simp [rb_tree_next_up] at hr
  | succ n ih =>
    intro x r hr f' hf
    obtain ⟨m, rfl⟩ : ∃ m, f' = m + 1 := ⟨f' - 1, by omega⟩
    simp only [rb_tree_next_up, Option.bind_eq_bind] at hr ⊢
    cases hisl : rb_tree_is_lchild h x with
    | none => simp [hisl] at hr
    | some b =>
      simp only [hisl, Option.some_bind] at hr ⊢
      cases b with
      | true => simpa using hr
      | false =>
        simp only [Bool.not_false, if_true] at hr ⊢
        cases hp : getParent h x with
        | none => simp [hp] at hr
        | some p =>
          simp only [hp, Option.some_bind] at hr ⊢
          exact ih hr (by omega)

/-- More fuel does not change a result of the upward loop of `inc`. -/
theorem inc_up_mono {h : Heap} : ∀ {f : Nat} {node y : Ptr} {r : Ptr × Ptr},
    inc_up h f node y = some r → ∀ {g : Nat}, f ≤ g → inc_up h g node y = some r := by
  intro f
  induction f with
  | zero => intro node y r hr; simp [inc_up] at hr
  | succ n ih =>
    intro node y r hr f' hf
    obtain ⟨m, rfl⟩ : ∃ m, f' = m + 1 := ⟨f' - 1, by omega⟩
    simp only [inc_up, Option.bind_eq_bind] at hr ⊢
    cases hyr : getRight h y with
    | none => simp [hyr] at hr
    | some yr =>
      simp only [hyr, Option.some_bind] at hr ⊢
      split_ifs at hr ⊢ with hc
      · cases hp : getParent h y with
        | none => simp [hp] at hr
        | some p =>
          simp only [hp, Option.some_bind] at hr ⊢
          exact ih hr (by omega)
      · exact hr

/-- Last node of a shape: the end of its right spine. -/
theorem inorder_getLast_node (l r : Tree) (a : Nat) :
    (Tree.node l a r).inorder.getLast? = some (r.inorder.getLast?.getD a) := by
  simp only [Tree.inorder]
  rw [List.getLast?_append, List.getLast?_cons]
  rfl

/-- The last node of a represented shape has no right child and is reached from the root along
`right` links. -/
theorem Rep.last_right_none {h : Heap} {t : Tree} {v : Nat} : ∀ {par : Ptr} {x : Nat},
    Rep h par (some x) t → t.inorder.getLast? = some v →
    (h v).right = none ∧ Relation.ReflTransGen (rightStep h) x v := by
  induction t with
  | nil => intro par x hr; simp [Rep] at hr
  | node l a r _ ihr =>
    intro par x hr hv
    obtain ⟨hp, -, -, hrr⟩ := hr
    injection hp with hp
    subst hp
    rw [inorder_getLast_node] at hv
    cases r with
    | nil =>
      simp only [Tree.inorder, List.getLast?_nil, Option.getD_none, Option.some.injEq] at hv
      subst hv
      exact ⟨by simpa [Rep] using hrr, Relation.ReflTransGen.refl⟩
    | node rl b rr =>
      have hb : (h x).right = some b := hrr.1
      rw [hb] at hrr
      have hv' : (Tree.node rl b rr).inorder.getLast? = some v := by
        rw [inorder_getLast_node] at hv ⊢
        simpa using hv
      obtain ⟨h1, h2⟩ := ihr hrr hv'
      exact ⟨h1, Relation.ReflTransGen.head hb h2⟩

/-- Climbing from the last node of a shape with the loop of `rb_tree_next` goes on from the root
of the shape. -/
theorem Rep.next_up_last {h : Heap} {t : Tree} {v : Nat} : ∀ {par : Ptr} {x : Nat},
    Rep h par (some x) t → t.inorder.Nodup → t.inorder.getLast? = some v →
    ∀ f res, rb_tree_next_up h f (some x) = some res →
      rb_tree_next_up h (f + t.inorder.length) (some v) = some res := by
  induction t with
  | nil => intro par x hr; simp [Rep] at hr
  | node l a r _ ihr =>
    intro par x hr hnd hv f res hres
    have hr0 := hr
    obtain ⟨hp, hpar, hl, hrr⟩ := hr
    injection hp with hp
    subst hp
    rw [inorder_getLast_node] at hv
    cases r with
    | nil =>
      simp only [Tree.inorder, List.getLast?_nil, Option.getD_none, Option.some.injEq] at hv
      subst hv
      exact rb_tree_next_up_mono hres (by omega)
    | node rl b rr =>
      have hb : (h x).right = some b := hrr.1
      have hv' : (Tree.node rl b rr).inorder.getLast? = some v := by
        rw [inorder_getLast_node] at hv ⊢
        simpa using hv
      have hbp : (h b).parent = some x := by
        have := hrr.2.1
        rw [hb] at hrr
        exact this
      have hnl : (h x).left ≠ some b := by
        intro e
        exact hr0.left_ne_right hnd (by simp [Tree.inorder]) e hb
      rw [hb] at hrr
      have hndr : (Tree.node rl b rr).inorder.Nodup := by
        simp only [Tree.inorder] at hnd
        exact (List.nodup_cons.1 (List.nodup_append.1 hnd).2.1).2
      have step : rb_tree_next_up h (f + 1) (some b) = some res := by
        have hne : ¬ (some b = (h x).left) := fun e => hnl e.symm
        simp [rb_tree_next_up, rb_tree_is_lchild, getParent, getLeft, hbp, hne, hres]
      have := ihr hrr hndr hv' (f + 1) res step
      refine rb_tree_next_up_mono this ?_
      simp only [Tree.inorder, List.length_append, List.length_cons]
      omega

/-- Climbing from the last node of a shape with the loop of `inc` goes on from the root of the
shape. -/
theorem Rep.inc_up_last {h : Heap} {t : Tree} {v : Nat} : ∀ {par : Ptr} {x : Nat},
    Rep h par (some x) t → t.inorder.getLast? = some v →
    ∀ f res, inc_up h f (some x) par = some res →
      inc_up h (f + t.inorder.length) (some v) (h v).parent = some res := by
  induction t with
  | nil => intro par x hr; simp [Rep] at hr
  | node l a r _ ihr =>
    intro par x hr hv f res hres
    obtain ⟨hp, hpar, hl, hrr⟩ := hr
    injection hp with hp
    subst hp
    rw [inorder_getLast_node] at hv
    cases r with
    | nil =>
      simp only [Tree.inorder, List.getLast?_nil, Option.getD_none, Option.some.injEq] at hv
      subst hv
      rw [hpar]
      exact inc_up_mono hres (by omega)
    | node rl b rr =>
      have hb : (h x).right = some b := hrr.1
      have hv' : (Tree.node rl b rr).inorder.getLast? = some v := by
        rw [inorder_getLast_node] at hv ⊢
        simpa using hv
      rw [hb] at hrr
      have step : inc_up h (f + 1) (some b) (some x) = some res := by
        simp [inc_up, getRight, getParent, hb, hpar, hres]
      have := ihr hrr hv' (f + 1) res step
      refine inc_up_mono this ?_
      simp only [Tree.inorder, List.length_append, List.length_cons]
      omega

/-- Facts about the children of a node `a` with subtrees `l` and `r`, from distinctness. -/
theorem Rep.child_facts {h : Heap} {l r : Tree} {a : Nat} {par p : Ptr}
    (hr : Rep h par p (.node l a r)) (hnd : (Tree.node l a r).inorder.Nodup) :
    l.inorder.Nodup ∧ r.inorder.Nodup ∧ a ∉ l.inorder ∧ a ∉ r.inorder ∧
    (∀ b ∈ l.inorder, (h a).right ≠ some b) ∧ (∀ b ∈ r.inorder, (h a).left ≠ some b) ∧
    (∀ b ∈ l.inorder, (h b).right ≠ some a ∧ (h b).left ≠ some a) ∧
    (∀ b ∈ r.inorder, (h b).right ≠ some a ∧ (h b).left ≠ some a) := by
  obtain ⟨hp, hpar, hl, hrr⟩ := hr
  simp [Tree.inorder, List.nodup_append, List.nodup_cons] at hnd
  obtain ⟨hndl, ⟨har, hndr⟩, hal, hdisj⟩ := hnd
  refine ⟨hndl, hndr, hal, har, ?_, ?_, ?_, ?_⟩
  · intro b hb e
    rw [e] at hrr
    exact hdisj hb hrr.root_mem
  · intro b hb e
    rw [e] at hl
    exact hdisj hl.root_mem hb
  · intro b hb
    exact ⟨fun e => hal (hl.right_mem hb e), fun e => hal (hl.left_mem hb e)⟩
  · intro b hb
    exact ⟨fun e => har (hrr.right_mem hb e), fun e => har (hrr.left_mem hb e)⟩

/-- `rb_tree_next` on a node followed by `s` in the in-order sequence returns `s`. -/
theorem Rep.next_spec {h : Heap} {t : Tree} {v s : Nat} : ∀ {par p : Ptr} {pre post : List Nat},
    Rep h par p t → t.inorder.Nodup → t.inorder = pre ++ v :: s :: post →
    ∀ fuel, t.inorder.length + 1 ≤ fuel → rb_tree_next h fuel (some v) = some (some s) := by
  induction t with
  | nil => intro par p pre post _ _ e; simp [Tree.inorder] at e
  | node l a r ihl ihr =>
    intro par p pre post hr hnd e fuel hf
    obtain ⟨hndl, hndr, hal, har, hlr, hrl, hla, hra⟩ := hr.child_facts hnd
    obtain ⟨hp, hpar, hl, hrr⟩ := hr
    simp only [Tree.inorder, List.length_append, List.length_cons] at hf
    simp only [Tree.inorder] at e
    rcases split_consecutive e with ⟨post', h1⟩ | ⟨h1, h2, h3⟩ | ⟨h1, h2, h3⟩ | ⟨pre', h1, h2⟩
    · exact ihl hl hndl h1 fuel (by omega)
    · -- v is the last node of the left subtree, s = a
      subst h2
      have hlast : l.inorder.getLast? = some v := by rw [h1]; simp
      cases l with
      | nil => simp [Tree.inorder] at h1
      | node ll b lr =>
        have hb : (h a).left = some b := hl.1
        rw [hb] at hl
        have hbp : (h b).parent = some a := hl.2.1
        obtain ⟨hvr, -⟩ := hl.last_right_none hlast
        have base : rb_tree_next_up h 1 (some b) = some (some a) := by
          simp [rb_tree_next_up, rb_tree_is_lchild, getParent, getLeft, hbp, hb]
        have := hl.next_up_last hndl hlast 1 _ base
        have := rb_tree_next_up_mono this (g := fuel) (by omega)
        simp [rb_tree_next, getRight, hvr, this]
    · -- v = a, s is the first node of the right subtree
      subst h2
      cases r with
      | nil => simp [Tree.inorder] at h3
      | node rl b rr =>
        have hb : (h a).right = some b := hrr.1
        rw [hb] at hrr
        obtain ⟨m, hm1, hm2, -, -⟩ := hrr.min_spec fuel (by omega)
        rw [h3] at hm2
        simp only [List.head?_cons, Option.some.injEq] at hm2
        subst hm2
        simp [rb_tree_next, getRight, hb, hm1]
    · exact ihr hrr hndr h2 fuel (by omega)

/-- `inc` on a node followed by `s` in the in-order sequence moves to `s`. -/
theorem Rep.inc_spec {h : Heap} {t : Tree} {v s : Nat} : ∀ {par p : Ptr} {pre post : List Nat},
    Rep h par p t → t.inorder.Nodup → t.inorder = pre ++ v :: s :: post →
    ∀ fuel, t.inorder.length + 1 ≤ fuel → inc h fuel (some v) = some (some s) := by
  induction t with
  | nil => intro par p pre post _ _ e; simp [Tree.inorder] at e
  | node l a r ihl ihr =>
    intro par p pre post hr hnd e fuel hf
    obtain ⟨hndl, hndr, hal, har, hlr, hrl, hla, hra⟩ := hr.child_facts hnd
    obtain ⟨hp, hpar, hl, hrr⟩ := hr
    simp only [Tree.inorder, List.length_append, List.length_cons] at hf
    simp only [Tree.inorder] at e
    rcases split_consecutive e with ⟨post', h1⟩ | ⟨h1, h2, h3⟩ | ⟨h1, h2, h3⟩ | ⟨pre', h1, h2⟩
    · exact ihl hl hndl h1 fuel (by omega)
    · -- v is the last node of the left subtree, s = a
      subst h2
      have hlast : l.inorder.getLast? = some v := by rw [h1]; simp
      cases l with
      | nil => simp [Tree.inorder] at h1
      | node ll b lr =>
        have hb : (h a).left = some b := hl.1
        rw [hb] at hl
        have hbm : b ∈ (Tree.node ll b lr).inorder := hl.root_mem
        obtain ⟨hvr, -⟩ := hl.last_right_none hlast
        have hne : ¬ ((h a).right = some b) := hlr b hbm
        have base : inc_up h 1 (some b) (some a) = some (some b, some a) := by
          simp [inc_up, getRight, hne]
        have := hl.inc_up_last hlast 1 _ base
        have := inc_up_mono this (g := fuel) (by omega)
        have hne2 : ¬ ((h b).right = some a) := (hla b hbm).1
        simp [inc, getRight, getParent, hvr, this, hne2]
    · -- v = a, s is the first node of the right subtree
      subst h2
      cases r with
      | nil => simp [Tree.inorder] at h3
      | node rl b rr =>
        have hb : (h a).right = some b := hrr.1
        rw [hb] at hrr
        obtain ⟨m, hm1, hm2, -, -⟩ := hrr.min_spec fuel (by omega)
        rw [h3] at hm2
        simp only [List.head?_cons, Option.some.injEq] at hm2
        subst hm2
        simp [inc, getRight, hb, hm1]
    · exact ihr hrr hndr h2 fuel (by omega)

/-- `inc` on the last node of a well-formed tree whose `rightmost` is that node moves to the
header. -/
theorem WellFormed.inc_last {hd : Nat} {h : Heap} {t : Tree} {v : Nat}
    (hwf : WellFormed hd h t) (hrm : rightmost hd h = some v)
    (hlast : t.inorder.getLast? = some v) (fuel : Nat) (hf : t.inorder.length + 2 ≤ fuel) :
    inc h fuel (some v) = some (some hd) := by
  obtain ⟨hrep, hnd⟩ := hwf
  obtain ⟨hdt, hndt⟩ := List.nodup_cons.1 hnd
  cases t with
  | nil => simp [Tree.inorder] at hlast
  | node l a r =>
    have ha : root hd h = some a := hrep.1
    rw [ha] at hrep
    obtain ⟨hvr, -⟩ := hrep.last_right_none hlast
    have hroot : (h hd).parent = some a := ha
    have hright : (h hd).right = some v := hrm
    have har : (h a).right ≠ some hd := fun e => hdt (hrep.right_mem hrep.root_mem e)
    by_cases hva : v = a
    · subst hva
      have base : inc_up h 2 (some v) (some hd) = some (some hd, some v) := by
        simp [inc_up, getRight, getParent, hright, hroot, hvr]
      have := hrep.inc_up_last hlast 2 _ base
      have := inc_up_mono this (g := fuel) (by omega)
      simp [inc, getRight, getParent, hvr, this, hright]
    · have hne : ¬ (v = a) := hva
      have base : inc_up h 1 (some a) (some hd) = some (some a, some hd) := by
        simp [inc_up, getRight, hright, hne]
      have := hrep.inc_up_last hlast 1 _ base
      have := inc_up_mono this (g := fuel) (by omega)
      simp [inc, getRight, getParent, hvr, this, har]

/-- The in-order sequence of the values of a tree in binary-search-tree order is
non-decreasing. -/
theorem BstOrdered.sorted {h : Heap} {t : Tree} (hb : BstOrdered h t) :
    (valuesAt h t.inorder).Pairwise (· ≤ ·) := by
  induction t with
  | nil => simp [valuesAt, Tree.inorder]
  | node l a r ihl ihr =>
    obtain ⟨h1, h2, h3, h4⟩ := hb
    simp only [valuesAt, Tree.inorder, List.map_append, List.map_cons]
    rw [List.pairwise_append]
    refine ⟨ihl h3, ?_, ?_⟩
    · rw [List.pairwise_cons]
      refine ⟨?_, ihr h4⟩
      intro x hx
      obtain ⟨b, hb, rfl⟩ := List.mem_map.1 hx
      exact Nat.le_of_not_lt (h2 b hb)
    · intro x hx y hy
      obtain ⟨b, hb, rfl⟩ := List.mem_map.1 hx
      have hlt := h1 b hb
      rcases List.mem_cons.1 hy with rfl | hy
      · exact Nat.le_of_lt hlt
      · obtain ⟨c, hc, rfl⟩ := List.mem_map.1 hy
        have := h2 c hc
        omega

/-- Repeated `inc` from `leftmost` walks the in-order sequence and then reaches the header. -/
theorem WellFormed.inc_iter_spec {hd : Nat} {h : Heap} {t : Tree}
    (hwf : WellFormed hd h t) (hc : ExtremesCached hd h t)
    (hne : t.inorder ≠ []) (fuel : Nat) (hf : t.inorder.length + 2 ≤ fuel) :
    ∀ k, k ≤ t.inorder.length →
      inc_iter h fuel k (leftmost hd h) = some ((t.inorder ++ [hd])[k]?) := by
  intro k
  induction k with
  | zero =>
    intro _
    rw [inc_iter, hc.1]
    cases hL : t.inorder with
    | nil => exact absurd hL hne
    | cons a L => simp
  | succ k ih =>
    intro hk
    have hk' : k < t.inorder.length := by omega
    rw [inc_iter, ih (by omega)]
    rw [List.getElem?_append_left hk', List.getElem?_eq_getElem hk']
    simp only [Option.some_bind]
    by_cases hlast : k + 1 < t.inorder.length
    · rw [List.getElem?_append_left hlast, List.getElem?_eq_getElem hlast]
      have e : t.inorder = t.inorder.take k ++ t.inorder[k] :: t.inorder[k + 1] ::
          t.inorder.drop (k + 2) := by
        conv_lhs => rw [← List.take_append_drop k t.inorder]
        rw [List.drop_eq_getElem_cons hk', List.drop_eq_getElem_cons hlast]
      exact hwf.1.inc_spec (List.nodup_cons.1 hwf.2).2 e fuel (by omega)
    · have hkn : k + 1 = t.inorder.length := by omega
      rw [hkn, List.getElem?_concat_length]
      have hl : t.inorder.getLast? = some t.inorder[k] := by
        rw [List.getLast?_eq_getElem?]
        have : t.inorder.length - 1 = k := by omega
        rw [this, List.getElem?_eq_getElem hk']
      have hrm : rightmost hd h = some t.inorder[k] := by
        rw [hc.2, hl]; rfl
      exact hwf.inc_last hrm hl fuel hf

/-- Iterating with `inc` from a node of a well-formed tree up to the header collects the rest of
the in-order sequence. -/
theorem WellFormed.iterate_from {hd : Nat} {h : Heap} {t : Tree}
    (hwf : WellFormed hd h t) (hc : ExtremesCached hd h t) :
    ∀ (rest pre : List Nat) (v : Nat), t.inorder = pre ++ v :: rest →
      ∀ fuel, rest.length + t.inorder.length + 3 ≤ fuel →
        iterate hd h fuel (some v) = some (v :: rest) := by
  have hdt : hd ∉ t.inorder := (List.nodup_cons.1 hwf.2).1
  intro rest
  induction rest with
  | nil =>
    intro pre v e fuel hf
    obtain ⟨f, rfl⟩ : ∃ f, fuel = f + 1 := ⟨fuel - 1, by omega⟩
    obtain ⟨f2, rfl⟩ : ∃ f2, f = f2 + 1 := ⟨f - 1, by omega⟩
    have hvm : v ∈ t.inorder := by rw [e]; simp
    have hvh : v ≠ hd := fun e' => hdt (e' ▸ hvm)
    have hl : t.inorder.getLast? = some v := by rw [e]; simp
    have hrm : rightmost hd h = some v := by rw [hc.2, hl]; rfl
    have := hwf.inc_last hrm hl (f2 + 1) (by simp only [List.length_nil] at hf; omega)
    simp [iterate, hvh, this]
  | cons s post ih =>
    intro pre v e fuel hf
    obtain ⟨f, rfl⟩ : ∃ f, fuel = f + 1 := ⟨fuel - 1, by omega⟩
    have hvm : v ∈ t.inorder := by rw [e]; simp
    have hvh : v ≠ hd := fun e' => hdt (e' ▸ hvm)
    simp only [List.length_cons] at hf
    have h1 := hwf.1.inc_spec (List.nodup_cons.1 hwf.2).2 e f (by omega)
    have h2 := ih (pre ++ [v]) s (by rw [e]; simp) f (by omega)
    simp [iterate, hvh, h1, h2]

/-- Every heap has the colours of itself. -/
theorem SameColor.refl (h : Heap) : SameColor h h := fun _ => rfl

/-- Colour preservation composes. -/
theorem SameColor.trans {h1 h2 h3 : Heap} (a : SameColor h1 h2) (b : SameColor h2 h3) :
    SameColor h1 h3 := fun x => (b x).trans (a x)

/-- The assignment `p->parent = v` changes no colour. -/
theorem setParent_sameColor {h h' : Heap} {p v : Ptr} (e : setParent h p v = some h') :
    SameColor h h' := by
  cases p with
  | none => simp [setParent] at e
  | some b =>
    simp only [setParent, Option.some.injEq] at e
    subst e
    intro a
    simp only [Heap.set]
    split_ifs with hab
    · subst hab; rfl
    · rfl

/-- The assignment `p->left = v` changes no colour. -/
theorem setLeft_sameColor {h h' : Heap} {p v : Ptr} (e : setLeft h p v = some h') :
    SameColor h h' := by
  cases p with
  | none => simp [setLeft] at e
  | some b =>
    simp only [setLeft, Option.some.injEq] at e
    subst e
    intro a
    simp only [Heap.set]
    split_ifs with hab
    · subst hab; rfl
    · rfl

/-- The assignment `p->right = v` changes no colour. -/
theorem setRight_sameColor {h h' : Heap} {p v : Ptr} (e : setRight h p v = some h') :
    SameColor h h' := by
  cases p with
  | none => simp [setRight] at e
  | some b =>
    simp only [setRight, Option.some.injEq] at e
    subst e
    intro a
    simp only [Heap.set]
    split_ifs with hab
    · subst hab; rfl
    · rfl

/-- The assignment `root = v` changes no colour. -/
theorem setRoot_sameColor (hd : Nat) (h : Heap) (v : Ptr) : SameColor h (setRoot hd h v) := by
  intro a
  simp only [setRoot, Heap.set]
  split_ifs with hab
  · subst hab; rfl
  · rfl

/-- The last statements of `rb_tree_rotate_left` from the relink of the parent on. -/
theorem rotate_left_tail_sameColor {hd : Nat} {x y : Ptr} {h h' : Heap}
    (e : (if x = root hd h then
        (pure (setRoot hd h y) : Option Heap).bind fun h4 =>
          (setLeft h4 y y).bind fun h5 => setParent h5 x y
      else
        (rb_tree_is_lchild h x).bind fun isl =>
          (getParent h x).bind fun xp =>
            if isl = true then
              (setLeft h xp y).bind fun h4 => (setLeft h4 y y).bind fun h5 => setParent h5 x y
            else
              (setRight h xp y).bind fun h4 => (setLeft h4 y y).bind fun h5 => setParent h5 x y)
      = some h') : SameColor h h' := by
  split_ifs at e with hc
  · simp only [pure, Option.some_bind, Option.bind_eq_some] at e
    obtain ⟨h5, e5, e6⟩ := e
    exact ((setRoot_sameColor hd h y).trans (setLeft_sameColor e5)).trans
      (setParent_sameColor e6)
  · simp only [Option.bind_eq_some] at e
    obtain ⟨isl, -, xp, -, e⟩ := e
    split_ifs at e
    · simp only [Option.bind_eq_some] at e
      obtain ⟨h4, e4, h5, e5, e6⟩ := e
      exact ((setLeft_sameColor e4).trans (setLeft_sameColor e5)).trans (setParent_sameColor e6)
    · simp only [Option.bind_eq_some] at e
      obtain ⟨h4, e4, h5, e5, e6⟩ := e
      exact ((setRight_sameColor e4).trans (setLeft_sameColor e5)).trans (setParent_sameColor e6)

/-- `rb_tree_rotate_left` changes no colour. -/
theorem rb_tree_rotate_left_sameColor {hd : Nat} {x : Ptr} {h h' : Heap}
    (e : rb_tree_rotate_left hd x h = some h') : SameColor h h' := by
  simp only [rb_tree_rotate_left, Option.bind_eq_bind, Option.bind_eq_some] at e
  obtain ⟨y, -, yl, -, h1, e1, yl2, -, e⟩ := e
  split_ifs at e
  · simp only [Option.bind_eq_some] at e
    obtain ⟨h2, e2, xp, -, h3, e3, e⟩ := e
    exact (((setRight_sameColor e1).trans (setParent_sameColor e2)).trans
      (setParent_sameColor e3)).trans (rotate_left_tail_sameColor e)
  · simp only [pure, Option.some_bind, Option.bind_eq_some] at e
    obtain ⟨xp, -, h3, e3, e⟩ := e
    exact ((setRight_sameColor e1).trans (setParent_sameColor e3)).trans
      (rotate_left_tail_sameColor e)

/-- The last statements of `rb_tree_rotate_right` from the relink of the parent on. -/
theorem rotate_right_tail_sameColor {hd : Nat} {x y : Ptr} {h h' : Heap}
    (e : (if x = root hd h then
        (pure (setRoot hd h y) : Option Heap).bind fun h4 =>
          (setRight h4 y x).bind fun h5 => setParent h5 x y
      else
        (rb_tree_is_lchild h x).bind fun isl =>
          (getParent h x).bind fun xp =>
            if isl = true then
              (setLeft h xp y).bind fun h4 => (setRight h4 y x).bind fun h5 => setParent h5 x y
            else
              (setRight h xp y).bind fun h4 => (setRight h4 y x).bind fun h5 => setParent h5 x y)
      = some h') : SameColor h h' := by
  split_ifs at e with hc
  · simp only [pure, Option.some_bind, Option.bind_eq_some] at e
    obtain ⟨h5, e5, e6⟩ := e
    exact ((setRoot_sameColor hd h y).trans (setRight_sameColor e5)).trans
      (setParent_sameColor e6)
  · simp only [Option.bind_eq_some] at e
    obtain ⟨isl, -, xp, -, e⟩ := e
    split_ifs at e
    · simp only [Option.bind_eq_some] at e
      obtain ⟨h4, e4, h5, e5, e6⟩ := e
      exact ((setLeft_sameColor e4).trans (setRight_sameColor e5)).trans (setParent_sameColor e6)
    · simp only [Option.bind_eq_some] at e
      obtain ⟨h4, e4, h5, e5, e6⟩ := e
      exact ((setRight_sameColor e4).trans (setRight_sameColor e5)).trans
        (setParent_sameColor e6)

/-- `rb_tree_rotate_right` changes no colour. -/
theorem rb_tree_rotate_right_sameColor {hd : Nat} {x : Ptr} {h h' : Heap}
    (e : rb_tree_rotate_right hd x h = some h') : SameColor h h' := by
  simp only [rb_tree_rotate_right, Option.bind_eq_bind, Option.bind_eq_some] at e
  obtain ⟨y, -, yr, -, h1, e1, yr2, -, e⟩ := e
  split_ifs at e
  · simp only [Option.bind_eq_some] at e
    obtain ⟨h2, e2, xp, -, h3, e3, e⟩ := e
    exact (((setLeft_sameColor e1).trans (setParent_sameColor e2)).trans
      (setParent_sameColor e3)).trans (rotate_right_tail_sameColor e)
  · simp only [pure, Option.some_bind, Option.bind_eq_some] at e
    obtain ⟨xp, -, h3, e3, e⟩ := e
    exact ((setLeft_sameColor e1).trans (setParent_sameColor e3)).trans
      (rotate_right_tail_sameColor e)

/-- The assignment `a->color = c` on a non-null pointer. -/
theorem setColor_some (h : Heap) (a : Nat) (c : Bool) :
    setColor h (some a) c = some (recolor h a c) := rfl

/-- Links and value of a node after a colour assignment. -/
theorem recolor_links (h : Heap) (a b : Nat) (c : Bool) :
    (recolor h a c b).parent = (h b).parent ∧ (recolor h a c b).left = (h b).left ∧
    (recolor h a c b).right = (h b).right ∧ (recolor h a c b).value = (h b).value := by
  simp only [recolor, Heap.set]
  split_ifs with hab
  · subst hab; exact ⟨rfl, rfl, rfl, rfl⟩
  · exact ⟨rfl, rfl, rfl, rfl⟩

/-- A colour assignment keeps the `parent` links. -/
theorem recolor_parent (h : Heap) (a b : Nat) (c : Bool) :
    (recolor h a c b).parent = (h b).parent := (recolor_links h a b c).1

/-- A colour assignment keeps the `left` links. -/
theorem recolor_left (h : Heap) (a b : Nat) (c : Bool) :
    (recolor h a c b).left = (h b).left := (recolor_links h a b c).2.1

/-- A colour assignment keeps the `right` links. -/
theorem recolor_right (h : Heap) (a b : Nat) (c : Bool) :
    (recolor h a c b).right = (h b).right := (recolor_links h a b c).2.2.1

/-- A colour assignment keeps the values. -/
theorem recolor_value (h : Heap) (a b : Nat) (c : Bool) :
    (recolor h a c b).value = (h b).value := (recolor_links h a b c).2.2.2

/-- The colours after a colour assignment. -/
theorem recolor_color (h : Heap) (a b : Nat) (c : Bool) :
    (recolor h a c b).color = if b = a then c else (h b).color := by
  simp only [recolor, Heap.set]
  split_ifs <;> rfl

/-- The test `node_count_ > max_size() - n` holds exactly when `node_count_ + n` exceeds
`max_size()`, for `n` representable in `size_type`. -/
theorem size_too_big_iff (w count n : Nat) (hn : n ≤ max_size w) :
    size_too_big w count n = true ↔ count + n > max_size w := by
  have hpos : 0 < 2 ^ w := Nat.two_pow_pos w
  simp only [size_too_big, max_size, decide_eq_true_eq] at *
  have h1 : n % 2 ^ w = n := Nat.mod_eq_of_lt (by omega)
  have h2 : (2 ^ w - 1 + 2 ^ w - n) % 2 ^ w = 2 ^ w - 1 - n := by
    have : 2 ^ w - 1 + 2 ^ w - n = (2 ^ w - 1 - n) + 2 ^ w := by omega
    rw [this, Nat.add_mod_right, Nat.mod_eq_of_lt (by omega)]
  rw [h1, h2]
  omega

/-- Every node of a well-formed tree is the root of a represented subtree, which is not larger
than the tree. -/
theorem WellFormed.subtree {hd : Nat} {h : Heap} {t : Tree} {x : Nat}
    (hwf : WellFormed hd h t) (hx : x ∈ t.inorder) :
    ∃ s, Rep h (h x).parent (some x) s ∧ s.inorder.length ≤ t.inorder.length := by
  obtain ⟨hrep, hnd⟩ := hwf
  obtain ⟨hdt, hndt⟩ := List.nodup_cons.1 hnd
  obtain ⟨l, r, h1, h2, h3, h4, h5, -⟩ := hrep.local hndt hx
  refine ⟨.node l x r, ⟨rfl, rfl, h1, h2⟩, ?_⟩
  have hsub : (Tree.node l x r).inorder ⊆ t.inorder := by
    intro b hb
    simp only [Tree.inorder, List.mem_append, List.mem_cons] at hb
    rcases hb with hb | rfl | hb
    · exact h3 b hb
    · exact hx
    · exact h4 b hb
  have hnd' : (Tree.node l x r).inorder.Nodup := by
    simp only [List.nodup_cons, List.mem_append, not_or, List.nodup_append] at h5
    simp only [Tree.inorder, List.nodup_append, List.nodup_cons]
    refine ⟨h5.2.1, ⟨h5.1.2, h5.2.2.1⟩, ?_⟩
    intro b hb hb'
    rcases List.mem_cons.1 hb' with rfl | hb'
    · exact h5.1.1 hb
    · exact h5.2.2.2 hb hb'
  exact (List.subperm_of_subset hnd' hsub).length_le

/-- After a node without right child, the next node of the in-order sequence is the nearest
ancestor reached by a step up from a left child. -/
theorem Rep.next_is_ancestor {h : Heap} {t : Tree} {v s : Nat} :
    ∀ {par p : Ptr} {pre post : List Nat}, Rep h par p t →
    t.inorder = pre ++ v :: s :: post → (h v).right = none →
    ∃ c, (h s).left = some c ∧ Relation.ReflTransGen (rightStep h) c v := by
  induction t with
  | nil => intro par p pre post _ e; simp [Tree.inorder] at e
  | node l a r ihl ihr =>
    intro par p pre post hr e hv
    obtain ⟨hp, hpar, hl, hrr⟩ := hr
    simp only [Tree.inorder] at e
    rcases split_consecutive e with ⟨post', h1⟩ | ⟨h1, h2, h3⟩ | ⟨h1, h2, h3⟩ | ⟨pre', h1, h2⟩
    · exact ihl hl h1 hv
    · subst h2
      have hlast : l.inorder.getLast? = some v := by rw [h1]; simp
      cases l with
      | nil => simp [Tree.inorder] at h1
      | node ll b lr =>
        have hb : (h a).left = some b := hl.1
        rw [hb] at hl
        exact ⟨b, hb, (hl.last_right_none hlast).2⟩
    · subst h2
      cases r with
      | nil => simp [Tree.inorder] at h3
      | node rl b rr =>
        have hb : (h a).right = some b := hrr.1
        rw [hv] at hb
        exact absurd hb (by simp)
    · exact ihr hrr h2 hv

/-! ## Properties of iteration, rotation colours and insertion steps -/

/-- C11: in a non-empty well-formed tree whose header caches the first and the last node of
the in-order sequence, with `n` value nodes and enough fuel for the loops: `k` applications of
`inc` from `begin()` (`leftmost`) reach the `k`-th node of the in-order sequence for `k < n` and
the header `end()` for `k = n`, and not earlier; iterating up to the header collects exactly
the in-order sequence, which holds every node once; and when the tree is in binary-search-tree
order the values visited are non-decreasing. -/
theorem inc_visits_inorder (hd : Nat) (h : Heap) (t : Tree) (fuel : Nat)
    (hwf : WellFormed hd h t) (hne : t.inorder ≠ []) (hc : ExtremesCached hd h t)
    (hf : 2 * t.inorder.length + 3 ≤ fuel) :
    leftmost hd h = t.inorder.head? ∧
    (∀ k, k ≤ t.inorder.length →
      inc_iter h fuel k (leftmost hd h) = some ((t.inorder ++ [hd])[k]?)) ∧
    inc_iter h fuel t.inorder.length (leftmost hd h) = some (some hd) ∧
    (∀ k, k < t.inorder.length → inc_iter h fuel k (leftmost hd h) ≠ some (some hd)) ∧
    iterate hd h fuel (leftmost hd h) = some t.inorder ∧ t.inorder.Nodup ∧
    (BstOrdered h t → (valuesAt h t.inorder).Pairwise (· ≤ ·)) := by
  have hdt : hd ∉ t.inorder := (List.nodup_cons.1 hwf.2).1
  have hspec := hwf.inc_iter_spec hc hne fuel (by omega)
  have hlm : leftmost hd h = t.inorder.head? := by
    rw [hc.1]
    cases hL : t.inorder with
    | nil => exact absurd hL hne
    | cons a L => rfl
  refine ⟨hlm, hspec, ?_, ?_, ?_, (List.nodup_cons.1 hwf.2).2, BstOrdered.sorted⟩
  · rw [hspec _ (Nat.le_refl _), List.getElem?_concat_length]
  · intro k hk e
    rw [hspec k (by omega), List.getElem?_append_left hk, List.getElem?_eq_getElem hk] at e
    simp only [Option.some.injEq] at e
    exact hdt (e ▸ List.getElem_mem hk)
  · cases hL : t.inorder with
    | nil => exact absurd hL hne
    | cons a L =>
      have e : t.inorder = [] ++ a :: L := by rw [hL]; rfl
      have hlen : t.inorder.length = L.length + 1 := by rw [hL]; rfl
      have := hwf.iterate_from hc L [] a e fuel (by omega)
      rw [hlm, hL]
      exact this

/-- Witness of C11 on the five-node tree. -/
theorem inc_visits_inorder_witness :
    iterate 0 fiveNodes 13 (leftmost 0 fiveNodes) = some [1, 2, 3, 4, 5] ∧
    inc_iter fiveNodes 13 5 (leftmost 0 fiveNodes) = some (some 0) ∧
    (valuesAt fiveNodes fiveShape.inorder).Pairwise (· ≤ ·) :=
  have w := inc_visits_inorder 0 fiveNodes fiveShape 13 (by decide) (by decide) (by decide)
    (by decide)
  ⟨w.2.2.2.2.1, w.2.2.1, w.2.2.2.2.2.2 (by decide)⟩

/-- C12: in a non-empty well-formed tree whose header is Red and caches the last node of the
in-order sequence in `rightmost`, `dec` applied at `end()` (the header) yields `rightmost`,
the last node of the in-order sequence. -/
theorem dec_at_end (hd : Nat) (h : Heap) (t : Tree) (fuel : Nat)
    (hwf : WellFormed hd h t) (hne : t.inorder ≠ []) (hc : ExtremesCached hd h t)
    (hred : (h hd).color = kRbTreeRed) :
    dec h fuel (some hd) = some (rightmost hd h) ∧ rightmost hd h = t.inorder.getLast? := by
  obtain ⟨hrep, -⟩ := hwf
  cases t with
  | nil => simp [Tree.inorder] at hne
  | node l a r =>
    obtain ⟨hp, hpar, -, -⟩ := hrep
    have hroot : (h hd).parent = some a := hp
    constructor
    · simp [dec, getParent, getRight, rb_tree_is_red, getColor, hroot, hpar, hred, rightmost]
    · rw [hc.2]
      cases hL : (Tree.node l a r).inorder.getLast? with
      | none => simp [Tree.inorder] at hL
      | some v => rfl

/-- Witness of C12 on the five-node tree. -/
theorem dec_at_end_witness :
    dec fiveNodes 0 (some 0) = some (some 5) ∧
    rightmost 0 fiveNodes = fiveShape.inorder.getLast? :=
  dec_at_end 0 fiveNodes fiveShape 0 (by decide) (by decide) (by decide) (by decide)

/-- C13: for the range forms `insert_multi(first, last)` and `insert_unique(first, last)` on a
range of `n` elements, `n` representable in `size_type`: a length error is raised if and only
if `node_count_ > max_size() - n`, that is exactly when `node_count_ + n` exceeds `max_size()`;
when it is raised the state of the tree is unchanged (no element was inserted), and otherwise
every element of the range was inserted in order. -/
theorem range_insert_length_error {α : Type} (w : Nat) (ins : RbTreeState → α → RbTreeState)
    (xs : List α) (st : RbTreeState) (hn : xs.length ≤ max_size w) :
    ((insert_multi_range w ins xs st).1 = Outcome.length_error ↔
        st.node_count > max_size w - xs.length) ∧
    ((insert_unique_range w ins xs st).1 = Outcome.length_error ↔
        st.node_count > max_size w - xs.length) ∧
    (st.node_count > max_size w - xs.length ↔ st.node_count + xs.length > max_size w) ∧
    ((insert_multi_range w ins xs st).1 = Outcome.length_error →
        (insert_multi_range w ins xs st).2 = st) ∧
    ((insert_unique_range w ins xs st).1 = Outcome.length_error →
        (insert_unique_range w ins xs st).2 = st) ∧
    ((insert_multi_range w ins xs st).1 = Outcome.done →
        (insert_multi_range w ins xs st).2 = xs.foldl ins st) ∧
    ((insert_unique_range w ins xs st).1 = Outcome.done →
        (insert_unique_range w ins xs st).2 = xs.foldl ins st) := by
  have hpos : 0 < 2 ^ w := Nat.two_pow_pos w
  have hlt : xs.length < 2 ^ w := by unfold max_size at hn; omega
  have hmod : xs.length % 2 ^ w = xs.length := Nat.mod_eq_of_lt hlt
  have key := size_too_big_iff w st.node_count xs.length hn
  have hsub : st.node_count > max_size w - xs.length ↔ st.node_count + xs.length > max_size w := by
    omega
  simp only [insert_multi_range, insert_unique_range, THROW_LENGTH_ERROR_IF, hmod,
    List.take_length]
  by_cases hb : size_too_big w st.node_count xs.length = true
  · have := key.1 hb
    simp [hb, hsub, this]
  · have : ¬ (st.node_count + xs.length > max_size w) := fun e => hb (key.2 e)
    simp [hb, hsub, this]

/-- Witness of C13: three elements into a tree of 253 nodes with an 8-bit `size_type`. -/
theorem range_insert_length_error_witness :
    ((insert_multi_range 8 (fun st (_ : Nat) => { st with node_count := st.node_count + 1 })
        [1, 2, 3] ⟨emptyTree 0, 253⟩).1 = Outcome.length_error ↔ 253 > max_size 8 - 3) ∧
    253 > max_size 8 - 3 :=
  ⟨(range_insert_length_error 8 (fun st (_ : Nat) => { st with node_count := st.node_count + 1 })
    [1, 2, 3] ⟨emptyTree 0, 253⟩ (by decide)).1, by decide⟩

/-- C14: in a well-formed tree, for a node `v` followed by `s` in the in-order sequence and
enough fuel, `rb_tree_next(v)` returns `s`; when the right child of `v` exists, `s` is the
minimum of the right subtree; otherwise `s` is the nearest ancestor reached by a step up from a
left child: `v` lies at the end of the `right` links starting at the left child of `s`. -/
theorem rb_tree_next_successor (hd : Nat) (h : Heap) (t : Tree) (v s : Nat)
    (pre post : List Nat) (fuel : Nat) (hwf : WellFormed hd h t)
    (e : t.inorder = pre ++ v :: s :: post) (hf : t.inorder.length + 1 ≤ fuel) :
    rb_tree_next h fuel (some v) = some (some s) ∧
    (∀ r, (h v).right = some r → rb_tree_min h fuel (some r) = some (some s)) ∧
    ((h v).right = none →
      ∃ c, (h s).left = some c ∧ Relation.ReflTransGen (rightStep h) c v) := by
  have hnext := hwf.1.next_spec (List.nodup_cons.1 hwf.2).2 e fuel hf
  refine ⟨hnext, ?_, hwf.1.next_is_ancestor e⟩
  intro r hr
  simpa [rb_tree_next, getRight, hr] using hnext

/-- Witness of C14: in the five-node tree the node 2 is followed by 3. -/
theorem rb_tree_next_successor_witness :
    rb_tree_next fiveNodes 6 (some 2) = some (some 3) ∧
    (∀ r, (fiveNodes 2).right = some r → rb_tree_min fiveNodes 6 (some r) = some (some 3)) ∧
    ((fiveNodes 2).right = none →
      ∃ c, (fiveNodes 3).left = some c ∧ Relation.ReflTransGen (rightStep fiveNodes) c 2) :=
  rb_tree_next_successor 0 fiveNodes fiveShape 2 3 [1] [4, 5] 6 (by decide) (by decide)
    (by decide)

/-- C15: for every node `x` of a well-formed tree and enough fuel, `rb_tree_min(x)` returns the
node `m` reached from `x` along `left` links whose `left` link is null, and `rb_tree_max(x)`
the node `M` reached along `right` links whose `right` link is null; `m` is the first and `M`
the last node of the in-order sequence of the subtree `s` rooted at `x`. -/
theorem rb_tree_min_max_extremes (hd : Nat) (h : Heap) (t : Tree) (x : Nat) (fuel : Nat)
    (hwf : WellFormed hd h t) (hx : x ∈ t.inorder) (hf : t.inorder.length ≤ fuel) :
    ∃ s m M, Rep h (h x).parent (some x) s ∧
      rb_tree_min h fuel (some x) = some (some m) ∧
      rb_tree_max h fuel (some x) = some (some M) ∧
      Relation.ReflTransGen (leftStep h) x m ∧ (h m).left = none ∧
      Relation.ReflTransGen (rightStep h) x M ∧ (h M).right = none ∧
      s.inorder.head? = some m ∧ s.inorder.getLast? = some M := by
  obtain ⟨s, hs, hlen⟩ := hwf.subtree hx
  obtain ⟨m, a1, a2, a3, a4⟩ := hs.min_spec fuel (by omega)
  obtain ⟨M, b1, b2, b3, b4⟩ := hs.max_spec fuel (by omega)
  exact ⟨s, m, M, hs, a1, b1, a4, a3, b4, b3, a2, b2⟩

/-- Witness of C15: the subtree below node 4 of the five-node tree. -/
theorem rb_tree_min_max_extremes_witness :
    ∃ s m M, Rep fiveNodes (fiveNodes 4).parent (some 4) s ∧
      rb_tree_min fiveNodes 5 (some 4) = some (some m) ∧
      rb_tree_max fiveNodes 5 (some 4) = some (some M) ∧
      Relation.ReflTransGen (leftStep fiveNodes) 4 m ∧ (fiveNodes m).left = none ∧
      Relation.ReflTransGen (rightStep fiveNodes) 4 M ∧ (fiveNodes M).right = none ∧
      s.inorder.head? = some m ∧ s.inorder.getLast? = some M :=
  rb_tree_min_max_extremes 0 fiveNodes fiveShape 4 5 (by decide) (by decide) (by decide)

/-- C16: `rb_tree_rotate_left` and `rb_tree_rotate_right` change no colour: for every heap and
every `x` on which the rotation returns, the colour of every node after the rotation is its
colour before. -/
theorem rotations_keep_colors (hd : Nat) (x : Ptr) (h h' : Heap)
    (hrun : rb_tree_rotate_left hd x h = some h' ∨ rb_tree_rotate_right hd x h = some h') :
    ∀ a, (h' a).color = (h a).color := by
  rcases hrun with e | e
  · exact rb_tree_rotate_left_sameColor e
  · exact rb_tree_rotate_right_sameColor e

/-- Witness of C16: the right rotation at the root 4 of the left-heavy tree returns, and the
nodes 2 and 4 keep their colours. -/
theorem rotations_keep_colors_witness :
    (rb_tree_rotate_right 0 (some 4) leftHeavy).isSome = true ∧
    (((rb_tree_rotate_right 0 (some 4) leftHeavy).getD leftHeavy) 2).color =
      (leftHeavy 2).color ∧
    (((rb_tree_rotate_right 0 (some 4) leftHeavy).getD leftHeavy) 4).color =
      (leftHeavy 4).color :=
  ⟨rfl,
    rotations_keep_colors 0 (some 4) leftHeavy
      ((rb_tree_rotate_right 0 (some 4) leftHeavy).getD leftHeavy) (Or.inr rfl) 2,
    rotations_keep_colors 0 (some 4) leftHeavy
      ((rb_tree_rotate_right 0 (some 4) leftHeavy).getD leftHeavy) (Or.inr rfl) 4⟩

/-- C17: for every input on which `rb_tree_insert_rebalance(x, root)` returns, `root` references
a node on return and that node is Black, whichever way the loop was left: the last statement
is `rb_tree_set_black(root)`. -/
theorem insert_rebalance_root_black (hd fuel : Nat) (x : Ptr) (h h' : Heap)
    (hrun : rb_tree_insert_rebalance hd fuel x h = some h') :
    ∃ r, root hd h' = some r ∧ (h' r).color = kRbTreeBlack := by
  simp only [rb_tree_insert_rebalance, Option.bind_eq_bind, Option.bind_eq_some] at hrun
  obtain ⟨h1, -, h2, -, e⟩ := hrun
  cases hr : root hd h2 with
  | none => simp [hr, rb_tree_set_black, setColor] at e
  | some r =>
    simp only [hr, rb_tree_set_black, setColor, Option.some.injEq] at e
    subst e
    refine ⟨r, ?_, by simp [Heap.set]⟩
    simp only [root, Heap.set] at hr ⊢
    split_ifs with hc
    · subst hc; exact hr
    · exact hr

/-- Witness of C17: the insertion of the leaf 1 below 3(Black), 2(Red). -/
theorem insert_rebalance_root_black_witness :
    ∃ r, root 0 ((rb_tree_insert_rebalance 0 5 (some 1) zigzigLeft).getD zigzigLeft) = some r ∧
      (((rb_tree_insert_rebalance 0 5 (some 1) zigzigLeft).getD zigzigLeft) r).color =
        kRbTreeBlack :=
  insert_rebalance_root_black 0 5 (some 1) zigzigLeft
    ((rb_tree_insert_rebalance 0 5 (some 1) zigzigLeft).getD zigzigLeft) rfl

/-- C18: case 3 of `rb_tree_insert_rebalance`. When `x` is not the root, its parent `p` is Red
and its uncle `u` is Red, where `p` is the left child of the grandparent `g` and `u` the right
child, or `p` is not the left child and `u` is the left child: the loop test holds, and one
iteration of the body colours `p` and `u` Black and `g` Red, changes no other colour, no
`parent`, `left` or `right` link and not `root`, and the loop goes on with `x = g`. -/
theorem insert_case3_step (hd : Nat) (h : Heap) (x p g u : Nat)
    (hroot : root hd h ≠ some x)
    (hp : (h x).parent = some p) (hpr : (h p).color = kRbTreeRed)
    (hg : (h p).parent = some g)
    (hu : ((h g).left = some p ∧ (h g).right = some u) ∨
      ((h g).left ≠ some p ∧ (h g).left = some u))
    (hur : (h u).color = kRbTreeRed) (hgp : g ≠ p) (hgu : g ≠ u) :
    insert_loop_test hd (some x) h = some true ∧
    ∃ h', insert_body hd (some x) h = some (InsertStep.next (some g) h') ∧
      (h' p).color = kRbTreeBlack ∧ (h' u).color = kRbTreeBlack ∧
      (h' g).color = kRbTreeRed ∧
      (∀ a, a ≠ p → a ≠ u → a ≠ g → (h' a).color = (h a).color) ∧
      (∀ a, (h' a).parent = (h a).parent ∧ (h' a).left = (h a).left ∧
        (h' a).right = (h a).right ∧ (h' a).value = (h a).value) ∧
      root hd h' = root hd h := by
  have hroot' : ¬ (some x = root hd h) := fun e => hroot e.symm
  have hpg := hgp.symm
  have hug := hgu.symm
  constructor
  · simp [insert_loop_test, hroot', getParent, rb_tree_is_red, getColor, hp, hpr]
  · refine ⟨recolor (recolor (recolor h p kRbTreeBlack) u kRbTreeBlack) g kRbTreeRed,
      ?_, ?_, ?_, ?_, ?_, ?_, ?_⟩
    · rcases hu with ⟨hl, hr⟩ | ⟨hl, hr⟩
      · simp [insert_body, insert_body_left, insert_case3, getParent, getLeft, getRight,
          rb_tree_is_lchild, rb_tree_is_red, rb_tree_set_black, rb_tree_set_red, getColor,
          setColor_some, hp, hg, hl, hr, hur, recolor_parent]
      · have hl' : ¬ (some p = (h g).left) := fun e => hl e.symm
        have hpu : ¬ p = u := fun e => hl (e ▸ hr)
        simp [insert_body, insert_body_right, insert_case3, getParent, getLeft, getRight,
          rb_tree_is_lchild, rb_tree_is_red, rb_tree_set_black, rb_tree_set_red, getColor,
          setColor_some, hp, hg, hr, hur, recolor_parent, hl', hpu]
    · simp [recolor_color, hpg]
    · simp [recolor_color, hug]
    · simp [recolor_color]
    · intro a h1 h2 h3
      simp [recolor_color, h1, h2, h3]
    · intro a
      simp [recolor_parent, recolor_left, recolor_right, recolor_value]
    · simp [root, recolor_parent]

/-- Witness of C18: the leaf 4 below 2(Black) with the Red children 1 and 3, on the right
side. -/
theorem insert_case3_step_witness :
    insert_loop_test 0 (some 4) redUncle = some true ∧
    ∃ h', insert_body 0 (some 4) redUncle = some (InsertStep.next (some 2) h') ∧
      (h' 3).color = kRbTreeBlack ∧ (h' 1).color = kRbTreeBlack ∧
      (h' 2).color = kRbTreeRed ∧
      (∀ a, a ≠ 3 → a ≠ 1 → a ≠ 2 → (h' a).color = (redUncle a).color) ∧
      (∀ a, (h' a).parent = (redUncle a).parent ∧ (h' a).left = (redUncle a).left ∧
        (h' a).right = (redUncle a).right ∧ (h' a).value = (redUncle a).value) ∧
      root 0 h' = root 0 redUncle :=
  insert_case3_step 0 redUncle 4 3 2 1 (by decide) (by decide) (by decide) (by decide)
    (by decide) (by decide) (by decide) (by decide)

/-- C19: the terminal step of `rb_tree_insert_rebalance` (parent Red, uncle absent) on the four
shapes. Parent and `x` both left children: as claimed, the slot of the grandparent 3 holds the
Black parent 2 with the Red children 1 and 3. Parent a left child, `x` a right child: the slot
holds `x = 2`, but its left child is 2 itself and not the parent 1. Parent a right child, `x` a
left child: the slot holds the parent 3 and not `x = 2`, and 3 is its own left child. Parent
and `x` both right children: the step gives no result (null dereference in
`rb_tree_rotate_right`). In the second and third shape no structure with the in-order sequence
1, 2, 3 hangs from the root. -/
theorem insert_terminal_case_shapes :
    (∃ h', insert_body 0 (some 1) zigzigLeft = some (InsertStep.stop h') ∧
      root 0 h' = some 2 ∧ (h' 2).color = kRbTreeBlack ∧
      (h' 2).left = some 1 ∧ (h' 2).right = some 3 ∧
      (h' 1).color = kRbTreeRed ∧ (h' 3).color = kRbTreeRed ∧
      WellFormed 0 h' (.node (.leaf 1) 2 (.leaf 3))) ∧
    (∃ h', insert_body 0 (some 2) zigzagLeft = some (InsertStep.stop h') ∧
      root 0 h' = some 2 ∧ (h' 2).left = some 2 ∧ (h' 2).left ≠ some 1 ∧
      ¬ ∃ t, Rep h' (some 0) (root 0 h') t ∧ t.inorder = [1, 2, 3]) ∧
    (∃ h', insert_body 0 (some 2) zigzagRight = some (InsertStep.stop h') ∧
      root 0 h' = some 3 ∧ root 0 h' ≠ some 2 ∧ (h' 3).left = some 3 ∧
      ¬ ∃ t, Rep h' (some 0) (root 0 h') t ∧ t.inorder = [1, 2, 3]) ∧
    insert_body 0 (some 3) ascending = none := by
  refine ⟨⟨_, rfl, by decide, by decide, by decide, by decide, by decide, by decide, by decide⟩,
    ⟨_, rfl, by decide, by decide, by decide, ?_⟩,
    ⟨_, rfl, by decide, by decide, by decide, ?_⟩, rfl⟩
  · rintro ⟨t, ht, -⟩
    exact Rep.not_self_left (a := 2) (by decide) t _ ht
  · rintro ⟨t, ht, -⟩
    exact Rep.not_self_left (a := 3) (by decide) t _ ht

/-- C20: `rb_tree_insert_rebalance` is not left/right symmetric. On the tree 3(Black) with Red
left child 2 and the fresh leaf 1 to the left of 2 the call returns the red-black tree 2(Black)
with the Red children 1 and 3, whose mirror image is well-formed; on the mirror image of the
input (3 with right child 2 and the leaf 1 to the right of 2) no amount of fuel gives a
result. -/
theorem insert_rebalance_not_mirror_symmetric :
    WellFormed 0 zigzigLeft (.node (.node (.leaf 1) 2 .nil) 3 .nil) ∧
    RedBlack zigzigLeft (.node (.leaf 2) 3 .nil) ∧
    WellFormed 0 (mirror zigzigLeft) (Tree.mirror (.node (.node (.leaf 1) 2 .nil) 3 .nil)) ∧
    RedBlack (mirror zigzigLeft) (Tree.mirror (.node (.leaf 2) 3 .nil)) ∧
    (∃ h', rb_tree_insert_rebalance 0 5 (some 1) zigzigLeft = some h' ∧
      WellFormed 0 h' (.node (.leaf 1) 2 (.leaf 3)) ∧
      RedBlack h' (.node (.leaf 1) 2 (.leaf 3)) ∧
      WellFormed 0 (mirror h') (Tree.mirror (.node (.leaf 1) 2 (.leaf 3)))) ∧
    ∀ fuel, rb_tree_insert_rebalance 0 fuel (some 1) (mirror zigzigLeft) = none := by
  refine ⟨by decide, by decide, by decide, by decide, ⟨_, rfl, by decide, by decide, by decide⟩,
    ?_⟩
  intro fuel
  cases fuel with
  | zero => rfl
  | succ n => rfl

/-! ## Reverse iteration -/

/-- `dec` is its header test followed by one of its branches. -/
theorem dec_eq_test (h : Heap) (fuel : Nat) (node : Ptr) :
    dec h fuel node =
      (dec_header_test h node).bind fun b =>
        if b then getRight h node else dec_rest h fuel node := by
  cases node with
  | none => rfl
  | some a =>
    simp only [dec, dec_header_test, dec_rest, getParent, Option.bind_eq_bind, Option.some_bind]
    cases hp : (h a).parent with
    | none => rfl
    | some p =>
      simp only [getParent, Option.some_bind, Option.bind_assoc]
      split_ifs with hc
      · cases hr : rb_tree_is_red h (some a) with
        | none => rfl
        | some b => cases b <;> simp
      · simp

/-- More fuel does not change a result of the upward loop of `dec`. -/
theorem dec_up_mono {h : Heap} : ∀ {f : Nat} {node y : Ptr} {r : Ptr},
    dec_up h f node y = some r → ∀ {g : Nat}, f ≤ g → dec_up h g node y = some r := by
  intro f
  induction f with
  | zero => intro node y r hr; simp [dec_up] at hr
  | succ n ih =>
    intro node y r hr g hf
    obtain ⟨m, rfl⟩ : ∃ m, g = m + 1 := ⟨g - 1, by omega⟩
    simp only [dec_up, Option.bind_eq_bind] at hr ⊢
    cases hyl : getLeft h y with
    | none => simp [hyl] at hr
    | some yl =>
      simp only [hyl, Option.some_bind] at hr ⊢
      split_ifs at hr ⊢ with hc
      · cases hp : getParent h y with
        | none => simp [hp] at hr
        | some p =>
          simp only [hp, Option.some_bind] at hr ⊢
          exact ih hr (by omega)
      · exact hr

/-- First node of a shape: the end of its left spine. -/
theorem inorder_head_node (l r : Tree) (a : Nat) :
    (Tree.node l a r).inorder.head? = some (l.inorder.head?.getD a) := by
  simp only [Tree.inorder, List.head?_append]
  cases l.inorder.head? <;> rfl

/-- The first node of a represented shape has no left child. -/
theorem Rep.first_left_none {h : Heap} {t : Tree} {v : Nat} : ∀ {par : Ptr} {x : Nat},
    Rep h par (some x) t → t.inorder.head? = some v → (h v).left = none := by
  induction t with
  | nil => intro par x hr; simp [Rep] at hr
  | node l a r ihl _ =>
    intro par x hr hv
    obtain ⟨hp, -, hl, -⟩ := hr
    injection hp with hp
    subst hp
    rw [inorder_head_node] at hv
    cases l with
    | nil =>
      simp only [Tree.inorder, List.head?_nil, Option.getD_none, Option.some.injEq] at hv
      subst hv
      simpa [Rep] using hl
    | node ll b lr =>
      have hb : (h x).left = some b := hl.1
      rw [hb] at hl
      have hv' : (Tree.node ll b lr).inorder.head? = some v := by
        rw [inorder_head_node] at hv ⊢
        simpa using hv
      exact ihl hl hv'

/-- Climbing from the first node of a shape with the loop of `dec` goes on from the root of the
shape. -/
theorem Rep.dec_up_first {h : Heap} {t : Tree} {v : Nat} : ∀ {par : Ptr} {x : Nat},
    Rep h par (some x) t → t.inorder.head? = some v →
    ∀ f res, dec_up h f (some x) par = some res →
      dec_up h (f + t.inorder.length) (some v) (h v).parent = some res := by
  induction t with
  | nil => intro par x hr; simp [Rep] at hr
  | node l a r ihl _ =>
    intro par x hr hv f res hres
    obtain ⟨hp, hpar, hl, hrr⟩ := hr
    injection hp with hp
    subst hp
    rw [inorder_head_node] at hv
    cases l with
    | nil =>
      simp only [Tree.inorder, List.head?_nil, Option.getD_none, Option.some.injEq] at hv
      subst hv
      rw [hpar]
      exact dec_up_mono hres (by omega)
    | node ll b lr =>
      have hb : (h x).left = some b := hl.1
      have hv' : (Tree.node ll b lr).inorder.head? = some v := by
        rw [inorder_head_node] at hv ⊢
        simpa using hv
      rw [hb] at hl
      have step : dec_up h (f + 1) (some b) (some x) = some res := by
        simp [dec_up, getLeft, getParent, hb, hpar, hres]
      have := ihl hl hv' (f + 1) res step
      refine dec_up_mono this ?_
      simp only [Tree.inorder, List.length_append, List.length_cons]
      omega

/-- The branches of `dec` on a node preceded by `s` in the in-order sequence move to `s`. -/
theorem Rep.dec_spec {h : Heap} {t : Tree} {v s : Nat} : ∀ {par p : Ptr} {pre post : List Nat},
    Rep h par p t → t.inorder.Nodup → t.inorder = pre ++ s :: v :: post →
    ∀ fuel, t.inorder.length + 1 ≤ fuel → dec_rest h fuel (some v) = some (some s) := by
  induction t with
  | nil => intro par p pre post _ _ e; simp [Tree.inorder] at e
  | node l a r ihl ihr =>
    intro par p pre post hr hnd e fuel hf
    obtain ⟨hndl, hndr, hal, har, hlr, hrl, hla, hra⟩ := hr.child_facts hnd
    obtain ⟨hp, hpar, hl, hrr⟩ := hr
    simp only [Tree.inorder, List.length_append, List.length_cons] at hf
    simp only [Tree.inorder] at e
    rcases split_consecutive e with ⟨post', h1⟩ | ⟨h1, h2, h3⟩ | ⟨h1, h2, h3⟩ | ⟨pre', h1, h2⟩
    · exact ihl hl hndl h1 fuel (by omega)
    · -- v = a, s is the last node of the left subtree
      subst h2
      have hlast : l.inorder.getLast? = some s := by rw [h1]; simp
      cases l with
      | nil => simp [Tree.inorder] at h1
      | node ll b lr =>
        have hb : (h a).left = some b := hl.1
        rw [hb] at hl
        obtain ⟨m, hm1, hm2, -, -⟩ := hl.max_spec fuel (by omega)
        rw [hlast] at hm2
        injection hm2 with hm2
        subst hm2
        simp [dec_rest, getLeft, hb, hm1]
    · -- s = a, v is the first node of the right subtree
      subst h2
      have hfirst : r.inorder.head? = some v := by rw [h3]; simp
      cases r with
      | nil => simp [Tree.inorder] at h3
      | node rl b rr =>
        have hb : (h a).right = some b := hrr.1
        rw [hb] at hrr
        have hbm : b ∈ (Tree.node rl b rr).inorder := hrr.root_mem
        have hvl := hrr.first_left_none hfirst
        have hne : ¬ (some b = (h a).left) := fun e => hrl b hbm e.symm
        have base : dec_up h 1 (some b) (some a) = some (some a) := by
          simp [dec_up, getLeft, hne]
        have := hrr.dec_up_first hfirst 1 _ base
        have := dec_up_mono this (g := fuel) (by omega)
        simp [dec_rest, getLeft, getParent, hvl, this]
    · exact ihr hrr hndr h2 fuel (by omega)

/-- The header test of `dec` in a non-empty well-formed tree with Red header and Black root:
true at the header, false at every node of the tree. -/
theorem WellFormed.header_test {hd : Nat} {h : Heap} {t : Tree}
    (hwf : WellFormed hd h t) (hne : t.inorder ≠ []) (hred : (h hd).color = kRbTreeRed)
    (hblack : rootBlack h t = true) :
    dec_header_test h (some hd) = some true ∧
    ∀ v ∈ t.inorder, dec_header_test h (some v) = some false := by
  obtain ⟨hrep, hnd⟩ := hwf
  obtain ⟨hdt, hndt⟩ := List.nodup_cons.1 hnd
  cases t with
  | nil => simp [Tree.inorder] at hne
  | node l a r =>
    have hroot : (h hd).parent = some a := hrep.1
    have hpar : (h a).parent = some hd := hrep.2.1
    have hab : (h a).color = kRbTreeBlack := by simpa [rootBlack] using hblack
    constructor
    · simp [dec_header_test, getParent, rb_tree_is_red, getColor, hroot, hpar, hred]
    · intro v hv
      obtain ⟨lv, rv, h1, h2, h3, h4, h5, h6⟩ := hrep.local hndt hv
      rcases h6 with ⟨e1, e2⟩ | ⟨hnr, q, hqt, e1, e2, e3⟩
      · -- v is the root
        have hva : v = a := by
          have := hrep.1
          rw [e1] at this
          injection this
        subst hva
        simp [dec_header_test, getParent, rb_tree_is_red, getColor, hroot, hpar, hab]
      · -- v is a child of q
        have hqv : (h q).parent ≠ some v := by
          intro e
          obtain ⟨lq, rq, -, -, -, -, -, k6⟩ := hrep.local hndt hqt
          rcases k6 with ⟨k1, k2⟩ | ⟨-, q', hq't, k1, k2, k3⟩
          · rw [k2] at e
            injection e with e
            exact hdt (e ▸ hv)
          · rw [k1] at e
            injection e with e
            subst e
            -- q is a child of v, hence in a subtree of v
            simp only [List.mem_cons, List.mem_append, not_or] at e3
            rcases k2 with k2 | k2
            · exact e3.2.1 (by
                rw [k2] at h1
                exact h1.root_mem)
            · exact e3.2.2 (by
                rw [k2] at h2
                exact h2.root_mem)
        have hne' : ¬ ((h q).parent = some v) := hqv
        cases hqp : (h q).parent with
        | none =>
          -- the parent of a node of the tree is never null
          obtain ⟨lq, rq, -, -, -, -, -, k6⟩ := hrep.local hndt hqt
          rcases k6 with ⟨k1, k2⟩ | ⟨-, q', hq't, k1, k2, k3⟩
          · rw [k2] at hqp; exact absurd hqp (by simp)
          · rw [k1] at hqp; exact absurd hqp (by simp)
        | some g =>
          have hgv : ¬ (g = v) := fun e => hqv (by rw [hqp, e])
          simp [dec_header_test, getParent, e1, hqp, hgv]

/-- In a well-formed tree with Red header and Black root, `dec` on a node preceded by `s` in the
in-order sequence moves to `s`. -/
theorem WellFormed.dec_pred {hd : Nat} {h : Heap} {t : Tree} {v s : Nat} {pre post : List Nat}
    (hwf : WellFormed hd h t) (hred : (h hd).color = kRbTreeRed)
    (hblack : rootBlack h t = true) (e : t.inorder = pre ++ s :: v :: post)
    (fuel : Nat) (hf : t.inorder.length + 1 ≤ fuel) :
    dec h fuel (some v) = some (some s) := by
  have hne : t.inorder ≠ [] := by rw [e]; simp
  have hv : v ∈ t.inorder := by rw [e]; simp
  rw [dec_eq_test, (hwf.header_test hne hred hblack).2 v hv]
  simp only [Option.some_bind, Bool.false_eq_true, if_false]
  exact hwf.1.dec_spec (List.nodup_cons.1 hwf.2).2 e fuel hf

/-- In a non-empty well-formed tree with Red header, `dec` at the header moves to
`rightmost`. -/
theorem WellFormed.dec_header {hd : Nat} {h : Heap} {t : Tree}
    (hwf : WellFormed hd h t) (hne : t.inorder ≠ []) (hred : (h hd).color = kRbTreeRed)
    (hblack : rootBlack h t = true) (fuel : Nat) :
    dec h fuel (some hd) = some (rightmost hd h) := by
  rw [dec_eq_test, (hwf.header_test hne hred hblack).1]
  rfl

/-! ## Replacement of subtrees and the splice of an erasure -/

/-- Replacing at an address that is not in the shape changes nothing. -/
theorem Tree.replaceAt_of_not_mem (a : Nat) (s : Tree) :
    ∀ t : Tree, a ∉ t.inorder → t.replaceAt a s = t := by
  intro t
  induction t with
  | nil => intro _; rfl
  | node l b r ihl ihr =>
    intro ha
    simp only [Tree.inorder, List.mem_append, List.mem_cons, not_or] at ha
    have hba : ¬ b = a := fun e => ha.2.1 e.symm
    simp [Tree.replaceAt, hba, ihl ha.1, ihr ha.2.2]

/-- The subtree rooted at a node of the shape has this node as root. -/
theorem Tree.subtreeAt_eq (a : Nat) : ∀ t : Tree, a ∈ t.inorder →
    ∃ l r, t.subtreeAt a = .node l a r := by
  intro t
  induction t with
  | nil => intro ha; simp [Tree.inorder] at ha
  | node l b r ihl ihr =>
    intro ha
    by_cases hba : b = a
    · subst hba
      exact ⟨l, r, by simp [Tree.subtreeAt]⟩
    · by_cases hal : a ∈ l.inorder
      · simpa [Tree.subtreeAt, hba, hal] using ihl hal
      · have har : a ∈ r.inorder := by
          simp only [Tree.inorder, List.mem_append, List.mem_cons] at ha
          rcases ha with h1 | h1 | h1
          · exact absurd h1 hal
          · exact absurd h1.symm hba
          · exact h1
        simpa [Tree.subtreeAt, hba, hal] using ihr har

/-- The nodes of a subtree are nodes of the shape. -/
theorem Tree.subtreeAt_subset (a : Nat) : ∀ t : Tree, ∀ b ∈ (t.subtreeAt a).inorder,
    b ∈ t.inorder := by
  intro t
  induction t with
  | nil => intro b hb; simp [Tree.subtreeAt, Tree.inorder] at hb
  | node l c r ihl ihr =>
    intro b hb
    by_cases hca : c = a
    · simpa [Tree.subtreeAt, hca] using hb
    · by_cases hal : a ∈ l.inorder
      · simp only [Tree.subtreeAt, hca, hal, if_true, if_false] at hb
        simp [Tree.inorder, ihl b hb]
      · simp only [Tree.subtreeAt, hca, hal, if_false] at hb
        simp [Tree.inorder, ihr b hb]

/-- The nodes of a subtree of a shape without repetition are without repetition. -/
theorem Tree.subtreeAt_nodup (a : Nat) : ∀ t : Tree, t.inorder.Nodup →
    (t.subtreeAt a).inorder.Nodup := by
  intro t
  induction t with
  | nil => intro _; simp [Tree.subtreeAt, Tree.inorder]
  | node l c r ihl ihr =>
    intro hnd
    have hnd' := hnd
    simp only [Tree.inorder, List.nodup_append, List.nodup_cons] at hnd'
    by_cases hca : c = a
    · simpa [Tree.subtreeAt, hca] using hnd
    · by_cases hal : a ∈ l.inorder
      · simpa [Tree.subtreeAt, hca, hal] using ihl hnd'.1
      · simpa [Tree.subtreeAt, hca, hal] using ihr hnd'.2.1.2

/-- The subtree rooted at a node of a represented shape is represented at this node. -/
theorem Rep.subtreeAt_rep {h : Heap} {a : Nat} {t : Tree} : ∀ {par p : Ptr}, Rep h par p t →
    a ∈ t.inorder → Rep h (h a).parent (some a) (t.subtreeAt a) := by
  induction t with
  | nil => intro par p _ ha; simp [Tree.inorder] at ha
  | node l c r ihl ihr =>
    intro par p hr ha
    obtain ⟨hp, hpar, hl, hrr⟩ := hr
    by_cases hca : c = a
    · subst hca
      simp only [Tree.subtreeAt, if_true]
      exact ⟨rfl, rfl, hl, hrr⟩
    · by_cases hal : a ∈ l.inorder
      · simp only [Tree.subtreeAt, hca, hal, if_true, if_false]
        exact ihl hl hal
      · have har : a ∈ r.inorder := by
          simp only [Tree.inorder, List.mem_append, List.mem_cons] at ha
          rcases ha with h1 | h1 | h1
          · exact absurd h1 hal
          · exact absurd h1.symm hca
          · exact h1
        simp only [Tree.subtreeAt, hca, hal, if_false]
        exact ihr hrr har

/-- The nodes left when the subtree rooted at `a` is cut off are the nodes of the shape outside
this subtree. -/
theorem Tree.mem_replaceAt_nil (a : Nat) : ∀ t : Tree, t.inorder.Nodup → a ∈ t.inorder →
    ∀ b ∈ (t.replaceAt a .nil).inorder, b ∈ t.inorder ∧ b ∉ (t.subtreeAt a).inorder := by
  intro t
  induction t with
  | nil => intro _ ha; simp [Tree.inorder] at ha
  | node l c r ihl ihr =>
    intro hnd ha b hb
    have hnd' := hnd
    simp only [Tree.inorder, List.nodup_append, List.nodup_cons] at hnd'
    obtain ⟨hndl, ⟨hcr, hndr⟩, hdisj⟩ := hnd'
    have hcl : c ∉ l.inorder := fun hm => hdisj hm (by simp)
    by_cases hca : c = a
    · simp [Tree.replaceAt, hca, Tree.inorder] at hb
    · simp only [Tree.replaceAt, hca, if_false, Tree.inorder, List.mem_append,
        List.mem_cons] at hb
      by_cases hal : a ∈ l.inorder
      · have har : a ∉ r.inorder := fun hm => hdisj hal (by simp [hm])
        rw [Tree.replaceAt_of_not_mem a .nil r har] at hb
        simp only [Tree.subtreeAt, hca, hal, if_true, if_false]
        rcases hb with hb | hb | hb
        · obtain ⟨h1, h2⟩ := ihl hndl hal b hb
          exact ⟨by simp [Tree.inorder, h1], h2⟩
        · subst hb
          exact ⟨by simp [Tree.inorder],
            fun hm => hcl (Tree.subtreeAt_subset a l b hm)⟩
        · exact ⟨by simp [Tree.inorder, hb],
            fun hm => hdisj (Tree.subtreeAt_subset a l b hm) (by simp [hb])⟩
      · have har : a ∈ r.inorder := by
          simp only [Tree.inorder, List.mem_append, List.mem_cons] at ha
          rcases ha with h1 | h1 | h1
          · exact absurd h1 hal
          · exact absurd h1.symm hca
          · exact h1
        rw [Tree.replaceAt_of_not_mem a .nil l hal] at hb
        simp only [Tree.subtreeAt, hca, hal, if_false]
        rcases hb with hb | hb | hb
        · exact ⟨by simp [Tree.inorder, hb],
            fun hm => hdisj hb (by simp [Tree.subtreeAt_subset a r b hm])⟩
        · subst hb
          exact ⟨by simp [Tree.inorder],
            fun hm => hcr (Tree.subtreeAt_subset a r b hm)⟩
        · obtain ⟨h1, h2⟩ := ihr hndr har b hb
          exact ⟨by simp [Tree.inorder, h1], h2⟩

/-- Replacing a subtree by a shape made of nodes of this subtree keeps the nodes within the
shape and without repetition. -/
theorem Tree.replaceAt_nodup (a : Nat) (s : Tree) : ∀ t : Tree, t.inorder.Nodup →
    s.inorder.Nodup → (∀ b ∈ s.inorder, b ∈ (t.subtreeAt a).inorder) →
    (t.replaceAt a s).inorder.Nodup ∧ ∀ b ∈ (t.replaceAt a s).inorder, b ∈ t.inorder := by
  intro t
  induction t with
  | nil => intro _ _ _; simp [Tree.replaceAt, Tree.inorder]
  | node l c r ihl ihr =>
    intro hnd hs hsub
    have hnd' := hnd
    simp only [Tree.inorder, List.nodup_append, List.nodup_cons] at hnd'
    obtain ⟨hndl, ⟨hcr, hndr⟩, hdisj⟩ := hnd'
    have hcl : c ∉ l.inorder := fun hm => hdisj hm (by simp)
    by_cases hca : c = a
    · simp only [Tree.replaceAt, hca, if_true]
      simp only [Tree.subtreeAt, hca, if_true] at hsub
      exact ⟨hs, fun b hb => by simpa [hca] using hsub b hb⟩
    · by_cases hal : a ∈ l.inorder
      · simp only [Tree.subtreeAt, hca, hal, if_true, if_false] at hsub
        obtain ⟨k1, k2⟩ := ihl hndl hs hsub
        by_cases har : a ∈ r.inorder
        · exact absurd (hdisj hal (by simp [har])) id
        · rw [show (Tree.node l c r).replaceAt a s = .node (l.replaceAt a s) c r by
            simp [Tree.replaceAt, hca, Tree.replaceAt_of_not_mem a s r har]]
          refine ⟨?_, ?_⟩
          · simp only [Tree.inorder, List.nodup_append, List.nodup_cons]
            refine ⟨k1, ⟨hcr, hndr⟩, ?_⟩
            intro b hb hb'
            exact hdisj (k2 b hb) hb'
          · intro b hb
            simp only [Tree.inorder, List.mem_append, List.mem_cons] at hb ⊢
            rcases hb with hb | hb | hb
            · exact Or.inl (k2 b hb)
            · exact Or.inr (Or.inl hb)
            · exact Or.inr (Or.inr hb)
      · simp only [Tree.subtreeAt, hca, hal, if_false] at hsub
        obtain ⟨k1, k2⟩ := ihr hndr hs hsub
        rw [show (Tree.node l c r).replaceAt a s = .node l c (r.replaceAt a s) by
          simp [Tree.replaceAt, hca, Tree.replaceAt_of_not_mem a s l hal]]
        refine ⟨?_, ?_⟩
        · simp only [Tree.inorder, List.nodup_append, List.nodup_cons]
          refine ⟨hndl, ⟨fun hm => hcr (k2 c hm), k1⟩, ?_⟩
          intro b hb hb'
          rcases List.mem_cons.1 hb' with e | hb'
          · exact hdisj hb (by simp [e])
          · exact hdisj hb (by simp [k2 b hb'])
        · intro b hb
          simp only [Tree.inorder, List.mem_append, List.mem_cons] at hb ⊢
          rcases hb with hb | hb | hb
          · exact Or.inl hb
          · exact Or.inr (Or.inl hb)
          · exact Or.inr (Or.inr (k2 b hb))

/-- Replacement of a represented subtree: a heap that represents the new subtree under the
parent of `a`, and whose other nodes keep their links except that links to `a` now hold the root
of the new subtree, represents the shape with the subtree replaced. -/
theorem Rep.replaceAt_rep {h h' : Heap} {a : Nat} {q : Ptr} {s : Tree}
    (hsub : Rep h' (h a).parent q s) : ∀ (t : Tree) {par p : Ptr}, Rep h par p t →
    (∀ b ∈ (t.replaceAt a .nil).inorder, (h' b).parent = (h b).parent ∧
      (h' b).left = (if (h b).left = some a then q else (h b).left) ∧
      (h' b).right = (if (h b).right = some a then q else (h b).right)) →
    Rep h' par (if p = some a then q else p) (t.replaceAt a s) := by
  intro t
  induction t with
  | nil =>
    intro par p hr _
    have hp : p = none := hr
    subst hp
    simp [Tree.replaceAt, Rep]
  | node l c r ihl ihr =>
    intro par p hr hctx
    obtain ⟨hp, hpar, hl, hrr⟩ := hr
    subst hp
    by_cases hca : c = a
    · subst hca
      simp only [Tree.replaceAt, if_true]
      rw [hpar] at hsub
      exact hsub
    · have hne : ¬ (some c = some a) := fun e => hca (Option.some.inj e)
      simp only [Tree.replaceAt, hca, hne, if_false]
      simp only [Tree.replaceAt, hca, if_false, Tree.inorder, List.mem_append,
        List.mem_cons] at hctx
      obtain ⟨e1, e2, e3⟩ := hctx c (Or.inr (Or.inl rfl))
      refine ⟨rfl, by rw [e1, hpar], ?_, ?_⟩
      · rw [e2]
        exact ihl hl (fun b hb => hctx b (Or.inl hb))
      · rw [e3]
        exact ihr hrr (fun b hb => hctx b (Or.inr (Or.inr hb)))

/-- The black height depends only on the colours of the nodes of the shape. -/
theorem blackHeight_congr {h h' : Heap} : ∀ t : Tree,
    (∀ b ∈ t.inorder, (h' b).color = (h b).color) → blackHeight h' t = blackHeight h t := by
  intro t
  induction t with
  | nil => intro _; rfl
  | node l c r ihl ihr =>
    intro hc
    simp only [blackHeight]
    rw [ihl (fun b hb => hc b (by simp [Tree.inorder, hb])),
      ihr (fun b hb => hc b (by simp [Tree.inorder, hb])), hc c (by simp [Tree.inorder])]

/-- Replacing a subtree by a shape of the same black height, the colours of the other nodes
unchanged, keeps the black height of the shape. -/
theorem blackHeight_replaceAt {h h' : Heap} {a : Nat} {s : Tree} : ∀ t : Tree,
    t.inorder.Nodup → a ∈ t.inorder →
    (∀ b ∈ (t.replaceAt a .nil).inorder, (h' b).color = (h b).color) →
    blackHeight h' s = blackHeight h (t.subtreeAt a) →
    blackHeight h' (t.replaceAt a s) = blackHeight h t := by
  intro t
  induction t with
  | nil => intro _ ha; simp [Tree.inorder] at ha
  | node l c r ihl ihr =>
    intro hnd ha hc hs
    have hnd' := hnd
    simp only [Tree.inorder, List.nodup_append, List.nodup_cons] at hnd'
    obtain ⟨hndl, ⟨hcr, hndr⟩, hdisj⟩ := hnd'
    by_cases hca : c = a
    · simp only [Tree.subtreeAt, hca, if_true] at hs
      simp only [Tree.replaceAt, hca, if_true]
      rw [hs]
    · simp only [Tree.replaceAt, hca, if_false, Tree.inorder, List.mem_append,
        List.mem_cons] at hc
      by_cases hal : a ∈ l.inorder
      · have har : a ∉ r.inorder := fun hm => hdisj hal (by simp [hm])
        simp only [Tree.subtreeAt, hca, hal, if_true, if_false] at hs
        simp only [Tree.replaceAt, hca, if_false, blackHeight]
        rw [ihl hndl hal (fun b hb => hc b (Or.inl hb)) hs,
          Tree.replaceAt_of_not_mem a s r har,
          blackHeight_congr r (fun b hb => hc b (Or.inr (Or.inr (by
            rw [Tree.replaceAt_of_not_mem a .nil r har]; exact hb)))),
          (hc c (Or.inr (Or.inl rfl)))]
      · have har : a ∈ r.inorder := by
          simp only [Tree.inorder, List.mem_append, List.mem_cons] at ha
          rcases ha with h1 | h1 | h1
          · exact absurd h1 hal
          · exact absurd h1.symm hca
          · exact h1
        simp only [Tree.subtreeAt, hca, hal, if_false] at hs
        simp only [Tree.replaceAt, hca, if_false, blackHeight]
        rw [ihr hndr har (fun b hb => hc b (Or.inr (Or.inr hb))) hs,
          Tree.replaceAt_of_not_mem a s l hal,
          blackHeight_congr l (fun b hb => hc b (Or.inl (by
            rw [Tree.replaceAt_of_not_mem a .nil l hal]; exact hb))),
          (hc c (Or.inr (Or.inl rfl)))]

/-- A bind after a conditional is the conditional of the binds. -/
theorem ite_bind_option {α β : Type} (c : Prop) [Decidable c] (a b : Option α)
    (f : α → Option β) :
    (if c then a else b).bind f = if c then a.bind f else b.bind f := by
  split_ifs <;> rfl

/-- `rb_tree_erase_rebalance` is the splice followed by the fix-up. -/
theorem rb_tree_erase_rebalance_eq (hd fuel : Nat) (z : Ptr) (h : Heap) :
    rb_tree_erase_rebalance hd fuel z h =
      (erase_splice hd fuel z h).bind fun r => erase_fixup hd fuel z r.1 r.2.1 r.2.2 := by
  simp only [rb_tree_erase_rebalance, erase_splice, erase_spliced, erase_fixup,
    Option.bind_eq_bind, Option.bind_assoc, Option.pure_def, Option.some_bind,
    ite_bind_option]

/-- When `z` is Red the fix-up does nothing. -/
theorem erase_fixup_red (hd fuel : Nat) (z : Nat) (x xp : Ptr) (h : Heap)
    (hred : (h z).color = kRbTreeRed) :
    erase_fixup hd fuel (some z) x xp h = some (h, some z) := by
  simp [erase_fixup, rb_tree_is_red, getColor, hred]

/-- The assignment `a->parent = v` on a node. -/
theorem setParent_some (h : Heap) (a : Nat) (v : Ptr) :
    setParent h (some a) v = some (updParent h a v) := rfl

/-- The assignment `a->left = v` on a node. -/
theorem setLeft_some (h : Heap) (a : Nat) (v : Ptr) :
    setLeft h (some a) v = some (updLeft h a v) := rfl

/-- The assignment `a->right = v` on a node. -/
theorem setRight_some (h : Heap) (a : Nat) (v : Ptr) :
    setRight h (some a) v = some (updRight h a v) := rfl

/-- The assignment through `root` writes the `parent` link of the header. -/
theorem setRoot_eq (hd : Nat) (h : Heap) (v : Ptr) : setRoot hd h v = updParent h hd v := rfl

/-- The assignment through `leftmost` writes the `left` link of the header. -/
theorem setLeftmost_eq (hd : Nat) (h : Heap) (v : Ptr) :
    setLeftmost hd h v = updLeft h hd v := rfl

/-- The assignment through `rightmost` writes the `right` link of the header. -/
theorem setRightmost_eq (hd : Nat) (h : Heap) (v : Ptr) :
    setRightmost hd h v = updRight h hd v := rfl

/-- Fields of a node after an assignment to a `parent` link. -/
theorem updParent_fields (h : Heap) (a b : Nat) (v : Ptr) :
    (updParent h a v b).parent = (if b = a then v else (h b).parent) ∧
    (updParent h a v b).left = (h b).left ∧ (updParent h a v b).right = (h b).right ∧
    (updParent h a v b).color = (h b).color := by
  simp only [updParent, Heap.set]
  split_ifs with hab
  · subst hab; exact ⟨rfl, rfl, rfl, rfl⟩
  · exact ⟨rfl, rfl, rfl, rfl⟩

/-- Fields of a node after an assignment to a `left` link. -/
theorem updLeft_fields (h : Heap) (a b : Nat) (v : Ptr) :
    (updLeft h a v b).left = (if b = a then v else (h b).left) ∧
    (updLeft h a v b).parent = (h b).parent ∧ (updLeft h a v b).right = (h b).right ∧
    (updLeft h a v b).color = (h b).color := by
  simp only [updLeft, Heap.set]
  split_ifs with hab
  · subst hab; exact ⟨rfl, rfl, rfl, rfl⟩
  · exact ⟨rfl, rfl, rfl, rfl⟩

/-- Fields of a node after an assignment to a `right` link. -/
theorem updRight_fields (h : Heap) (a b : Nat) (v : Ptr) :
    (updRight h a v b).right = (if b = a then v else (h b).right) ∧
    (updRight h a v b).parent = (h b).parent ∧ (updRight h a v b).left = (h b).left ∧
    (updRight h a v b).color = (h b).color := by
  simp only [updRight, Heap.set]
  split_ifs with hab
  · subst hab; exact ⟨rfl, rfl, rfl, rfl⟩
  · exact ⟨rfl, rfl, rfl, rfl⟩

/-- The `parent` links after an assignment to a `parent` link. -/
theorem updParent_parent (h : Heap) (a b : Nat) (v : Ptr) :
    (updParent h a v b).parent = if b = a then v else (h b).parent := (updParent_fields h a b v).1

/-- An assignment to a `parent` link keeps the `left` links. -/
theorem updParent_left (h : Heap) (a b : Nat) (v : Ptr) :
    (updParent h a v b).left = (h b).left := (updParent_fields h a b v).2.1

/-- An assignment to a `parent` link keeps the `right` links. -/
theorem updParent_right (h : Heap) (a b : Nat) (v : Ptr) :
    (updParent h a v b).right = (h b).right := (updParent_fields h a b v).2.2.1

/-- An assignment to a `parent` link keeps the colours. -/
theorem updParent_color (h : Heap) (a b : Nat) (v : Ptr) :
    (updParent h a v b).color = (h b).color := (updParent_fields h a b v).2.2.2

/-- The `left` links after an assignment to a `left` link. -/
theorem updLeft_left (h : Heap) (a b : Nat) (v : Ptr) :
    (updLeft h a v b).left = if b = a then v else (h b).left := (updLeft_fields h a b v).1

/-- An assignment to a `left` link keeps the `parent` links. -/
theorem updLeft_parent (h : Heap) (a b : Nat) (v : Ptr) :
    (updLeft h a v b).parent = (h b).parent := (updLeft_fields h a b v).2.1

/-- An assignment to a `left` link keeps the `right` links. -/
theorem updLeft_right (h : Heap) (a b : Nat) (v : Ptr) :
    (updLeft h a v b).right = (h b).right := (updLeft_fields h a b v).2.2.1

/-- An assignment to a `left` link keeps the colours. -/
theorem updLeft_color (h : Heap) (a b : Nat) (v : Ptr) :
    (updLeft h a v b).color = (h b).color := (updLeft_fields h a b v).2.2.2

/-- The `right` links after an assignment to a `right` link. -/
theorem updRight_right (h : Heap) (a b : Nat) (v : Ptr) :
    (updRight h a v b).right = if b = a then v else (h b).right := (updRight_fields h a b v).1

/-- An assignment to a `right` link keeps the `parent` links. -/
theorem updRight_parent (h : Heap) (a b : Nat) (v : Ptr) :
    (updRight h a v b).parent = (h b).parent := (updRight_fields h a b v).2.1

/-- An assignment to a `right` link keeps the `left` links. -/
theorem updRight_left (h : Heap) (a b : Nat) (v : Ptr) :
    (updRight h a v b).left = (h b).left := (updRight_fields h a b v).2.2.1

/-- An assignment to a `right` link keeps the colours. -/
theorem updRight_color (h : Heap) (a b : Nat) (v : Ptr) :
    (updRight h a v b).color = (h b).color := (updRight_fields h a b v).2.2.2

/-- The splice of a leaf `z` that is not the root: the call returns with `x` null and `xp` the
parent `q` of `z`; no colour and no parent link changes, and the only child link written in
the tree is the left link of `q`, set to null when it held `z`. -/
theorem erase_splice_leaf (hd fuel z q : Nat) (h : Heap)
    (hzl : (h z).left = none) (hzr : (h z).right = none) (hzp : (h z).parent = some q)
    (hroot : root hd h ≠ some z) (hqd : q ≠ hd) :
    ∃ h', erase_splice hd fuel (some z) h = some (none, some q, h') ∧
      (∀ b, (h' b).color = (h b).color) ∧ (∀ b, (h' b).parent = (h b).parent) ∧
      (∀ b, b ≠ hd → (h' b).right = (h b).right) ∧
      (∀ b, b ≠ hd → (h' b).left =
        if b = q ∧ (h q).left = some z then none else (h b).left) := by
  have hroot' : ¬ ((h hd).parent = some z) := hroot
  simp only [erase_splice, erase_spliced, erase_splice_one, getLeft, getRight, getParent,
    rb_tree_is_lchild, setLeft_some, setRigth, setLeftmost_eq, setRightmost_eq,
    Option.bind_eq_bind, Option.bind_assoc, Option.pure_def, Option.some_bind,
    ite_bind_option, hzl, hzr, hzp, root, leftmost, rightmost, hroot', ne_eq, not_true,
    if_true, if_false, updLeft_left, hqd.symm, decide_eq_true_eq]
  have hc : (some z = (h q).left) ↔ ((h q).left = some z) := eq_comm
  simp only [hc]
  split_ifs with c1 c2 c3 c3 c2 c3 c3
  all_goals refine ⟨_, rfl, fun b => ?_, fun b => ?_, fun b hb => ?_, fun b hb => ?_⟩
  all_goals try simp only [updLeft_left, updLeft_parent, updLeft_right, updLeft_color,
    updRight_left, updRight_parent, updRight_right, updRight_color]
  all_goals try simp only [hb, if_false]
  all_goals by_cases hbq : b = q
  all_goals simp [hbq, c1]

/-- The statement `mystl::swap(y->color, z->color)` on two nodes. -/
theorem swapColor_some (h : Heap) (y z : Nat) :
    swapColor h (some y) (some z) =
      some (recolor (recolor h y (h z).color) z (h y).color) := rfl

/-- The relinking of the parent of `z` when `z` is the root. -/
theorem erase_relink_parent_root (hd z : Nat) (v : Ptr) (h : Heap)
    (hroot : (h hd).parent = some z) :
    erase_relink_parent hd (some z) v h = some (updParent h hd v) := by
  simp [erase_relink_parent, root, hroot, setRoot_eq]

/-- The relinking of the parent `q` of `z` when `z` is not the root. -/
theorem erase_relink_parent_child (hd z q : Nat) (v : Ptr) (h : Heap)
    (hroot : (h hd).parent ≠ some z) (hzp : (h z).parent = some q) :
    erase_relink_parent hd (some z) v h =
      some (if (h q).left = some z then updLeft h q v else updRight h q v) := by
  have hc : (some z = (h q).left) ↔ ((h q).left = some z) := eq_comm
  simp only [erase_relink_parent, root, hroot, if_false, rb_tree_is_lchild, getParent, getLeft,
    hzp, Option.bind_eq_bind, Option.some_bind, Option.pure_def, decide_eq_true_eq, hc,
    setLeft_some, setRight_some]
  split_ifs <;> rfl

/-- The branch `y != z->right` of the splice when `x` is null. -/
theorem erase_detach_successor_deep (z y zr yp : Nat) (h : Heap)
    (hzr : (h z).right = some zr) (hyzr : y ≠ zr) (hyp : (h y).parent = some yp)
    (hzy : z ≠ y) :
    erase_detach_successor (some z) (some y) none h =
      some (some yp, updParent (updRight (updLeft h yp none) y (some zr)) zr (some y)) := by
  have e2 : ¬ (some y = some zr) := fun e => hyzr (Option.some.inj e)
  simp only [erase_detach_successor, getRight, getParent, hzr, hyp, Option.bind_eq_bind,
    Option.some_bind, Option.pure_def, ne_eq, e2, not_false_eq_true, if_true, not_true,
    if_false, setLeft_some, setRight_some, setParent_some, updLeft_right, updRight_right, hzy]

/-- The branch `y == z->right` of the splice. -/
theorem erase_detach_successor_near (z y : Nat) (x : Ptr) (h : Heap)
    (hzr : (h z).right = some y) :
    erase_detach_successor (some z) (some y) x h = some (some y, h) := by
  simp [erase_detach_successor, getRight, hzr]

/-- The heap left by the splice of a node `z` with two children whose successor `y` is a leaf
below the right child `zr` of `z`, before the relinking of the parent of `z`. -/
theorem erase_splice_two_deep (hd fuel z y zl zr yp q : Nat) (h : Heap)
    (hzl : (h z).left = some zl) (hzr : (h z).right = some zr)
    (hnext : rb_tree_next h fuel (some z) = some (some y))
    (hyl : (h y).left = none) (hyr : (h y).right = none) (hyp : (h y).parent = some yp)
    (hzp : (h z).parent = some q)
    (hyz : y ≠ z) (hyzr : y ≠ zr) (hyzl : y ≠ zl) (hzzl : z ≠ zl) (hzzr : z ≠ zr)
    (hdzl : hd ≠ zl) (hdzr : hd ≠ zr) (hqy : q ≠ y) (hqyp : q ≠ yp) (hdy : hd ≠ y)
    (hzd : z ≠ hd) :
    ∃ h', erase_splice hd fuel (some z) h = some (none, some yp, h') ∧
      (∀ b, (h' b).color =
        if b = z then (h y).color else if b = y then (h z).color else (h b).color) ∧
      (∀ b, b ≠ hd → (h' b).parent =
        if b = y then some q else if b = zr then some y else if b = zl then some y
        else (h b).parent) ∧
      ((h' hd).parent = if (h hd).parent = some z then some y else (h hd).parent) ∧
      (∀ b, b ≠ hd → (h' b).left =
        if (h hd).parent ≠ some z ∧ b = q ∧ (h q).left = some z then some y
        else if b = yp then none else if b = y then some zl else (h b).left) ∧
      (∀ b, b ≠ hd → (h' b).right =
        if (h hd).parent ≠ some z ∧ b = q ∧ (h q).left ≠ some z then some y
        else if b = y then some zr else (h b).right) := by
  have e1 : ¬ (some y = some z) := fun e => hyz (Option.some.inj e)
  have hsp : erase_splice hd fuel (some z) h =
      (erase_splice_two hd (some z) (some y) none h).bind fun r => some (none, r.1, r.2) := by
    simp only [erase_splice, erase_spliced, getLeft, getRight, hzl, hzr, hnext, hyl, hyr,
      Option.bind_eq_bind, Option.some_bind, Option.pure_def, ne_eq, not_true, if_false,
      reduceCtorEq, e1, not_false_eq_true, if_true]
  have hdet := erase_detach_successor_deep z y zr yp
    (updLeft (updParent h zl (some y)) y (some zl))
    (by simp only [updLeft_right, updParent_right, hzr])
    hyzr (by simp only [updLeft_parent, updParent_parent, hyzl, if_false, hyp]) hyz.symm
  by_cases hroot : (h hd).parent = some z
  · have hrel := erase_relink_parent_root hd z (some y)
      (updParent (updRight (updLeft (updLeft (updParent h zl (some y)) y (some zl)) yp none)
        y (some zr)) zr (some y))
      (by simp only [updLeft_parent, updParent_parent, updRight_parent, hdzl, hdzr, if_false,
        hroot])
    apply Exists.intro
    refine And.intro ?run ?spec
    case run =>
      rw [hsp]
      simp only [erase_splice_two, getLeft, getParent, hzl, Option.bind_eq_bind,
        Option.some_bind, Option.pure_def, setParent_some, setLeft_some, updParent_left, hdet,
        hrel, swapColor_some]
      rfl
    case spec =>
      simp only [updLeft_left, updLeft_parent, updLeft_right, updLeft_color,
        updRight_left, updRight_parent, updRight_right, updRight_color,
        updParent_left, updParent_parent, updParent_right, updParent_color,
        recolor_left, recolor_parent, recolor_right, recolor_color]
      refine ⟨fun _ => trivial, fun b hb => ?_, ?_, fun b hb => ?_, fun b hb => ?_⟩
      · simp [hroot, hb, hzp, hzd, hzzr, hzzl, hdy]
      · simp [hroot, hzp, hzd, hzzr, hzzl, hdy]
      · simp [hroot, hb, hzp, hzd, hzzr, hzzl, hdy]
      · simp [hroot, hb, hzp, hzd, hzzr, hzzl, hdy]
  · have hrel := erase_relink_parent_child hd z q (some y)
      (updParent (updRight (updLeft (updLeft (updParent h zl (some y)) y (some zl)) yp none)
        y (some zr)) zr (some y))
      (by simp only [updLeft_parent, updParent_parent, updRight_parent, hdzl, hdzr, if_false]
          exact hroot)
      (by simp only [updLeft_parent, updParent_parent, updRight_parent, hzzl, hzzr, if_false,
        hzp])
    simp only [updLeft_left, updParent_left, updRight_left, hqy, hqyp, if_false] at hrel
    apply Exists.intro
    refine And.intro ?run ?spec
    case run =>
      rw [hsp]
      simp only [erase_splice_two, getLeft, getParent, hzl, Option.bind_eq_bind,
        Option.some_bind, Option.pure_def, setParent_some, setLeft_some, updParent_left, hdet,
        hrel, swapColor_some]
      rfl
    case spec =>
      by_cases hql : (h q).left = some z
      · simp only [hql, if_true, updLeft_left, updLeft_parent, updLeft_right, updLeft_color,
          updRight_left, updRight_parent, updRight_right, updRight_color,
          updParent_left, updParent_parent, updParent_right, updParent_color,
          recolor_left, recolor_parent, recolor_right, recolor_color]
        refine ⟨fun _ => trivial, fun b hb => ?_, ?_, fun b hb => ?_, fun b hb => ?_⟩
        · simp [hroot, hb, hzp, hzd, hzzr, hzzl, hdy, hdzr, hdzl]
        · simp [hroot, hzp, hzd, hzzr, hzzl, hdy, hdzr, hdzl]
        · by_cases hbq : b = q <;> simp [hroot, hb, hbq, hql, hqy, hqyp]
        · by_cases hbq : b = q <;> simp [hroot, hb, hbq, hql, hqy, hqyp]
      · simp only [hql, if_false, updLeft_left, updLeft_parent, updLeft_right, updLeft_color,
          updRight_left, updRight_parent, updRight_right, updRight_color,
          updParent_left, updParent_parent, updParent_right, updParent_color,
          recolor_left, recolor_parent, recolor_right, recolor_color]
        refine ⟨fun _ => trivial, fun b hb => ?_, ?_, fun b hb => ?_, fun b hb => ?_⟩
        · simp [hroot, hb, hzp, hzd, hzzr, hzzl, hdy, hdzr, hdzl]
        · simp [hroot, hzp, hzd, hzzr, hzzl, hdy, hdzr, hdzl]
        · by_cases hbq : b = q <;> simp [hroot, hb, hbq, hql, hqy, hqyp]
        · by_cases hbq : b = q <;> simp [hroot, hb, hbq, hql, hqy, hqyp]

/-- The splice of a node `z` with two children whose successor `y` is its right child, a leaf:
the call returns with `x` null and `xp` = `y`, and writes the links and colours listed. -/
theorem erase_splice_two_near (hd fuel z y zl q : Nat) (h : Heap)
    (hzl : (h z).left = some zl) (hzr : (h z).right = some y)
    (hnext : rb_tree_next h fuel (some z) = some (some y))
    (hyl : (h y).left = none) (hyr : (h y).right = none) (hzp : (h z).parent = some q)
    (hyz : y ≠ z) (hzzl : z ≠ zl) (hdzl : hd ≠ zl) (hqy : q ≠ y)
    (hdy : hd ≠ y) (hzd : z ≠ hd) :
    ∃ h', erase_splice hd fuel (some z) h = some (none, some y, h') ∧
      (∀ b, (h' b).color =
        if b = z then (h y).color else if b = y then (h z).color else (h b).color) ∧
      (∀ b, b ≠ hd → (h' b).parent =
        if b = y then some q else if b = zl then some y else (h b).parent) ∧
      ((h' hd).parent = if (h hd).parent = some z then some y else (h hd).parent) ∧
      (∀ b, b ≠ hd → (h' b).left =
        if (h hd).parent ≠ some z ∧ b = q ∧ (h q).left = some z then some y
        else if b = y then some zl else (h b).left) ∧
      (∀ b, b ≠ hd → (h' b).right =
        if (h hd).parent ≠ some z ∧ b = q ∧ (h q).left ≠ some z then some y
        else (h b).right) := by
  have e1 : ¬ (some y = some z) := fun e => hyz (Option.some.inj e)
  have hsp : erase_splice hd fuel (some z) h =
      (erase_splice_two hd (some z) (some y) none h).bind fun r => some (none, r.1, r.2) := by
    simp only [erase_splice, erase_spliced, getLeft, getRight, hzl, hzr, hnext, hyl, hyr,
      Option.bind_eq_bind, Option.some_bind, Option.pure_def, ne_eq, not_true, if_false,
      reduceCtorEq, e1, not_false_eq_true, if_true]
  have hdet := erase_detach_successor_near z y none
    (updLeft (updParent h zl (some y)) y (some zl))
    (by simp only [updLeft_right, updParent_right, hzr])
  by_cases hroot : (h hd).parent = some z
  · have hrel := erase_relink_parent_root hd z (some y)
      (updLeft (updParent h zl (some y)) y (some zl))
      (by simp only [updLeft_parent, updParent_parent, hdzl, if_false, hroot])
    apply Exists.intro
    refine And.intro ?run ?spec
    case run =>
      rw [hsp]
      simp only [erase_splice_two, getLeft, getParent, hzl, Option.bind_eq_bind,
        Option.some_bind, Option.pure_def, setParent_some, setLeft_some, updParent_left, hdet,
        hrel, swapColor_some]
      rfl
    case spec =>
      simp only [updLeft_left, updLeft_parent, updLeft_right, updLeft_color,
        updParent_left, updParent_parent, updParent_right, updParent_color,
        recolor_left, recolor_parent, recolor_right, recolor_color]
      refine ⟨fun _ => trivial, fun b hb => ?_, ?_, fun b hb => ?_, fun b hb => ?_⟩
      · simp [hroot, hb, hzp, hzd, hzzl, hdy]
      · simp [hroot, hzp, hzd, hzzl, hdy]
      · simp [hroot, hb, hzp, hzd, hzzl, hdy]
      · simp [hroot, hb, hzp, hzd, hzzl, hdy]
  · have hrel := erase_relink_parent_child hd z q (some y)
      (updLeft (updParent h zl (some y)) y (some zl))
      (by simp only [updLeft_parent, updParent_parent, hdzl, if_false]
          exact hroot)
      (by simp only [updLeft_parent, updParent_parent, hzzl, if_false, hzp])
    simp only [updLeft_left, updParent_left, hqy, if_false] at hrel
    apply Exists.intro
    refine And.intro ?run ?spec
    case run =>
      rw [hsp]
      simp only [erase_splice_two, getLeft, getParent, hzl, Option.bind_eq_bind,
        Option.some_bind, Option.pure_def, setParent_some, setLeft_some, updParent_left, hdet,
        hrel, swapColor_some]
      rfl
    case spec =>
      by_cases hql : (h q).left = some z
      · simp only [hql, if_true, updLeft_left, updLeft_parent, updLeft_right, updLeft_color,
          updRight_left, updRight_parent, updRight_right, updRight_color,
          updParent_left, updParent_parent, updParent_right, updParent_color,
          recolor_left, recolor_parent, recolor_right, recolor_color]
        refine ⟨fun _ => trivial, fun b hb => ?_, ?_, fun b hb => ?_, fun b hb => ?_⟩
        · simp [hroot, hb, hzp, hzd, hzzl, hdy, hdzl]
        · simp [hroot, hzp, hzd, hzzl, hdy, hdzl]
        · by_cases hbq : b = q <;> simp [hroot, hb, hbq, hql, hqy]
        · by_cases hbq : b = q <;> simp [hroot, hb, hbq, hql, hqy]
      · simp only [hql, if_false, updLeft_left, updLeft_parent, updLeft_right, updLeft_color,
          updRight_left, updRight_parent, updRight_right, updRight_color,
          updParent_left, updParent_parent, updParent_right, updParent_color,
          recolor_left, recolor_parent, recolor_right, recolor_color]
        refine ⟨fun _ => trivial, fun b hb => ?_, ?_, fun b hb => ?_, fun b hb => ?_⟩
        · simp [hroot, hb, hzp, hzd, hzzl, hdy, hdzl]
        · simp [hroot, hzp, hzd, hzzl, hdy, hdzl]
        · by_cases hbq : b = q <;> simp [hroot, hb, hbq, hql, hqy]
        · by_cases hbq : b = q <;> simp [hroot, hb, hbq, hql, hqy]

/-- The splice of a node `z` with two children `zl` and `zr` whose successor `y` is a leaf:
the call returns with `x` null and writes the links and colours listed. -/
theorem erase_splice_two_spec (hd fuel z y zl zr yp q : Nat) (h : Heap)
    (hzl : (h z).left = some zl) (hzr : (h z).right = some zr)
    (hnext : rb_tree_next h fuel (some z) = some (some y))
    (hyl : (h y).left = none) (hyr : (h y).right = none) (hyp : (h y).parent = some yp)
    (hzp : (h z).parent = some q)
    (hyz : y ≠ z) (hyzl : y ≠ zl) (hzzl : z ≠ zl) (hzzr : z ≠ zr)
    (hdzl : hd ≠ zl) (hdzr : hd ≠ zr) (hqy : q ≠ y) (hqyp : q ≠ yp) (hdy : hd ≠ y)
    (hzd : z ≠ hd) :
    ∃ xp h', erase_splice hd fuel (some z) h = some (none, xp, h') ∧
      (∀ b, (h' b).color =
        if b = z then (h y).color else if b = y then (h z).color else (h b).color) ∧
      (∀ b, b ≠ hd → (h' b).parent =
        if b = y then some q else if b = zr ∨ b = zl then some y else (h b).parent) ∧
      ((h' hd).parent = if (h hd).parent = some z then some y else (h hd).parent) ∧
      (∀ b, b ≠ hd → (h' b).left =
        if (h hd).parent ≠ some z ∧ b = q ∧ (h q).left = some z then some y
        else if b = yp ∧ y ≠ zr then none else if b = y then some zl else (h b).left) ∧
      (∀ b, b ≠ hd → (h' b).right =
        if (h hd).parent ≠ some z ∧ b = q ∧ (h q).left ≠ some z then some y
        else if b = y then (if y = zr then none else some zr) else (h b).right) := by
  by_cases hyzr : y = zr
  · subst hyzr
    obtain ⟨h', h1, h2, h3, h4, h5, h6⟩ :=
      erase_splice_two_near hd fuel z y zl q h hzl hzr hnext hyl hyr hzp hyz hzzl hdzl hqy
        hdy hzd
    refine ⟨_, h', h1, h2, fun b hb => ?_, h4, fun b hb => ?_, fun b hb => ?_⟩
    · rw [h3 b hb]
      by_cases hby : b = y <;> simp [hby]
    · rw [h5 b hb]
      simp
    · rw [h6 b hb]
      by_cases hby : b = y
      · subst hby; simp [hyr]
      · simp [hby]
  · obtain ⟨h', h1, h2, h3, h4, h5, h6⟩ :=
      erase_splice_two_deep hd fuel z y zl zr yp q h hzl hzr hnext hyl hyr hyp hzp hyz hyzr
        hyzl hzzl hzzr hdzl hdzr hqy hqyp hdy hzd
    refine ⟨_, h', h1, h2, fun b hb => ?_, h4, fun b hb => ?_, fun b hb => ?_⟩
    · rw [h3 b hb]
      by_cases hby : b = y
      · simp [hby]
      · by_cases hbzr : b = zr <;> simp [hby, hbzr]
    · rw [h5 b hb]
      simp [hyzr]
    · rw [h6 b hb]
      simp [hyzr]

/-- The shape represented at a pointer is determined by the heap. -/
theorem Rep.unique {h : Heap} : ∀ (t1 t2 : Tree) {par1 par2 p : Ptr},
    Rep h par1 p t1 → Rep h par2 p t2 → t1 = t2 := by
  intro t1
  induction t1 with
  | nil =>
    intro t2 par1 par2 p h1 h2
    have hp : p = none := h1
    cases t2 with
    | nil => rfl
    | node l a r => rw [hp] at h2; exact absurd h2.1 (by simp)
  | node l a r ihl ihr =>
    intro t2 par1 par2 p h1 h2
    obtain ⟨hp, -, hl, hr⟩ := h1
    cases t2 with
    | nil =>
      have hp2 : p = none := h2
      rw [hp] at hp2
      exact absurd hp2 (by simp)
    | node l2 a2 r2 =>
      obtain ⟨hp2, -, hl2, hr2⟩ := h2
      rw [hp] at hp2
      injection hp2 with hp2
      subst hp2
      rw [ihl l2 hl hl2, ihr r2 hr hr2]

/-- The property `noRedRed` holds in every subtree. -/
theorem noRedRed_subtreeAt {h : Heap} (a : Nat) : ∀ t : Tree, noRedRed h t = true →
    noRedRed h (t.subtreeAt a) = true := by
  intro t
  induction t with
  | nil => intro _; rfl
  | node l c r ihl ihr =>
    intro hn
    have hn' := hn
    simp only [noRedRed, Bool.and_eq_true] at hn'
    by_cases hca : c = a
    · simpa [Tree.subtreeAt, hca] using hn
    · by_cases hal : a ∈ l.inorder
      · simpa [Tree.subtreeAt, hca, hal] using ihl hn'.1.2
      · simpa [Tree.subtreeAt, hca, hal] using ihr hn'.2

/-- Every subtree of a shape with a black height has a black height. -/
theorem blackHeight_subtreeAt {h : Heap} (a : Nat) : ∀ t : Tree,
    (blackHeight h t).isSome = true → (blackHeight h (t.subtreeAt a)).isSome = true := by
  intro t
  induction t with
  | nil => intro _; rfl
  | node l c r ihl ihr =>
    intro hb
    have hlr : (blackHeight h l).isSome = true ∧ (blackHeight h r).isSome = true := by
      simp only [blackHeight] at hb
      cases hl : blackHeight h l with
      | none => simp [hl] at hb
      | some n =>
        cases hr : blackHeight h r with
        | none => simp [hl, hr] at hb
        | some m => simp
    by_cases hca : c = a
    · simpa [Tree.subtreeAt, hca] using hb
    · by_cases hal : a ∈ l.inorder
      · simpa [Tree.subtreeAt, hca, hal] using ihl hlr.1
      · simpa [Tree.subtreeAt, hca, hal] using ihr hlr.2

/-- The black height of a shape whose root is Black is positive. -/
theorem blackHeight_black_pos {h : Heap} {l r : Tree} {a n : Nat}
    (hb : blackHeight h (.node l a r) = some n) (hc : (h a).color = kRbTreeBlack) : 0 < n := by
  simp only [blackHeight] at hb
  cases hl : blackHeight h l with
  | none => simp [hl] at hb
  | some n1 =>
    cases hr : blackHeight h r with
    | none => simp [hl, hr] at hb
    | some n2 =>
      simp only [hl, hr, hc, if_true] at hb
      split_ifs at hb
      injection hb with hb
      omega

/-- In a shape without Red node with a Red child and with a black height, a Red node with a
null child is a leaf. -/
theorem red_null_child_leaf {h : Heap} {l r : Tree} {a : Nat}
    (hn : noRedRed h (.node l a r) = true) (hb : (blackHeight h (.node l a r)).isSome = true)
    (hred : (h a).color = kRbTreeRed) (hnull : l = .nil ∨ r = .nil) : l = .nil ∧ r = .nil := by
  simp only [blackHeight] at hb
  cases hl : blackHeight h l with
  | none => simp [hl] at hb
  | some n1 =>
    cases hr : blackHeight h r with
    | none => simp [hl, hr] at hb
    | some n2 =>
      simp only [hl, hr] at hb
      have hnm : n1 = n2 := by
        by_contra hne
        simp [hne] at hb
      subst hnm
      rcases hnull with rfl | rfl
      · refine ⟨rfl, ?_⟩
        cases r with
        | nil => rfl
        | node rl b rr =>
          have hcb : (h b).color = kRbTreeBlack := by
            simp [noRedRed, hred] at hn
            exact hn.1
          have h0 : n1 = 0 := by
            simp only [blackHeight] at hl
            injection hl with hl
            exact hl.symm
          have := blackHeight_black_pos hr hcb
          omega
      · refine ⟨?_, rfl⟩
        cases l with
        | nil => rfl
        | node ll b lr =>
          have hcb : (h b).color = kRbTreeBlack := by
            simp [noRedRed, hred] at hn
            exact hn.1
          have h0 : n1 = 0 := by
            simp only [blackHeight] at hr
            injection hr with hr
            exact hr.symm
          have := blackHeight_black_pos hl hcb
          omega

/-- The first node of a represented shape, when it is not the root, is the left child of a
node of the shape. -/
theorem Rep.first_parent {h : Heap} {t : Tree} {v : Nat} : ∀ {par : Ptr} {x : Nat},
    Rep h par (some x) t → t.inorder.head? = some v → v ≠ x →
    ∃ yp ∈ t.inorder, (h yp).left = some v ∧ (h v).parent = some yp := by
  induction t with
  | nil => intro par x hr; simp [Rep] at hr
  | node l a r ihl _ =>
    intro par x hr hv hne
    obtain ⟨hp, -, hl, -⟩ := hr
    injection hp with hp
    subst hp
    rw [inorder_head_node] at hv
    cases l with
    | nil =>
      simp only [Tree.inorder, List.head?_nil, Option.getD_none, Option.some.injEq] at hv
      exact absurd hv.symm hne
    | node ll b lr =>
      have hb : (h x).left = some b := hl.1
      have hbp : (h b).parent = some x := hl.2.1
      rw [hb] at hl
      have hv' : (Tree.node ll b lr).inorder.head? = some v := by
        rw [inorder_head_node] at hv ⊢
        simpa using hv
      by_cases hvb : v = b
      · subst hvb
        exact ⟨x, by simp [Tree.inorder], hb, hbp⟩
      · obtain ⟨yp, h1, h2, h3⟩ := ihl hl hv' hvb
        exact ⟨yp, List.mem_append_left _ h1, h2, h3⟩

/-- Replacement of a represented subtree together with a new parent link for the root. -/
theorem Rep.replaceAt_reparent {h h' : Heap} {a : Nat} {q : Ptr} {s t : Tree}
    {par par' p : Ptr} (hr : Rep h par p t) (hnd : t.inorder.Nodup)
    (hsub : Rep h' (if p = some a then par' else (h a).parent) q s)
    (hroot : ∀ c, p = some c → c ≠ a → (h' c).parent = par')
    (hctx : ∀ b ∈ (t.replaceAt a .nil).inorder,
      (p ≠ some b → (h' b).parent = (h b).parent) ∧
      (h' b).left = (if (h b).left = some a then q else (h b).left) ∧
      (h' b).right = (if (h b).right = some a then q else (h b).right)) :
    Rep h' par' (if p = some a then q else p) (t.replaceAt a s) := by
  cases t with
  | nil =>
    have hp : p = none := hr
    subst hp
    simp [Tree.replaceAt, Rep]
  | node l c r =>
    obtain ⟨hp, hpar, hl, hrr⟩ := hr
    subst hp
    have hnd' := hnd
    simp only [Tree.inorder, List.nodup_append, List.nodup_cons] at hnd'
    obtain ⟨hndl, ⟨hcr, hndr⟩, hdisj⟩ := hnd'
    have hcl : c ∉ l.inorder := fun hm => hdisj hm (by simp)
    by_cases hca : c = a
    · subst hca
      simp only [Tree.replaceAt, if_true] at hsub ⊢
      exact hsub
    · have hne : ¬ (some c = some a) := fun e => hca (Option.some.inj e)
      simp only [hne, if_false] at hsub ⊢
      simp only [Tree.replaceAt, hca, if_false]
      simp only [Tree.replaceAt, hca, if_false, Tree.inorder, List.mem_append,
        List.mem_cons] at hctx
      obtain ⟨-, e2, e3⟩ := hctx c (Or.inr (Or.inl rfl))
      have hsubl : ∀ b ∈ (l.replaceAt a .nil).inorder, b ∈ l.inorder := by
        intro b hb
        by_cases hal : a ∈ l.inorder
        · exact (Tree.mem_replaceAt_nil a l hndl hal b hb).1
        · rw [Tree.replaceAt_of_not_mem a .nil l hal] at hb; exact hb
      have hsubr : ∀ b ∈ (r.replaceAt a .nil).inorder, b ∈ r.inorder := by
        intro b hb
        by_cases har : a ∈ r.inorder
        · exact (Tree.mem_replaceAt_nil a r hndr har b hb).1
        · rw [Tree.replaceAt_of_not_mem a .nil r har] at hb; exact hb
      refine ⟨rfl, hroot c rfl hca, ?_, ?_⟩
      · rw [e2]
        refine Rep.replaceAt_rep hsub l hl (fun b hb => ?_)
        obtain ⟨f1, f2, f3⟩ := hctx b (Or.inl hb)
        refine ⟨f1 ?_, f2, f3⟩
        intro e
        injection e with e
        exact hcl (e ▸ hsubl b hb)
      · rw [e3]
        refine Rep.replaceAt_rep hsub r hrr (fun b hb => ?_)
        obtain ⟨f1, f2, f3⟩ := hctx b (Or.inr (Or.inr hb))
        refine ⟨f1 ?_, f2, f3⟩
        intro e
        injection e with e
        exact hcr (e ▸ hsubr b hb)

/-- Position of a node `z` of a well-formed tree: it is the root and its parent link is the
header, or it is a child of a node `q` of the tree outside the subtree rooted at `z`. -/
theorem WellFormed.position {hd : Nat} {h : Heap} {t : Tree} {z : Nat}
    (hwf : WellFormed hd h t) (hz : z ∈ t.inorder) :
    (root hd h = some z ∧ (h z).parent = some hd) ∨
    (root hd h ≠ some z ∧ ∃ q ∈ t.inorder, (h z).parent = some q ∧
      ((h q).left = some z ∨ (h q).right = some z) ∧ q ∉ (t.subtreeAt z).inorder ∧
      q ≠ hd) := by
  obtain ⟨hrep, hnd⟩ := hwf
  obtain ⟨hdt, hndt⟩ := List.nodup_cons.1 hnd
  obtain ⟨l, r, h1, h2, -, -, -, h6⟩ := hrep.local hndt hz
  have hS := hrep.subtreeAt_rep hz
  have hSeq : t.subtreeAt z = .node l z r :=
    Rep.unique _ _ hS (⟨rfl, rfl, h1, h2⟩ : Rep h (h z).parent (some z) (.node l z r))
  rcases h6 with ⟨e1, e2⟩ | ⟨e0, q, hq, e1, e2, e3⟩
  · exact Or.inl ⟨e1, e2⟩
  · refine Or.inr ⟨e0, q, hq, e1, e2, ?_, fun e => hdt (e ▸ hq)⟩
    rw [hSeq]
    simp only [Tree.inorder, List.mem_append, List.mem_cons]
    simp only [List.mem_cons, List.mem_append] at e3
    tauto

/-- The splice of a Red leaf `z` of a well-formed tree with Black root: the call returns, no
colour changes, and the heap it returns is a well-formed tree of the same black height. -/
theorem WellFormed.erase_splice_red_leaf {hd : Nat} {h : Heap} {t : Tree} {z : Nat}
    (fuel : Nat) (hwf : WellFormed hd h t) (hz : z ∈ t.inorder)
    (hS : t.subtreeAt z = .node .nil z .nil) (hred : (h z).color = kRbTreeRed)
    (hblack : rootBlack h t = true) :
    ∃ x xp h', erase_splice hd fuel (some z) h = some (x, xp, h') ∧
      (∀ b, (h' b).color = (h b).color) ∧
      ∃ t', WellFormed hd h' t' ∧ blackHeight h' t' = blackHeight h t ∧
        ∀ b ∈ t'.inorder, b ∈ t.inorder := by
  have hpos := hwf.position hz
  obtain ⟨hrep, hnd⟩ := hwf
  obtain ⟨hdt, hndt⟩ := List.nodup_cons.1 hnd
  have hSrep := hrep.subtreeAt_rep hz
  rw [hS] at hSrep
  obtain ⟨-, -, hzl, hzr⟩ := hSrep
  have hzl : (h z).left = none := hzl
  have hzr : (h z).right = none := hzr
  -- z is not the root
  have hnroot : root hd h ≠ some z := by
    intro e
    cases t with
    | nil => simp [Tree.inorder] at hz
    | node l a r =>
      have ha : root hd h = some a := hrep.1
      rw [e] at ha
      injection ha with ha
      subst ha
      simp [rootBlack, hred] at hblack
  rcases hpos with ⟨e1, -⟩ | ⟨-, q, hqt, hzp, hch, hqS, hqd⟩
  · exact absurd e1 hnroot
  obtain ⟨h', hrun, hcol, hpar, hright, hleft⟩ :=
    erase_splice_leaf hd fuel z q h hzl hzr hzp hnroot hqd
  have hroot' : root hd h' = root hd h := hpar hd
  have hne : ∀ b ∈ t.inorder, b ≠ hd := fun b hb e => hdt (e ▸ hb)
  refine ⟨_, _, h', hrun, hcol, ?_⟩
  by_cases hql : (h q).left = some z
  · -- z is a left child: the left link of q is null
    refine ⟨t.replaceAt z .nil, ⟨?_, ?_⟩, ?_, ?_⟩
    · have hnil : Rep h' (h z).parent none .nil := rfl
      have key := Rep.replaceAt_rep hnil t hrep (fun b hb => ?_)
      · rw [if_neg hnroot] at key
        rw [hroot']
        exact key
      · obtain ⟨hbt, hbS⟩ := Tree.mem_replaceAt_nil z t hndt hz b hb
        have hbd := hne b hbt
        refine ⟨hpar b, ?_, ?_⟩
        · rw [hleft b hbd]
          by_cases hbl : (h b).left = some z
          · have : (h z).parent = some b := hrep.parent_of_left hndt hbt hbl
            rw [hzp] at this
            injection this with this
            subst this
            simp [hql]
          · rw [if_neg hbl, if_neg]
            rintro ⟨rfl, e⟩
            exact hbl e
        · rw [hright b hbd, if_neg]
          intro hbr
          have : (h z).parent = some b := hrep.parent_of_right hndt hbt hbr
          rw [hzp] at this
          injection this with this
          subst this
          exact hrep.left_ne_right hndt hbt hql hbr
    · have := Tree.replaceAt_nodup z .nil t hndt (by simp [Tree.inorder])
        (by simp [Tree.inorder])
      exact List.nodup_cons.2 ⟨fun hm => hdt (this.2 hd hm), this.1⟩
    · refine blackHeight_replaceAt t hndt hz (fun b _ => hcol b) ?_
      rw [hS]
      simp [blackHeight, hred]
    · exact (Tree.replaceAt_nodup z .nil t hndt (by simp [Tree.inorder])
        (by simp [Tree.inorder])).2
  · -- z is a right child: no link of the tree is written
    refine ⟨t, ⟨?_, hnd⟩, blackHeight_congr t (fun b _ => hcol b), fun b hb => hb⟩
    rw [hroot']
    refine hrep.frame (fun b hb => ⟨hpar b, ?_, hright b (hne b hb)⟩)
    rw [hleft b (hne b hb), if_neg]
    rintro ⟨-, e⟩
    exact hql e

/-- The splice of a node `z` with two children whose successor `y` is Red, in a well-formed
tree without Red node with a Red child and with a black height: the call returns, the colours
of `y` and `z` are exchanged and no other colour changes, and the heap it returns is a
well-formed tree of the same black height. -/
theorem WellFormed.erase_splice_red_successor {hd : Nat} {h : Heap} {t L R : Tree}
    {z y zl zr : Nat} (fuel : Nat) (hwf : WellFormed hd h t)
    (hrr : noRedRed h t = true) (hbh : (blackHeight h t).isSome = true)
    (hz : z ∈ t.inorder) (hS : t.subtreeAt z = .node L z R)
    (hzl : (h z).left = some zl) (hzr : (h z).right = some zr)
    (hf : t.inorder.length + 1 ≤ fuel)
    (hnext : rb_tree_next h fuel (some z) = some (some y))
    (hred : (h y).color = kRbTreeRed) :
    ∃ x xp h', erase_splice hd fuel (some z) h = some (x, xp, h') ∧
      (∀ b, (h' b).color =
        if b = z then (h y).color else if b = y then (h z).color else (h b).color) ∧
      ∃ t', WellFormed hd h' t' ∧ blackHeight h' t' = blackHeight h t ∧
        ∀ b ∈ t'.inorder, b ∈ t.inorder := by
  have hpos := hwf.position hz
  obtain ⟨hrep, hnd⟩ := hwf
  obtain ⟨hdt, hndt⟩ := List.nodup_cons.1 hnd
  have hne : ∀ b ∈ t.inorder, b ≠ hd := fun b hb e => hdt (e ▸ hb)
  have hSrep := hrep.subtreeAt_rep hz
  rw [hS] at hSrep
  have hSsub : ∀ b ∈ (Tree.node L z R).inorder, b ∈ t.inorder := by
    rw [← hS]; exact Tree.subtreeAt_subset z t
  have hSnd : (Tree.node L z R).inorder.Nodup := by
    rw [← hS]; exact Tree.subtreeAt_nodup z t hndt
  have hSlen : (Tree.node L z R).inorder.length ≤ t.inorder.length :=
    (List.subperm_of_subset hSnd hSsub).length_le
  have hSrep0 := hSrep
  obtain ⟨-, -, hL, hR⟩ := hSrep
  rw [hzl] at hL
  rw [hzr] at hR
  have hSnd' := hSnd
  simp only [Tree.inorder, List.nodup_append, List.nodup_cons] at hSnd'
  obtain ⟨hLnd, ⟨hzR, hRnd⟩, hdisj⟩ := hSnd'
  have hzL : z ∉ L.inorder := fun hm => hdisj hm (by simp)
  have hLR : ∀ b ∈ L.inorder, b ∉ R.inorder := fun b hb hb' => hdisj hb (by simp [hb'])
  have hLt : ∀ b ∈ L.inorder, b ∈ t.inorder :=
    fun b hb => hSsub b (by simp [Tree.inorder, hb])
  have hRt : ∀ b ∈ R.inorder, b ∈ t.inorder :=
    fun b hb => hSsub b (by simp [Tree.inorder, hb])
  have hzlL : zl ∈ L.inorder := hL.root_mem
  have hzrR : zr ∈ R.inorder := hR.root_mem
  -- y is the first node of the right subtree
  obtain ⟨hhead, hyR⟩ : R.inorder.head? = some y ∧ y ∈ R.inorder := by
    cases hRi : R.inorder with
    | nil => rw [hRi] at hzrR; simp at hzrR
    | cons c tl =>
      have e : (Tree.node L z R).inorder = L.inorder ++ z :: c :: tl := by
        simp [Tree.inorder, hRi]
      have := hSrep0.next_spec hSnd e fuel (by omega)
      rw [hnext] at this
      injection this with this
      injection this with this
      subst this
      simp
  have hyt : y ∈ t.inorder := hRt y hyR
  have hyl : (h y).left = none := hR.first_left_none hhead
  -- y is a leaf
  have hSy : t.subtreeAt y = .node .nil y .nil := by
    obtain ⟨ly, ry, e⟩ := Tree.subtreeAt_eq y t hyt
    have hrepy := hrep.subtreeAt_rep hyt
    rw [e] at hrepy
    have hly : ly = .nil := by
      have := hrepy.2.2.1
      rw [hyl] at this
      cases ly with
      | nil => rfl
      | node _ _ _ => exact absurd this.1 (by simp)
    subst hly
    have hn := noRedRed_subtreeAt y t hrr
    have hb := blackHeight_subtreeAt y t hbh
    rw [e] at hn hb
    rw [e, (red_null_child_leaf hn hb hred (Or.inl rfl)).2]
  have hyr : (h y).right = none := by
    have hrepy := hrep.subtreeAt_rep hyt
    rw [hSy] at hrepy
    exact hrepy.2.2.2
  have hRy : R.subtreeAt y = .node .nil y .nil := by
    have h1 := hR.subtreeAt_rep hyR
    have h2 := hrep.subtreeAt_rep hyt
    rw [hSy] at h2
    exact Rep.unique _ _ h1 h2
  -- the parent of y
  obtain ⟨yp, hyp, hypS, hypl⟩ : ∃ yp, (h y).parent = some yp ∧
      (yp = z ∨ yp ∈ R.inorder) ∧ (y ≠ zr → (h yp).left = some y ∧ yp ∈ R.inorder) := by
    by_cases hyzr : y = zr
    · refine ⟨z, ?_, Or.inl rfl, fun e => absurd hyzr e⟩
      rw [hyzr]
      cases R with
      | nil => simp [Tree.inorder] at hyR
      | node RL c RR =>
        obtain ⟨e1, e2, -, -⟩ := hR
        injection e1 with e1
        rw [e1]
        exact e2
    · obtain ⟨yp, h1, h2, h3⟩ := hR.first_parent hhead hyzr
      exact ⟨yp, h3, Or.inr h1, fun _ => ⟨h2, h1⟩⟩
  -- the parent of z
  obtain ⟨q, hzp, hqS, hqc⟩ : ∃ q, (h z).parent = some q ∧
      q ∉ (Tree.node L z R).inorder ∧
      ((root hd h = some z ∧ q = hd) ∨ (root hd h ≠ some z ∧ q ∈ t.inorder ∧
        ((h q).left = some z ∨ (h q).right = some z))) := by
    rcases hpos with ⟨e1, e2⟩ | ⟨e0, q, hqt, e1, e2, e3, -⟩
    · exact ⟨hd, e2, fun hm => hdt (hSsub hd hm), Or.inl ⟨e1, rfl⟩⟩
    · exact ⟨q, e1, by rw [← hS]; exact e3, Or.inr ⟨e0, hqt, e2⟩⟩
  have hzS : z ∈ (Tree.node L z R).inorder := by simp [Tree.inorder]
  have hLS : ∀ b ∈ L.inorder, b ∈ (Tree.node L z R).inorder :=
    fun b hb => by simp [Tree.inorder, hb]
  have hRS : ∀ b ∈ R.inorder, b ∈ (Tree.node L z R).inorder :=
    fun b hb => by simp [Tree.inorder, hb]
  have hypS' : yp ∈ (Tree.node L z R).inorder := by
    rcases hypS with e | e
    · rw [e]; exact hzS
    · exact hRS yp e
  have hyz : y ≠ z := fun e => hzR (e ▸ hyR)
  have hyzl : y ≠ zl := fun e => hLR zl hzlL (e ▸ hyR)
  have hzzl : z ≠ zl := fun e => hzL (e ▸ hzlL)
  have hzzr : z ≠ zr := fun e => hzR (e ▸ hzrR)
  have hdzl : hd ≠ zl := fun e => hdt (e ▸ hLt zl hzlL)
  have hdzr : hd ≠ zr := fun e => hdt (e ▸ hRt zr hzrR)
  have hdy : hd ≠ y := fun e => hdt (e ▸ hyt)
  have hzd : z ≠ hd := hne z hz
  have hqy : q ≠ y := fun e => hqS (e ▸ hRS y hyR)
  have hqyp : q ≠ yp := fun e => hqS (e ▸ hypS')
  have hypy : yp ≠ y := by
    intro e
    by_cases hyzr : y = zr
    · rcases hypS with e' | e'
      · exact hyz (e ▸ e')
      · -- the parent of the root of R is z
        have : (h y).parent = some z := by
          rw [hyzr]
          cases R with
          | nil => simp [Tree.inorder] at hyR
          | node RL c RR =>
            obtain ⟨e1, e2, -, -⟩ := hR
            injection e1 with e1
            rw [e1]
            exact e2
        rw [hyp] at this
        injection this with this
        exact hyz (e ▸ this)
    · have := (hypl hyzr).1
      rw [e, hyl] at this
      exact absurd this (by simp)
  obtain ⟨xp, h', hrun, hcol, hpar, hroot, hleft, hright⟩ :=
    erase_splice_two_spec hd fuel z y zl zr yp q h hzl hzr hnext hyl hyr hyp hzp hyz hyzl
      hzzl hzzr hdzl hdzr hqy hqyp hdy hzd
  refine ⟨_, xp, h', hrun, hcol, ?_⟩
  -- the nodes left in the right subtree
  have hR' : ∀ b ∈ (R.replaceAt y .nil).inorder, b ∈ R.inorder ∧ b ≠ y := by
    intro b hb
    obtain ⟨h1, h2⟩ := Tree.mem_replaceAt_nil y R hRnd hyR b hb
    rw [hRy] at h2
    exact ⟨h1, fun e => h2 (by simp [Tree.inorder, e])⟩
  have hR'nd : (R.replaceAt y .nil).inorder.Nodup :=
    (Tree.replaceAt_nodup y .nil R hRnd (by simp [Tree.inorder])
      (by simp [Tree.inorder])).1
  have hS'nd : (Tree.node L y (R.replaceAt y .nil)).inorder.Nodup := by
    simp only [Tree.inorder, List.nodup_append, List.nodup_cons]
    refine ⟨hLnd, ⟨fun hm => (hR' y hm).2 rfl, hR'nd⟩, ?_⟩
    intro b hb hb'
    rcases List.mem_cons.1 hb' with e | hb'
    · exact hLR b hb (e ▸ hyR)
    · exact hLR b hb (hR' b hb').1
  have hS'sub : ∀ b ∈ (Tree.node L y (R.replaceAt y .nil)).inorder,
      b ∈ (t.subtreeAt z).inorder := by
    intro b hb
    rw [hS]
    simp only [Tree.inorder, List.mem_append, List.mem_cons] at hb ⊢
    rcases hb with hb | hb | hb
    · exact Or.inl hb
    · exact Or.inr (Or.inr (hb ▸ hyR))
    · exact Or.inr (Or.inr (hR' b hb).1)
  have ht' := Tree.replaceAt_nodup z (.node L y (R.replaceAt y .nil)) t hndt hS'nd hS'sub
  -- the new subtree
  have hsubL : Rep h' (some y) (h' y).left L := by
    have e : (h' y).left = some zl := by
      rw [hleft y hdy.symm]
      simp [hqy.symm, hypy.symm]
    rw [e]
    refine hL.reparent (fun a ha => ?_) (fun b hb => ?_) hLnd
    · injection ha with ha
      subst ha
      rw [hpar zl hdzl.symm]
      simp [hyzl.symm]
    · have hbd : b ≠ hd := hne b (hLt b hb)
      have hby : b ≠ y := fun e => hLR b hb (e ▸ hyR)
      have hbq : b ≠ q := fun e => hqS (e ▸ hLS b hb)
      have hbzr : b ≠ zr := fun e => hLR b hb (e ▸ hzrR)
      have hbyp : b ≠ yp := by
        intro e
        rcases hypS with e' | e'
        · exact hzL (e' ▸ e ▸ hb)
        · exact hLR b hb (e ▸ e')
      refine ⟨fun hroot => ?_, ?_, ?_⟩
      · have hbzl : b ≠ zl := fun e => hroot (by rw [e])
        rw [hpar b hbd]
        simp [hby, hbzr, hbzl]
      · rw [hleft b hbd]
        simp [hby, hbq, hbyp]
      · rw [hright b hbd]
        simp [hby, hbq]
  have hsubR : Rep h' (some y) (h' y).right (R.replaceAt y .nil) := by
    have e : (h' y).right = if some zr = some y then none else some zr := by
      rw [hright y hdy.symm, if_neg (fun c => hqy.symm c.2.1), if_pos rfl]
      by_cases hyzr : y = zr
      · rw [if_pos hyzr, if_pos (by rw [hyzr])]
      · rw [if_neg hyzr, if_neg (fun e => hyzr (Option.some.inj e).symm)]
    rw [e]
    refine Rep.replaceAt_reparent (a := y) (q := none) (s := .nil) hR hRnd ?_
      (fun c hc hcy => ?_) (fun b hb => ?_)
    · exact (rfl : (none : Ptr) = none)
    · injection hc with hc
      subst hc
      rw [hpar zr hdzr.symm]
      simp [hcy]
    · obtain ⟨hbR, hby⟩ := hR' b hb
      have hbd : b ≠ hd := hne b (hRt b hbR)
      have hbq : b ≠ q := fun e => hqS (e ▸ hRS b hbR)
      have hbzl : b ≠ zl := fun e => hLR zl hzlL (e ▸ hbR)
      have hbz : b ≠ z := fun e => hzR (e ▸ hbR)
      -- a node of R holding y as a child is yp, and y is not the root of R
      have hch : (h b).left = some y ∨ (h b).right = some y →
          b = yp ∧ y ≠ zr ∧ (h yp).left = some y := by
        intro hc
        have hp : (h y).parent = some b := by
          rcases hc with hc | hc
          · exact hR.parent_of_left hRnd hbR hc
          · exact hR.parent_of_right hRnd hbR hc
        rw [hyp] at hp
        injection hp with hp
        have hyzr : y ≠ zr := by
          intro e
          cases R with
          | nil => simp [Tree.inorder] at hyR
          | node RL c RR =>
            obtain ⟨e1, e2, -, -⟩ := hR
            injection e1 with e1
            rw [← e1, ← e, hyp] at e2
            injection e2 with e2
            exact hbz (hp ▸ e2)
        exact ⟨hp.symm, hyzr, (hypl hyzr).1⟩
      refine ⟨fun hroot => ?_, ?_, ?_⟩
      · have hbzr : b ≠ zr := fun e => hroot (by rw [e])
        rw [hpar b hbd]
        simp [hby, hbzr, hbzl]
      · rw [hleft b hbd, if_neg (fun c => hbq c.2.1)]
        by_cases hbl : (h b).left = some y
        · obtain ⟨k1, k2, -⟩ := hch (Or.inl hbl)
          rw [if_pos ⟨k1, k2⟩, if_pos hbl]
        · have : ¬ (b = yp ∧ y ≠ zr) := by
            rintro ⟨k1, k2⟩
            exact hbl (k1 ▸ (hypl k2).1)
          rw [if_neg this, if_neg hby, if_neg hbl]
      · rw [hright b hbd, if_neg (fun c => hbq c.2.1), if_neg hby]
        have : (h b).right ≠ some y := by
          intro hbr
          obtain ⟨k1, -, k3⟩ := hch (Or.inr hbr)
          rw [← k1] at k3
          exact hR.left_ne_right hRnd hbR k3 hbr
        rw [if_neg this]
  have hsub : Rep h' (h z).parent (some y) (.node L y (R.replaceAt y .nil)) := by
    refine ⟨rfl, ?_, hsubL, hsubR⟩
    rw [hpar y hdy.symm, hzp]
    simp
  -- a node of the tree holding z as a child is q, and z is not the root
  have hzch : ∀ b ∈ t.inorder, (h b).left = some z ∨ (h b).right = some z →
      b = q ∧ (h hd).parent ≠ some z := by
    intro b hbt hc
    have hp : (h z).parent = some b := by
      rcases hc with hc | hc
      · exact hrep.parent_of_left hndt hbt hc
      · exact hrep.parent_of_right hndt hbt hc
    rw [hzp] at hp
    injection hp with hp
    refine ⟨hp.symm, ?_⟩
    rcases hqc with ⟨-, e⟩ | ⟨e, -, -⟩
    · exact absurd (hp ▸ e) (hne b hbt)
    · exact e
  refine ⟨t.replaceAt z (.node L y (R.replaceAt y .nil)), ⟨?_, ?_⟩, ?_, ht'.2⟩
  · have key := Rep.replaceAt_rep hsub t hrep (fun b hb => ?_)
    · have e : root hd h' = if root hd h = some z then some y else root hd h := hroot
      rw [e]
      exact key
    · obtain ⟨hbt, hbS⟩ := Tree.mem_replaceAt_nil z t hndt hz b hb
      rw [hS] at hbS
      have hbd : b ≠ hd := hne b hbt
      have hby : b ≠ y := fun e => hbS (e ▸ hRS y hyR)
      have hbzl : b ≠ zl := fun e => hbS (e ▸ hLS zl hzlL)
      have hbzr : b ≠ zr := fun e => hbS (e ▸ hRS zr hzrR)
      have hbyp : b ≠ yp := fun e => hbS (e ▸ hypS')
      refine ⟨?_, ?_, ?_⟩
      · rw [hpar b hbd]
        simp [hby, hbzl, hbzr]
      · rw [hleft b hbd]
        by_cases hbl : (h b).left = some z
        · obtain ⟨k1, k2⟩ := hzch b hbt (Or.inl hbl)
          rw [if_pos ⟨k2, k1, k1 ▸ hbl⟩, if_pos hbl]
        · rw [if_neg (fun c => hbl (by rw [c.2.1]; exact c.2.2)),
            if_neg (fun c => hbyp c.1), if_neg hby, if_neg hbl]
      · rw [hright b hbd]
        by_cases hbr : (h b).right = some z
        · obtain ⟨k1, k2⟩ := hzch b hbt (Or.inr hbr)
          have hnl : (h q).left ≠ some z := by
            intro e
            rw [← k1] at e
            exact hrep.left_ne_right hndt hbt e hbr
          rw [if_pos ⟨k2, k1, hnl⟩, if_pos hbr]
        · have : ¬ ((h hd).parent ≠ some z ∧ b = q ∧ (h q).left ≠ some z) := by
            rintro ⟨c1, c2, c3⟩
            rcases hqc with ⟨e, -⟩ | ⟨-, -, e | e⟩
            · exact c1 e
            · exact c3 e
            · exact hbr (by rw [c2]; exact e)
          rw [if_neg this, if_neg hby, if_neg hbr]
  · exact List.nodup_cons.2 ⟨fun hm => hdt (ht'.2 hd hm), ht'.1⟩
  · refine blackHeight_replaceAt t hndt hz (fun b hb => ?_) ?_
    · obtain ⟨hbt, hbS⟩ := Tree.mem_replaceAt_nil z t hndt hz b hb
      rw [hS] at hbS
      have hbz : b ≠ z := fun e => hbS (e ▸ hzS)
      have hby : b ≠ y := fun e => hbS (e ▸ hRS y hyR)
      rw [hcol b, if_neg hbz, if_neg hby]
    · rw [hS]
      have e1 : blackHeight h' L = blackHeight h L := by
        refine blackHeight_congr L (fun b hb => ?_)
        have hbz : b ≠ z := fun e => hzL (e ▸ hb)
        have hby : b ≠ y := fun e => hLR b hb (e ▸ hyR)
        rw [hcol b, if_neg hbz, if_neg hby]
      have e2 : blackHeight h' (R.replaceAt y .nil) = blackHeight h R := by
        refine blackHeight_replaceAt R hRnd hyR (fun b hb => ?_) ?_
        · obtain ⟨hbR, hby⟩ := hR' b hb
          have hbz : b ≠ z := fun e => hzR (e ▸ hbR)
          rw [hcol b, if_neg hbz, if_neg hby]
        · rw [hRy]
          simp [blackHeight, hred]
      have e3 : (h' y).color = (h z).color := by
        rw [hcol y, if_neg hyz, if_pos rfl]
      simp only [blackHeight, e1, e2, e3]

/-! ## Properties of erasure, reverse iteration and insertion safety -/

/-- C21: when the node spliced out by `rb_tree_erase_rebalance` is Red, nothing is rebalanced.
In a well-formed red-black tree let `y` be the node spliced out for `z` (`z` itself when it has a
null child, its successor otherwise) and let `y` be Red. Then the call returns `z` with the heap
left by the splice: the fix-up from `if (!rb_tree_is_red(y))` on, which holds the loop with the
rotations and `rb_tree_set_black(x)`, changes nothing. Every node other than `y` and `z` keeps
its colour, `y` takes the colour of `z` and `z` the colour of `y` (nothing changes when `y` is
`z`), and the heap returned is a well-formed tree, made of nodes of the former one, with the
same black height. -/
theorem erase_red_spliced_no_rebalance (hd : Nat) (h : Heap) (t : Tree) (fuel z y : Nat)
    (hwf : WellFormed hd h t) (hrb : RedBlack h t) (hz : z ∈ t.inorder)
    (hf : t.inorder.length + 1 ≤ fuel)
    (hy : erase_spliced h fuel (some z) = some (some y))
    (hred : (h y).color = kRbTreeRed) :
    ∃ x xp h', erase_splice hd fuel (some z) h = some (x, xp, h') ∧
      erase_fixup hd fuel (some z) x xp h' = some (h', some z) ∧
      rb_tree_erase_rebalance hd fuel (some z) h = some (h', some z) ∧
      (∀ b, b ≠ y → b ≠ z → (h' b).color = (h b).color) ∧
      (h' y).color = (h z).color ∧ (h' z).color = (h y).color ∧
      ∃ t', WellFormed hd h' t' ∧ blackHeight h' t' = blackHeight h t ∧
        ∀ b ∈ t'.inorder, b ∈ t.inorder := by
  obtain ⟨hblack, hrr, hbh⟩ := hrb
  obtain ⟨L, R, hS⟩ := Tree.subtreeAt_eq z t hz
  have hSrep := hwf.1.subtreeAt_rep hz
  rw [hS] at hSrep
  have hnS := noRedRed_subtreeAt z t hrr
  have hbS := blackHeight_subtreeAt z t hbh
  rw [hS] at hnS hbS
  have hzl : (h z).left = L.ptr := hSrep.2.2.1.ptr_eq
  have hzr : (h z).right = R.ptr := hSrep.2.2.2.ptr_eq
  -- the result of the splice gives the result of the call
  have finish : ∀ (x xp : Ptr) (h' : Heap),
      erase_splice hd fuel (some z) h = some (x, xp, h') → (h' z).color = kRbTreeRed →
      erase_fixup hd fuel (some z) x xp h' = some (h', some z) ∧
      rb_tree_erase_rebalance hd fuel (some z) h = some (h', some z) := by
    intro x xp h' hrun hc
    have := erase_fixup_red hd fuel z x xp h' hc
    refine ⟨this, ?_⟩
    rw [rb_tree_erase_rebalance_eq, hrun]
    exact this
  have leaf : L = .nil ∨ R = .nil → y = z ∧ L = .nil ∧ R = .nil := by
    intro hnull
    have hyz : y = z := by
      rcases hnull with e | e
      · rw [e] at hzl
        simp [erase_spliced, getLeft, hzl, Tree.ptr] at hy
        exact hy.symm
      · rw [e] at hzr
        cases L with
        | nil =>
          simp [erase_spliced, getLeft, hzl, Tree.ptr] at hy
          exact hy.symm
        | node LL zl LR =>
          simp [erase_spliced, getLeft, getRight, hzl, hzr, Tree.ptr] at hy
          exact hy.symm
    exact ⟨hyz, red_null_child_leaf hnS hbS (hyz ▸ hred) hnull⟩
  by_cases hnull : L = .nil ∨ R = .nil
  · obtain ⟨hyz, hL, hR⟩ := leaf hnull
    subst hyz hL hR
    obtain ⟨x, xp, h', hrun, hcol, ht'⟩ :=
      hwf.erase_splice_red_leaf fuel hz hS hred hblack
    obtain ⟨f1, f2⟩ := finish x xp h' hrun (by rw [hcol]; exact hred)
    exact ⟨x, xp, h', hrun, f1, f2, fun b _ _ => hcol b, hcol y, hcol y, ht'⟩
  · cases L with
    | nil => exact absurd (Or.inl rfl) hnull
    | node LL zl LR =>
      cases R with
      | nil => exact absurd (Or.inr rfl) hnull
      | node RL zr RR =>
        have hzl' : (h z).left = some zl := hzl
        have hzr' : (h z).right = some zr := hzr
        have hnext : rb_tree_next h fuel (some z) = some (some y) := by
          simpa [erase_spliced, getLeft, getRight, hzl', hzr'] using hy
        obtain ⟨x, xp, h', hrun, hcol, ht'⟩ :=
          hwf.erase_splice_red_successor fuel hrr hbh hz hS hzl' hzr' hf hnext hred
        have hcz : (h' z).color = (h y).color := by rw [hcol z, if_pos rfl]
        obtain ⟨f1, f2⟩ := finish x xp h' hrun (by rw [hcz]; exact hred)
        refine ⟨x, xp, h', hrun, f1, f2, fun b hby hbz => ?_, ?_, hcz, ht'⟩
        · rw [hcol b, if_neg hbz, if_neg hby]
        · rw [hcol y]
          by_cases hyz : y = z
          · rw [if_pos hyz, hyz]
          · rw [if_neg hyz, if_pos rfl]

/-- Instance of `erase_red_spliced_no_rebalance`: erasing the root 2 of `fiveNodes`, whose
successor 3 is a Red leaf. -/
theorem erase_red_spliced_no_rebalance_witness :
    ∃ x xp h', erase_splice 0 6 (some 2) fiveNodes = some (x, xp, h') ∧
      erase_fixup 0 6 (some 2) x xp h' = some (h', some 2) ∧
      rb_tree_erase_rebalance 0 6 (some 2) fiveNodes = some (h', some 2) ∧
      (∀ b, b ≠ 3 → b ≠ 2 → (h' b).color = (fiveNodes b).color) ∧
      (h' 3).color = (fiveNodes 2).color ∧ (h' 2).color = (fiveNodes 3).color ∧
      ∃ t', WellFormed 0 h' t' ∧ blackHeight h' t' = blackHeight fiveNodes fiveShape ∧
        ∀ b ∈ t'.inorder, b ∈ fiveShape.inorder :=
  erase_red_spliced_no_rebalance 0 fiveNodes fiveShape 6 2 3 (by decide) (by decide)
    (by decide) (by decide) (by decide) (by decide)

/-- C22: a Black node `z` with exactly one child `x`, Red, is not always replaced by `x`.
Erasing the Black right child 3 of the root 2, whose only child is the Red leaf 4, returns 3
with `x` = 4 Black and its parent link set to 2, but the right link of 2 still points to 3 (the
branch for a right child assigns to `rigth`): 4 is not linked into the slot of 3. When `z` is a
left child the link is made: erasing the Black left child 2 of the root 3, whose only child is
the Red leaf 1, links 1 to the left of 3 and colours it Black, the other colours unchanged. -/
theorem erase_one_red_child_right_slot :
    WellFormed 0 fourNodes fourShape ∧ RedBlack fourNodes fourShape ∧
    (fourNodes 3).color = kRbTreeBlack ∧ (fourNodes 3).left = none ∧
    (fourNodes 3).right = some 4 ∧ (fourNodes 4).color = kRbTreeRed ∧
    (fourNodes 3).parent = some 2 ∧ (fourNodes 2).right = some 3 ∧
    (∃ h', rb_tree_erase_rebalance 0 5 (some 3) fourNodes = some (h', some 3) ∧
      (h' 2).right = some 3 ∧ (h' 2).left = some 1 ∧ (h' 3).right = some 4 ∧
      (h' 4).parent = some 2 ∧ (h' 4).color = kRbTreeBlack ∧
      ¬ WellFormed 0 h' (.node (.leaf 1) 2 (.leaf 4))) ∧
    WellFormed 0 oneChildLeft (.node (.node (.leaf 1) 2 .nil) 3 (.leaf 4)) ∧
    RedBlack oneChildLeft (.node (.node (.leaf 1) 2 .nil) 3 (.leaf 4)) ∧
    ∃ h', rb_tree_erase_rebalance 0 5 (some 2) oneChildLeft = some (h', some 2) ∧
      (h' 3).left = some 1 ∧ (h' 1).parent = some 3 ∧ (h' 1).color = kRbTreeBlack ∧
      (h' 3).color = (oneChildLeft 3).color ∧ (h' 4).color = (oneChildLeft 4).color ∧
      WellFormed 0 h' (.node (.leaf 1) 3 (.leaf 4)) := by
  refine ⟨by decide, by decide, by decide, by decide, by decide, by decide, by decide,
    by decide, ⟨_, rfl, by decide, by decide, by decide, by decide, by decide, by decide⟩,
    by decide, by decide, _, rfl, by decide, by decide, by decide, by decide, by decide,
    by decide⟩

/-- C23: in a non-empty well-formed tree with Red header and Black root, the header test of
`dec` (`node->parent->parent == node` and `node` Red) is true at the header and false at every
node of the tree. The root also satisfies `node->parent->parent == node`, fails the test, so
`dec` at the root takes the other branches; when `s` precedes the root in the in-order sequence
`dec` at the root gives `s`, and `s` is not `rightmost`. -/
theorem dec_header_test_spec (hd : Nat) (h : Heap) (t : Tree) (fuel : Nat)
    (hwf : WellFormed hd h t) (hne : t.inorder ≠ []) (hc : ExtremesCached hd h t)
    (hred : (h hd).color = kRbTreeRed) (hblack : rootBlack h t = true) :
    (∀ node, dec h fuel node = (dec_header_test h node).bind fun b =>
      if b then getRight h node else dec_rest h fuel node) ∧
    dec_header_test h (some hd) = some true ∧
    (∀ v ∈ t.inorder, dec_header_test h (some v) = some false) ∧
    ∃ r, root hd h = some r ∧ r ∈ t.inorder ∧
      (getParent h (some r)).bind (getParent h) = some (some r) ∧
      dec_header_test h (some r) = some false ∧
      dec h fuel (some r) = dec_rest h fuel (some r) ∧
      ∀ s pre post, t.inorder = pre ++ s :: r :: post → t.inorder.length + 1 ≤ fuel →
        dec h fuel (some r) = some (some s) ∧ rightmost hd h ≠ some s := by
  obtain ⟨htrue, hfalse⟩ := hwf.header_test hne hred hblack
  refine ⟨fun node => dec_eq_test h fuel node, htrue, hfalse, ?_⟩
  cases t with
  | nil => simp [Tree.inorder] at hne
  | node l a r =>
    have hroot : (h hd).parent = some a := hwf.1.1
    have hpar : (h a).parent = some hd := hwf.1.2.1
    have ha : a ∈ (Tree.node l a r).inorder := by simp [Tree.inorder]
    refine ⟨a, hroot, ha, ?_, hfalse a ha, ?_, ?_⟩
    · simp [getParent, hroot, hpar]
    · rw [dec_eq_test, hfalse a ha]
      simp
    · intro s pre post e hf
      refine ⟨hwf.dec_pred hred hblack e fuel hf, ?_⟩
      rw [hc.2, e]
      have hnd : (pre ++ s :: a :: post).Nodup := e ▸ (List.nodup_cons.1 hwf.2).2
      intro hs
      have hlast : (pre ++ s :: a :: post).getLast? = (a :: post).getLast? := by
        rw [show pre ++ s :: a :: post = (pre ++ [s]) ++ (a :: post) by simp]
        rw [List.getLast?_append_of_ne_nil _ (by simp)]
      rw [hlast] at hs
      have hmem : s ∈ a :: post := by
        cases hl : (a :: post).getLast? with
        | none => simp at hl
        | some w =>
          rw [hl] at hs
          simp at hs
          subst hs
          exact List.mem_of_getLast?_eq_some hl
      have := List.nodup_append.1 hnd
      have hdisj := (List.nodup_cons.1 this.2.1).1
      exact hdisj hmem

/-- Instance of `dec_header_test_spec` on `fiveNodes`. -/
theorem dec_header_test_spec_witness :
    dec_header_test fiveNodes (some 0) = some true ∧
    dec_header_test fiveNodes (some 2) = some false ∧
    root 0 fiveNodes = some 2 ∧
    dec fiveNodes 6 (some 2) = some (some 1) ∧ rightmost 0 fiveNodes ≠ some 1 := by
  obtain ⟨-, h1, h2, r, hr, -, -, -, -, h3⟩ :=
    dec_header_test_spec 0 fiveNodes fiveShape 6 (by decide) (by decide) (by decide)
      (by decide) (by decide)
  have hr2 : r = 2 := by
    have : root 0 fiveNodes = some 2 := by decide
    rw [this] at hr
    injection hr with hr
    exact hr.symm
  subst hr2
  exact ⟨h1, h2 2 (by decide), hr, h3 1 [] [3, 4, 5] (by decide) (by decide)⟩

/-- C24: `rb_tree_insert_rebalance` dereferences a null link on a red-black tree with a
freshly linked leaf. In the tree 2(Black) with children 1(Black) and 3(Black), 3 having the Red
right child 4, the leaf 5 is linked to the right of 4. The loop test holds, the parent 4 is a
right child, the uncle is null, and since 5 is not a left child the branch calls
`rb_tree_rotate_right` at 4, whose left link is null: the rotation reads `y->right` of the null
`y`, and no amount of fuel gives a result. -/
theorem insert_rebalance_null_rotation :
    WellFormed 0 ascendingFive
      (.node (.leaf 1) 2 (.node .nil 3 (.node .nil 4 (.leaf 5)))) ∧
    RedBlack ascendingFive (.node (.leaf 1) 2 (.node .nil 3 (.leaf 4))) ∧
    (ascendingFive 5).left = none ∧ (ascendingFive 5).right = none ∧
    (ascendingFive 5).color = kRbTreeRed ∧
    insert_loop_test 0 (some 5) ascendingFive = some true ∧
    (ascendingFive 5).parent = some 4 ∧ (ascendingFive 4).parent = some 3 ∧
    (ascendingFive 3).right = some 4 ∧ (ascendingFive 3).left = none ∧
    (ascendingFive 4).right = some 5 ∧ (ascendingFive 4).left = none ∧
    insert_body_right 0 (some 5) ascendingFive = none ∧
    rb_tree_rotate_right 0 (some 4) ascendingFive = none ∧
    ∀ fuel, rb_tree_insert_rebalance 0 fuel (some 5) ascendingFive = none := by
  refine ⟨by decide, by decide, by decide, by decide, by decide, by decide, by decide,
    by decide, by decide, by decide, by decide, by decide, rfl, rfl, ?_⟩
  intro fuel
  cases fuel with
  | zero => rfl
  | succ n => rfl

/-- C25: `inc` and `dec` are inverse to each other on a non-empty well-formed tree with cached
extremes, Red header and Black root. For every node `v` of the tree `dec` undoes `inc`, `inc`
at `rightmost` gives the header, and for every position `p` other than `leftmost`, the header
included, `inc` undoes `dec`. -/
theorem inc_dec_inverse (hd : Nat) (h : Heap) (t : Tree) (fuel : Nat)
    (hwf : WellFormed hd h t) (hne : t.inorder ≠ []) (hc : ExtremesCached hd h t)
    (hred : (h hd).color = kRbTreeRed) (hblack : rootBlack h t = true)
    (hf : t.inorder.length + 2 ≤ fuel) :
    (∀ v ∈ t.inorder, ∃ q, inc h fuel (some v) = some q ∧ dec h fuel q = some (some v)) ∧
    (∀ v, rightmost hd h = some v → inc h fuel (some v) = some (some hd)) ∧
    ∀ p, (p = hd ∨ p ∈ t.inorder) → leftmost hd h ≠ some p →
      ∃ q, dec h fuel (some p) = some q ∧ inc h fuel q = some (some p) := by
  have hnd : t.inorder.Nodup := (List.nodup_cons.1 hwf.2).2
  have hdt : hd ∉ t.inorder := (List.nodup_cons.1 hwf.2).1
  obtain ⟨w, hw⟩ : ∃ w, t.inorder.getLast? = some w := by
    cases hl : t.inorder.getLast? with
    | none => exact absurd (List.getLast?_eq_none_iff.1 hl) hne
    | some w => exact ⟨w, rfl⟩
  have hrm : rightmost hd h = some w := by rw [hc.2, hw]; rfl
  have hincw : inc h fuel (some w) = some (some hd) := hwf.inc_last hrm hw fuel hf
  have hdechd : dec h fuel (some hd) = some (some w) := by
    rw [hwf.dec_header hne hred hblack fuel, hrm]
  refine ⟨?_, ?_, ?_⟩
  · intro v hv
    obtain ⟨pre, rest, e⟩ := List.append_of_mem hv
    cases rest with
    | nil =>
      have : w = v := by
        rw [e] at hw
        simpa using hw.symm
      subst this
      exact ⟨_, hincw, hdechd⟩
    | cons s post =>
      exact ⟨_, hwf.1.inc_spec hnd e fuel (by omega), hwf.dec_pred hred hblack e fuel (by omega)⟩
  · intro v hv
    rw [hrm] at hv
    injection hv with hv
    subst hv
    exact hincw
  · intro p hp hlm
    rcases hp with rfl | hp
    · exact ⟨_, hdechd, hincw⟩
    · obtain ⟨pre, rest, e⟩ := List.append_of_mem hp
      rcases List.eq_nil_or_concat pre with rfl | ⟨pre0, s, rfl⟩
      · exfalso
        apply hlm
        rw [hc.1, e]
        rfl
      · have e2 : t.inorder = pre0 ++ s :: p :: rest := by rw [e]; simp
        exact ⟨_, hwf.dec_pred hred hblack e2 fuel (by omega),
          hwf.1.inc_spec hnd e2 fuel (by omega)⟩

/-- Instance of `inc_dec_inverse` on `fiveNodes`. -/
theorem inc_dec_inverse_witness :
    (∃ q, inc fiveNodes 7 (some 5) = some q ∧ dec fiveNodes 7 q = some (some 5)) ∧
    inc fiveNodes 7 (some 5) = some (some 0) ∧
    ∃ q, dec fiveNodes 7 (some 0) = some q ∧ inc fiveNodes 7 q = some (some 0) :=
  have k := inc_dec_inverse 0 fiveNodes fiveShape 7 (by decide) (by decide) (by decide)
    (by decide) (by decide) (by decide)
  ⟨k.1 5 (by decide), k.2.1 5 (by decide), k.2.2 0 (Or.inl rfl) (by decide)⟩

end LzjTinySTL
